import Mathlib

/-!
# RISC-V ISA string parser

A shallow embedding of `src/src/rv_isa_string_parser.c` and of the part of
the C library it calls (`tolower`, `isdigit`, `isalnum`, `strtol`), followed
by theorems about the embedded functions.

Conventions of the embedding:

* a C string is the list of its character codes (`List Nat`), without the
  terminating NUL; reading at the index equal to the length yields the
  terminator `0` (`charAt`);
* a `char *` into the ISA string is the offset of the character it points at;
* `long` is 64 bits wide (LP64): `strtol` saturates at `LONG_MIN`/`LONG_MAX`;
* `size_t` counters are natural numbers: `num_exts` is bounded by the length
  of the string, so it cannot wrap;
* the `goto` state machine of `rv_isa_string_parse_exts` is a loop over
  tokens (`parse_ext_loop`); the loop is driven by a fuel argument, and
  `rv_isa_string_parse_exts` supplies one unit of fuel per character plus one.
-/

namespace RvIsa

/-! ## Characters and strings -/

/-- Character codes of a string literal. -/
def cstr (s : String) : List Nat := s.toList.map Char.toNat

/-- Read `s[i]`; the position just past the last character holds the NUL terminator. -/
def charAt (s : List Nat) (i : Nat) : Nat := s.getD i 0

/-- C `tolower` in the "C" locale. -/
def tolower (c : Nat) : Nat := if 65 ≤ c ∧ c ≤ 90 then c + 32 else c

/-- C `isdigit`. -/
def isdigit (c : Nat) : Bool := decide (48 ≤ c ∧ c ≤ 57)

/-- C `isalpha` in the "C" locale. -/
def isalpha (c : Nat) : Bool := decide ((65 ≤ c ∧ c ≤ 90) ∨ (97 ≤ c ∧ c ≤ 122))

/-- C `isalnum` in the "C" locale. -/
def isalnum (c : Nat) : Bool := isdigit c || isalpha c

/-- C `isspace` in the "C" locale: space, `\t`, `\n`, `\v`, `\f`, `\r`. -/
def isspace (c : Nat) : Bool := decide (c = 32 ∨ (9 ≤ c ∧ c ≤ 13))

/-- Largest value of a `long`. -/
def LONG_MAX : Int := 2 ^ 63 - 1

/-- Smallest value of a `long`. -/
def LONG_MIN : Int := -(2 ^ 63)

/-- Value of a run of decimal digits, most significant first. -/
def digits_value (ds : List Nat) : Nat := ds.foldl (fun acc c => acc * 10 + (c - 48)) 0

/-- The white space that `strtol` skips: the offset of the first character at
or after `pos` that is not white space. -/
def strtol_skip (s : List Nat) (pos : Nat) : Nat :=
  pos + ((s.drop pos).takeWhile isspace).length

/-- The offset at which `strtol` expects the digits: after the white space and
an optional `+` or `-`. -/
def strtol_digits (s : List Nat) (pos : Nat) : Nat :=
  if charAt s (strtol_skip s pos) = 45 ∨ charAt s (strtol_skip s pos) = 43 then
    strtol_skip s pos + 1
  else strtol_skip s pos

/-- C `strtol(s + pos, &end, 10)`: skips leading white space, takes an optional
sign and then the longest run of decimal digits. Returns the converted value,
saturated to the range of `long`, and the offset `end`; with no digits the
value is `0` and `end` is `pos` itself. -/
def strtol (s : List Nat) (pos : Nat) : Int × Nat :=
  let ds := (s.drop (strtol_digits s pos)).takeWhile isdigit
  if ds = [] then (0, pos)
  else
    let v : Int :=
      if charAt s (strtol_skip s pos) = 45 then -((digits_value ds : Nat) : Int)
      else ((digits_value ds : Nat) : Int)
    (max LONG_MIN (min LONG_MAX v), strtol_digits s pos + ds.length)

/-! ## Data model (`rv_isa_string_parser.h`) -/

inductive rv_isa_xlen_t where
  | RV32
  | RV64
  | RV128
deriving DecidableEq, Repr

/-- One extension record. `name` is the offset in the ISA string at which the
extension name starts, `len` its length in characters. -/
structure rv_isa_ext_t where
  name : Nat
  len : Nat
  major : Int
  minor : Int
deriving DecidableEq, Repr

/-- The output structure. `exts` is the caller's buffer: the parser overwrites
its first entries and leaves the others as they were. -/
structure rv_isa_t where
  xlen : rv_isa_xlen_t
  num_exts : Nat
  exts : List rv_isa_ext_t
deriving DecidableEq, Repr

inductive rv_isa_parse_error_reason_t where
  | RV_ISA_AMBIGUOUS_P
  | RV_ISA_INCORRECT_EXT_ORDER
  | RV_ISA_INVALID_EXT_NAME
  | RV_ISA_INVALID_XLEN
  | RV_ISA_NO_MINOR_VERSION
  | RV_ISA_UNSEPARATED_MULTI_LETTER
deriving DecidableEq, Repr

/-- The error structure; `location` is an offset into the ISA string. -/
structure rv_isa_parse_error_t where
  reason : rv_isa_parse_error_reason_t
  location : Nat
deriving DecidableEq, Repr

open rv_isa_xlen_t rv_isa_parse_error_reason_t

/-! ## The parser (`rv_isa_string_parser.c`) -/

/-- Function `rv_isa_parse_error`: store the reason and the current cursor, return `false`. -/
def rv_isa_parse_error (isa_string : Nat) (reason : rv_isa_parse_error_reason_t) :
    Bool × rv_isa_parse_error_t :=
  (false, { reason := reason, location := isa_string })

/-- Function `rv_isa_string_consume`: compare the `n` characters at the cursor, lowercased,
with `cmp`; on a match advance the cursor by `n`. Returns the flag and the cursor. -/
def rv_isa_string_consume (s : List Nat) (isa_string : Nat) (n : Nat) (cmp : List Nat) :
    Bool × Nat :=
  if (List.range n).all (fun i => tolower (charAt s (isa_string + i)) == charAt cmp i) then
    (true, isa_string + n)
  else (false, isa_string)

/-- The single-character extension names, in the order in which they must appear. -/
def single_char_exts : List Nat := cstr "iemafdgqlcbjtpvn"

/-- The local variables of `rv_isa_string_parse_exts` that live across tokens;
`isa_string` is the cursor. -/
structure scan_vars where
  isa_string : Nat
  parsed_version : Bool
  have_underscore : Bool
  last_single_char_ext : Int
  multi_letter : Bool
deriving DecidableEq, Repr

/-- How control leaves `parse_ext_start` / `parse_version`: `return true`,
`return rv_isa_parse_error(...)`, or `goto parse_ext_end` with the record built. -/
inductive scan_exit where
  | ret_true (v : scan_vars)
  | ret_error (reason : rv_isa_parse_error_reason_t) (location : Nat)
  | ext_end (v : scan_vars) (ext : rv_isa_ext_t)
deriving DecidableEq, Repr

/-- The loop `while (isdigit(ext_name_start[ext_name_len - 1])) ext_name_len -= 1;`.
The name starts with a letter, so the loop stops before `ext_name_len` reaches 0. -/
def strip_digits (s : List Nat) (ext_name_start : Nat) : Nat → Nat
  | 0 => 0
  | len + 1 =>
    if isdigit (charAt s (ext_name_start + len)) then strip_digits s ext_name_start len
    else len + 1

/-- State `parse_version` (lines 179-208). -/
def parse_version (s : List Nat) (v : scan_vars) (ext : rv_isa_ext_t) : scan_exit :=
  let major := (strtol s v.isa_string).1
  let major_end := (strtol s v.isa_string).2
  if v.isa_string = major_end then
    .ext_end { v with parsed_version := false } ext
  else
    let ext1 := { ext with major := major }
    if charAt s major_end ≠ 112 then
      .ext_end { v with isa_string := major_end, parsed_version := true } ext1
    else
      let minor := (strtol s (major_end + 1)).1
      let minor_end := (strtol s (major_end + 1)).2
      if major_end + 1 ≠ minor_end then
        .ext_end { v with isa_string := minor_end, parsed_version := true }
          { ext1 with minor := minor }
      else
        .ret_error RV_ISA_NO_MINOR_VERSION (major_end + 1)

/-- Lines 95-176 of `parse_ext_start`: the token whose first character, lowercased,
is `c` and stands at the cursor `v.isa_string`. -/
def parse_ext_name (s : List Nat) (default_major_version : Int) (v : scan_vars) (c : Nat) :
    scan_exit :=
  -- `.name = NULL` is written as offset 0; it is overwritten before every emit
  let ext : rv_isa_ext_t := { name := 0, len := 0, major := default_major_version, minor := 0 }
  let i := single_char_exts.indexOf c
  if i < single_char_exts.length then
    if c = 112 ∧ v.parsed_version = true ∧ v.have_underscore = false then
      .ret_error RV_ISA_AMBIGUOUS_P v.isa_string
    else if (i : Int) ≤ v.last_single_char_ext then
      .ret_error RV_ISA_INCORRECT_EXT_ORDER v.isa_string
    else
      parse_version s
        { v with isa_string := v.isa_string + 1, last_single_char_ext := i,
                 multi_letter := false }
        { ext with name := v.isa_string, len := 1 }
  else if c = 122 ∨ c = 115 ∨ c = 104 ∨ c = 120 then
    if v.multi_letter = true ∧ v.have_underscore = false then
      .ret_error RV_ISA_UNSEPARATED_MULTI_LETTER v.isa_string
    else
      let ext_name_start := v.isa_string
      if c = 115 ∧ charAt s (ext_name_start + 1) = 118
          ∧ isdigit (charAt s (ext_name_start + 2)) = true then
        let len := 2 + ((s.drop (ext_name_start + 2)).takeWhile isdigit).length
        .ext_end { v with isa_string := ext_name_start + len, multi_letter := true }
          { ext with name := ext_name_start, len := len }
      else
        let len1 := 1 + ((s.drop (ext_name_start + 1)).takeWhile isalnum).length
        let len2 := strip_digits s ext_name_start len1
        let len3 :=
          if charAt s (ext_name_start + (len2 - 1)) = 112
              ∧ isdigit (charAt s (ext_name_start + (len2 - 2))) = true then
            strip_digits s ext_name_start (len2 - 1)
          else len2
        parse_version s
          { v with isa_string := ext_name_start + len3, multi_letter := true }
          { ext with name := ext_name_start, len := len3 }
  else
    .ret_error RV_ISA_INVALID_EXT_NAME v.isa_string

/-- State `parse_ext_start` (lines 84-176), up to the `goto` that leaves it:
the end-of-string test and the optional underscore (lines 85-93), then the token. -/
def parse_ext_start (s : List Nat) (default_major_version : Int) (v : scan_vars) :
    scan_exit :=
  let c := tolower (charAt s v.isa_string)
  if c = 0 then .ret_true v
  else if c = 95 then
    parse_ext_name s default_major_version
      { v with isa_string := v.isa_string + 1, have_underscore := true }
      (tolower (charAt s (v.isa_string + 1)))
  else
    parse_ext_name s default_major_version v c

/-- State `parse_ext_end` (lines 210-214): store the record when it fits,
count it in any case. -/
def parse_ext_end (isa : rv_isa_t) (max_exts : Nat) (ext : rv_isa_ext_t) : rv_isa_t :=
  { isa with
    exts := if isa.num_exts < max_exts then isa.exts.set isa.num_exts ext else isa.exts,
    num_exts := isa.num_exts + 1 }

/-- The loop of `rv_isa_string_parse_exts` over the states `parse_ext_start`,
`parse_version`, `parse_ext_end`. One unit of fuel is spent per token; `none`
means the fuel ran out. The result is the returned flag, the `isa` structure
and the `err` structure as the call leaves them. -/
def parse_ext_loop (s : List Nat) (default_major_version : Int) (max_exts : Nat) :
    Nat → scan_vars → rv_isa_t → rv_isa_parse_error_t →
      Option (Bool × rv_isa_t × rv_isa_parse_error_t)
  | 0, _, _, _ => none
  | fuel + 1, v, isa, err =>
    match parse_ext_start s default_major_version v with
    | .ret_true _ => some (true, isa, err)
    | .ret_error reason location =>
      some ((rv_isa_parse_error location reason).1, isa, (rv_isa_parse_error location reason).2)
    | .ext_end v1 ext =>
      parse_ext_loop s default_major_version max_exts fuel v1
        (parse_ext_end isa max_exts ext) err

/-- The values of the locals on entry to `rv_isa_string_parse_exts` (lines 65-72). -/
def scan_init (isa_string : Nat) : scan_vars :=
  { isa_string := isa_string, parsed_version := false, have_underscore := false,
    last_single_char_ext := -1, multi_letter := false }

/-- Function `rv_isa_string_parse_exts`: parse the extensions that start at the cursor
`isa_string` of the string `s`. Every token takes at least one character, so
one unit of fuel per character, plus one for the end of the string, is enough
(`rv_isa_string_parse_total`). -/
def rv_isa_string_parse_exts (s : List Nat) (isa_string : Nat) (isa : rv_isa_t)
    (default_major_version : Int) (max_exts : Nat) (err : rv_isa_parse_error_t) :
    Option (Bool × rv_isa_t × rv_isa_parse_error_t) :=
  parse_ext_loop s default_major_version max_exts (s.length + 1) (scan_init isa_string) isa err

/-- Function `rv_isa_string_parse` (lines 219-238): reset `num_exts`, match the width
literal, then parse the extensions; without a width literal, fail with
`RV_ISA_INVALID_XLEN` at the start of the string. -/
def rv_isa_string_parse (isa_string : List Nat) (isa : rv_isa_t)
    (default_major_version : Int) (max_exts : Nat) (err : rv_isa_parse_error_t) :
    Option (Bool × rv_isa_t × rv_isa_parse_error_t) :=
  let isa0 := { isa with num_exts := 0 }
  if (rv_isa_string_consume isa_string 0 4 (cstr "rv32")).1 then
    rv_isa_string_parse_exts isa_string (rv_isa_string_consume isa_string 0 4 (cstr "rv32")).2
      { isa0 with xlen := RV32 } default_major_version max_exts err
  else if (rv_isa_string_consume isa_string 0 4 (cstr "rv64")).1 then
    rv_isa_string_parse_exts isa_string (rv_isa_string_consume isa_string 0 4 (cstr "rv64")).2
      { isa0 with xlen := RV64 } default_major_version max_exts err
  else if (rv_isa_string_consume isa_string 0 5 (cstr "rv128")).1 then
    rv_isa_string_parse_exts isa_string (rv_isa_string_consume isa_string 0 5 (cstr "rv128")).2
      { isa0 with xlen := RV128 } default_major_version max_exts err
  else
    some ((rv_isa_parse_error 0 RV_ISA_INVALID_XLEN).1, isa0,
      (rv_isa_parse_error 0 RV_ISA_INVALID_XLEN).2)

/-! ## The token sequence of a scan

`scan_tokens` is the token loop `parse_ext_loop` without the
output buffer: it lists the records in the order in which `parse_ext_end`
receives them, and how the scan ends. `write_exts` replays the stores of
`parse_ext_end` on a buffer. `parse_exts_eq_scan` below shows that the
parser is exactly the composition of the two. -/

/-- The records emitted from the state `v` on, and the error that ends the scan
(`none` for `return true`). The outer `none` means the fuel ran out. -/
def scan_tokens (s : List Nat) (default_major_version : Int) :
    Nat → scan_vars → Option (List rv_isa_ext_t × Option rv_isa_parse_error_t)
  | 0, _ => none
  | fuel + 1, v =>
    match parse_ext_start s default_major_version v with
    | .ret_true _ => some ([], none)
    | .ret_error reason location => some ([], some { reason := reason, location := location })
    | .ext_end v1 ext =>
      (scan_tokens s default_major_version fuel v1).map (fun r => (ext :: r.1, r.2))

/-- The stores `isa->exts[k] = t` of `parse_ext_end` for the records `toks`,
the first of which has index `k`: a record is stored when its index is below
`max_exts`. -/
def write_exts (max_exts : Nat) : List rv_isa_ext_t → Nat → List rv_isa_ext_t → List rv_isa_ext_t
  | buf, _, [] => buf
  | buf, k, t :: ts => write_exts max_exts (if k < max_exts then buf.set k t else buf) (k + 1) ts

/-- The width literal that `rv_isa_string_parse` recognises at the start of the
string (lines 227-235), with the offset at which the extensions start. -/
def width_literal (s : List Nat) : Option (rv_isa_xlen_t × Nat) :=
  if (rv_isa_string_consume s 0 4 (cstr "rv32")).1 then some (RV32, 4)
  else if (rv_isa_string_consume s 0 4 (cstr "rv64")).1 then some (RV64, 4)
  else if (rv_isa_string_consume s 0 5 (cstr "rv128")).1 then some (RV128, 5)
  else none

/-- The width literal that names a width. -/
def width_name : rv_isa_xlen_t → List Nat
  | RV32 => cstr "rv32"
  | RV64 => cstr "rv64"
  | RV128 => cstr "rv128"

/-- The index of a character, lowercased, in `single_char_exts`; 16 when it is
not a single-character extension name. -/
def canon_index (c : Nat) : Nat := single_char_exts.indexOf (tolower c)

/-- A record of the string `s` names a single-letter extension: its name is one
character long and that character is one of `single_char_exts`, in either case. -/
def is_single_letter_ext (s : List Nat) (r : rv_isa_ext_t) : Prop :=
  r.len = 1 ∧ canon_index (charAt s r.name) < single_char_exts.length

instance (s : List Nat) (r : rv_isa_ext_t) : Decidable (is_single_letter_ext s r) := by
  unfold is_single_letter_ext
  infer_instance

/-- A multi-letter extension name made of letters only: one of z, s, h, x in
either case, followed by letters (possibly none). -/
def multi_letter_name : List Nat → Bool
  | [] => false
  | c :: rest =>
    decide (tolower c = 122 ∨ tolower c = 115 ∨ tolower c = 104 ∨ tolower c = 120) &&
      rest.all isalpha

/-- A number written in decimal: a non-empty string of decimal digits. -/
def decimal_digits (D : List Nat) : Bool := !D.isEmpty && D.all isdigit

/-- The digits of `n`, most significant first, in front of `acc`. -/
def decimal_aux : Nat → Nat → List Nat → List Nat
  | 0, _, acc => acc
  | fuel + 1, n, acc =>
    if n < 10 then (n + 48) :: acc
    else decimal_aux fuel (n / 10) ((n % 10 + 48) :: acc)

/-- The natural number `n` written in decimal, without leading zeros. -/
def decimal (n : Nat) : List Nat := decimal_aux (n + 1) n []

/-- The string `s`, lowercased, begins with the literal `lit`. -/
def starts_with (lit s : List Nat) : Prop := (s.map tolower).take lit.length = lit

instance (lit s : List Nat) : Decidable (starts_with lit s) := by
  unfold starts_with
  infer_instance

/-- The locals after a run `L` of single-letter extensions without version numbers
has been scanned from the state `v`. -/
def after_singles (v : scan_vars) (L : List Nat) : scan_vars :=
  L.foldl (fun u c =>
    { u with isa_string := u.isa_string + 1, last_single_char_ext := canon_index c,
             multi_letter := false, parsed_version := false }) v

/-- The name span of the record `r` of the string `s` is an address-translation
name: `s` or `S`, then a lowercase `v`, then one or more decimal digits, and
nothing else. -/
def is_sv_name (s : List Nat) (r : rv_isa_ext_t) : Prop :=
  3 ≤ r.len ∧ (charAt s r.name = 115 ∨ charAt s r.name = 83) ∧ charAt s (r.name + 1) = 118 ∧
    ∀ j, j < r.len → 2 ≤ j → isdigit (charAt s (r.name + j)) = true

instance (s : List Nat) (r : rv_isa_ext_t) : Decidable (is_sv_name s r) := by
  unfold is_sv_name
  infer_instance

/-- The last character of the name span of the record `r` of the string `s` is a
decimal digit. -/
def name_ends_in_digit (s : List Nat) (r : rv_isa_ext_t) : Prop :=
  isdigit (charAt s (r.name + (r.len - 1))) = true

instance (s : List Nat) (r : rv_isa_ext_t) : Decidable (name_ends_in_digit s r) := by
  unfold name_ends_in_digit
  infer_instance

/-! ## Lemmas: the output buffer -/

theorem write_exts_length (cap : Nat) (toks : List rv_isa_ext_t) :
    ∀ (buf : List rv_isa_ext_t) (k : Nat), (write_exts cap buf k toks).length = buf.length := by
  induction toks with
  | nil => intro buf k; rfl
  | cons t ts ih =>
    intro buf k
    simp only [write_exts]
    rw [ih]
    split <;> simp

theorem write_exts_getElem? (cap : Nat) (toks : List rv_isa_ext_t) :
    ∀ (buf : List rv_isa_ext_t) (k i : Nat),
      (write_exts cap buf k toks)[i]? =
        if k ≤ i ∧ i < k + toks.length ∧ i < cap ∧ i < buf.length then toks[i - k]?
        else buf[i]? := by
  induction toks with
  | nil =>
    intro buf k i
    have h : ¬ (k ≤ i ∧ i < k + ([] : List rv_isa_ext_t).length ∧ i < cap ∧ i < buf.length) := by
      simp only [List.length_nil]; omega
    rw [if_neg h]; rfl
  | cons t ts ih =>
    intro buf k i
    simp only [write_exts]
    rw [ih]
    by_cases hk : k < cap
    · simp only [hk, if_true, List.length_set, List.length_cons]
      by_cases h1 : k + 1 ≤ i ∧ i < k + 1 + ts.length ∧ i < cap ∧ i < buf.length
      · have h2 : k ≤ i ∧ i < k + (ts.length + 1) ∧ i < cap ∧ i < buf.length := by omega
        rw [if_pos h1, if_pos h2]
        have : i - k = (i - (k + 1)) + 1 := by omega
        rw [this, List.getElem?_cons_succ]
      · rw [if_neg h1]
        by_cases h3 : k = i
        · subst h3
          by_cases h4 : k < buf.length
          · have h2 : k ≤ k ∧ k < k + (ts.length + 1) ∧ k < cap ∧ k < buf.length := by omega
            rw [if_pos h2]
            simp [List.getElem?_set, h4]
          · have h2 : ¬ (k ≤ k ∧ k < k + (ts.length + 1) ∧ k < cap ∧ k < buf.length) := by omega
            rw [if_neg h2]
            have h5 : buf.length ≤ k := by omega
            simp [List.getElem?_set, h4, List.getElem?_eq_none h5]
        · have h2 : ¬ (k ≤ i ∧ i < k + (ts.length + 1) ∧ i < cap ∧ i < buf.length) := by omega
          rw [if_neg h2]
          simp [List.getElem?_set, h3]
    · simp only [hk, if_false, List.length_cons]
      have h1 : ¬ (k + 1 ≤ i ∧ i < k + 1 + ts.length ∧ i < cap ∧ i < buf.length) := by omega
      have h2 : ¬ (k ≤ i ∧ i < k + (ts.length + 1) ∧ i < cap ∧ i < buf.length) := by omega
      rw [if_neg h1, if_neg h2]

theorem parse_exts_eq_scan (s : List Nat) (d : Int) (cap : Nat) (err : rv_isa_parse_error_t) :
    ∀ (fuel : Nat) (v : scan_vars) (isa : rv_isa_t),
      parse_ext_loop s d cap fuel v isa err =
        (scan_tokens s d fuel v).map (fun r =>
          (r.2.isNone,
           { isa with num_exts := isa.num_exts + r.1.length,
                      exts := write_exts cap isa.exts isa.num_exts r.1 },
           r.2.getD err)) := by
  intro fuel
  induction fuel with
  | zero => intro v isa; rfl
  | succ n ih =>
    intro v isa
    simp only [parse_ext_loop, scan_tokens]
    cases h : parse_ext_start s d v with
    | ret_true v1 => cases isa; simp [write_exts]
    | ret_error r l => cases isa; simp [rv_isa_parse_error, write_exts]
    | ext_end v1 ext =>
      simp only [ih, Option.map_map]
      cases scan_tokens s d n v1 with
      | none => rfl
      | some r =>
        simp only [Option.map_some', Function.comp, parse_ext_end, write_exts, List.length_cons,
          Nat.add_assoc, Nat.add_comm 1]

/-! ## Lemmas: characters -/

theorem charAt_of_le (s : List Nat) (i : Nat) (h : s.length ≤ i) : charAt s i = 0 := by
  unfold charAt
  exact List.getD_eq_default _ _ h

theorem lt_length_of_charAt_ne_zero (s : List Nat) (i : Nat) (h : charAt s i ≠ 0) :
    i < s.length := by
  by_contra hc
  exact h (charAt_of_le s i (by omega))

theorem tolower_eq_zero (c : Nat) : tolower c = 0 ↔ c = 0 := by
  unfold tolower
  split <;> omega

theorem takeWhile_drop_length_le (p : Nat → Bool) (s : List Nat) (i : Nat) :
    i + ((s.drop i).takeWhile p).length ≤ max i s.length := by
  have h1 : ((s.drop i).takeWhile p).length ≤ (s.drop i).length :=
    (List.takeWhile_sublist p).length_le
  rw [List.length_drop] at h1
  omega

theorem takeWhile_drop_ne_nil (p : Nat → Bool) (s : List Nat) (i : Nat)
    (h : (s.drop i).takeWhile p ≠ []) : i < s.length := by
  by_contra hc
  apply h
  rw [List.drop_of_length_le (by omega)]
  rfl

/-! ## Lemmas: the cursor advances -/

theorem strtol_digits_ge (s : List Nat) (pos : Nat) : pos ≤ strtol_digits s pos := by
  unfold strtol_digits strtol_skip
  split <;> omega

theorem strtol_end (s : List Nat) (pos : Nat) :
    (strtol s pos).2 = pos ∨ (pos < (strtol s pos).2 ∧ (strtol s pos).2 ≤ s.length) := by
  by_cases h : (s.drop (strtol_digits s pos)).takeWhile isdigit = []
  · left; simp [strtol, h]
  · right
    have h1 := takeWhile_drop_ne_nil _ _ _ h
    have h2 := takeWhile_drop_length_le isdigit s (strtol_digits s pos)
    have h3 := List.length_pos.mpr h
    have h4 := strtol_digits_ge s pos
    simp only [strtol, h, if_false]
    omega

theorem parse_version_advance (s : List Nat) (v v1 : scan_vars) (e e1 : rv_isa_ext_t)
    (h : parse_version s v e = .ext_end v1 e1) (hv : v.isa_string ≤ s.length) :
    v.isa_string ≤ v1.isa_string ∧ v1.isa_string ≤ s.length := by
  unfold parse_version at h
  simp only at h
  have hM := strtol_end s v.isa_string
  split at h
  · cases h; exact ⟨Nat.le_refl _, hv⟩
  · rename_i hne
    have hM2 : v.isa_string < (strtol s v.isa_string).2 ∧ (strtol s v.isa_string).2 ≤ s.length := by
      rcases hM with hM | hM
      · exact absurd hM.symm hne
      · exact hM
    split at h
    · cases h; exact ⟨by simp only; omega, hM2.2⟩
    · rename_i hp
      have hp2 : (strtol s v.isa_string).2 < s.length := by
        apply lt_length_of_charAt_ne_zero
        simp only [ne_eq, Decidable.not_not] at hp
        rw [hp]; decide
      have hm := strtol_end s ((strtol s v.isa_string).2 + 1)
      split at h
      · rename_i hne2
        cases h
        simp only
        rcases hm with hm | hm
        · exact absurd hm.symm hne2
        · omega
      · cases h
theorem strip_digits_le (s : List Nat) (start : Nat) : ∀ n, strip_digits s start n ≤ n := by
  intro n
  induction n with
  | zero => simp [strip_digits]
  | succ k ih =>
    simp only [strip_digits]
    split <;> omega

theorem strip_digits_pos (s : List Nat) (start : Nat) (h : isdigit (charAt s start) = false) :
    ∀ n, 1 ≤ n → 1 ≤ strip_digits s start n := by
  intro n
  induction n with
  | zero => intro h0; omega
  | succ k ih =>
    intro _
    simp only [strip_digits]
    split
    · rename_i hd
      rcases Nat.eq_zero_or_pos k with hk | hk
      · subst hk; simp [h] at hd
      · exact ih hk
    · omega

theorem zshx_not_digit (c : Nat) (h : tolower c = 122 ∨ tolower c = 115 ∨ tolower c = 104 ∨ tolower c = 120) :
    isdigit c = false ∧ c ≠ 112 ∧ c ≠ 0 := by
  unfold tolower at h
  unfold isdigit
  simp only [decide_eq_false_iff_not]
  split at h <;> omega

theorem mem_single_char_exts (c : Nat) :
    c ∈ single_char_exts ↔
      c = 105 ∨ c = 101 ∨ c = 109 ∨ c = 97 ∨ c = 102 ∨ c = 100 ∨ c = 103 ∨ c = 113 ∨
      c = 108 ∨ c = 99 ∨ c = 98 ∨ c = 106 ∨ c = 116 ∨ c = 112 ∨ c = 118 ∨ c = 110 := by
  have h : single_char_exts = [105, 101, 109, 97, 102, 100, 103, 113, 108, 99, 98, 106, 116, 112, 118, 110] := by
    decide
  rw [h]
  simp

theorem parse_ext_name_advance (s : List Nat) (d : Int) (v v1 : scan_vars) (e1 : rv_isa_ext_t)
    (h : parse_ext_name s d v (tolower (charAt s v.isa_string)) = .ext_end v1 e1) :
    v.isa_string < v1.isa_string ∧ v1.isa_string ≤ s.length := by
  unfold parse_ext_name at h
  simp only at h
  split at h
  · rename_i hi
    have hmem := (mem_single_char_exts _).mp (List.indexOf_lt_length.mp hi)
    have hne : charAt s v.isa_string ≠ 0 := by
      intro h0; rw [h0] at hmem; simp [tolower] at hmem
    have hlt := lt_length_of_charAt_ne_zero _ _ hne
    split at h
    · cases h
    · split at h
      · cases h
      · have := parse_version_advance s _ v1 _ e1 h (by simp only; omega)
        simp only at this
        omega
  · split at h
    · rename_i hz
      have hfirst := zshx_not_digit _ hz
      have hlt := lt_length_of_charAt_ne_zero _ _ hfirst.2.2
      split at h
      · cases h
      · split at h
        · rename_i hsv
          cases h
          simp only
          have hd : charAt s (v.isa_string + 2) ≠ 0 := by
            intro h0; rw [h0] at hsv; simp [isdigit] at hsv
          have h2 := lt_length_of_charAt_ne_zero _ _ hd
          have h3 := takeWhile_drop_length_le isdigit s (v.isa_string + 2)
          omega
        · have h3 := takeWhile_drop_length_le isalnum s (v.isa_string + 1)
          have h4 := strip_digits_le s v.isa_string
            (1 + ((s.drop (v.isa_string + 1)).takeWhile isalnum).length)
          have h5 := strip_digits_pos s v.isa_string hfirst.1
            (1 + ((s.drop (v.isa_string + 1)).takeWhile isalnum).length) (by omega)
          have h6 := strip_digits_le s v.isa_string
            (strip_digits s v.isa_string
              (1 + ((s.drop (v.isa_string + 1)).takeWhile isalnum).length) - 1)
          have hadv := parse_version_advance s _ v1 _ e1 h
          simp only at hadv
          split at hadv
          · rename_i hp
            have h7 : 2 ≤ strip_digits s v.isa_string
                (1 + ((s.drop (v.isa_string + 1)).takeWhile isalnum).length) := by
              by_contra hc
              have h8 : strip_digits s v.isa_string
                (1 + ((s.drop (v.isa_string + 1)).takeWhile isalnum).length) = 1 := by omega
              rw [h8] at hp
              simp only [Nat.sub_self, Nat.add_zero] at hp
              exact hfirst.2.1 hp.1
            have h9 := strip_digits_pos s v.isa_string hfirst.1
              (strip_digits s v.isa_string
                (1 + ((s.drop (v.isa_string + 1)).takeWhile isalnum).length) - 1) (by omega)
            have := hadv (by omega)
            omega
          · have := hadv (by omega)
            omega
    · cases h

theorem parse_ext_start_advance (s : List Nat) (d : Int) (v v1 : scan_vars) (e1 : rv_isa_ext_t)
    (h : parse_ext_start s d v = .ext_end v1 e1) :
    v.isa_string < v1.isa_string ∧ v1.isa_string ≤ s.length := by
  unfold parse_ext_start at h
  simp only at h
  split at h
  · cases h
  · rename_i h0
    have hlt : v.isa_string < s.length := by
      apply lt_length_of_charAt_ne_zero
      intro hz; exact h0 ((tolower_eq_zero _).mpr hz)
    split at h
    · have := parse_ext_name_advance s d _ v1 e1 h
      simp only at this
      omega
    · exact parse_ext_name_advance s d v v1 e1 h

/-! ## Lemmas: fuel -/

theorem scan_tokens_isSome (s : List Nat) (d : Int) :
    ∀ (fuel : Nat) (v : scan_vars), v.isa_string ≤ s.length → s.length - v.isa_string < fuel →
      (scan_tokens s d fuel v).isSome = true := by
  intro fuel
  induction fuel with
  | zero => intro v _ h; omega
  | succ n ih =>
    intro v hv hf
    simp only [scan_tokens]
    cases h : parse_ext_start s d v with
    | ret_true v1 => rfl
    | ret_error r l => rfl
    | ext_end v1 ext =>
      have := parse_ext_start_advance s d v v1 ext h
      have h2 := ih v1 this.2 (by omega)
      cases hs : scan_tokens s d n v1 with
      | none => rw [hs] at h2; simp at h2
      | some r => simp [hs]

theorem scan_tokens_mono (s : List Nat) (d : Int) :
    ∀ (fuel fuel1 : Nat) (v : scan_vars) (r : List rv_isa_ext_t × Option rv_isa_parse_error_t),
      fuel ≤ fuel1 → scan_tokens s d fuel v = some r → scan_tokens s d fuel1 v = some r := by
  intro fuel
  induction fuel with
  | zero => intro f1 v r _ h; simp [scan_tokens] at h
  | succ n ih =>
    intro f1 v r hle h
    obtain ⟨m, rfl⟩ : ∃ m, f1 = m + 1 := ⟨f1 - 1, by omega⟩
    simp only [scan_tokens] at h ⊢
    cases hp : parse_ext_start s d v with
    | ret_true v1 => rw [hp] at h; exact h
    | ret_error rr l => rw [hp] at h; exact h
    | ext_end v1 ext =>
      rw [hp] at h
      simp only at h ⊢
      cases hs : scan_tokens s d n v1 with
      | none => rw [hs] at h; simp at h
      | some r1 =>
        rw [hs] at h
        rw [ih m v1 r1 (by omega) hs]
        exact h

/-! ## Lemmas: the whole parse -/

theorem consume_snd (s : List Nat) (n : Nat) (cmp : List Nat)
    (h : (rv_isa_string_consume s 0 n cmp).1 = true) :
    (rv_isa_string_consume s 0 n cmp).2 = n := by
  unfold rv_isa_string_consume at h ⊢
  by_cases hc : ((List.range n).all fun i => tolower (charAt s (0 + i)) == charAt cmp i) = true
  · rw [if_pos hc]; simp
  · rw [if_neg hc] at h; simp at h

theorem parse_eq (s : List Nat) (isa : rv_isa_t) (d : Int) (cap : Nat)
    (err : rv_isa_parse_error_t) :
    rv_isa_string_parse s isa d cap err =
      match width_literal s with
      | none =>
        some (false, { isa with num_exts := 0 }, { reason := RV_ISA_INVALID_XLEN, location := 0 })
      | some (w, p) =>
        (scan_tokens s d (s.length + 1) (scan_init p)).map (fun r =>
          (r.2.isNone,
           { xlen := w, num_exts := r.1.length, exts := write_exts cap isa.exts 0 r.1 },
           r.2.getD err)) := by
  unfold rv_isa_string_parse width_literal rv_isa_string_parse_exts
  simp only
  by_cases h1 : (rv_isa_string_consume s 0 4 (cstr "rv32")).1 = true
  · rw [if_pos h1, if_pos h1, consume_snd _ _ _ h1, parse_exts_eq_scan]
    simp only [Nat.zero_add]
  · rw [if_neg h1, if_neg h1]
    by_cases h2 : (rv_isa_string_consume s 0 4 (cstr "rv64")).1 = true
    · rw [if_pos h2, if_pos h2, consume_snd _ _ _ h2, parse_exts_eq_scan]
      simp only [Nat.zero_add]
    · rw [if_neg h2, if_neg h2]
      by_cases h3 : (rv_isa_string_consume s 0 5 (cstr "rv128")).1 = true
      · rw [if_pos h3, if_pos h3, consume_snd _ _ _ h3, parse_exts_eq_scan]
        simp only [Nat.zero_add]
      · rw [if_neg h3, if_neg h3]
        rfl

theorem consume_le (s : List Nat) (n : Nat) (cmp : List Nat) (hn : 0 < n)
    (hc : charAt cmp (n - 1) ≠ 0)
    (h : (rv_isa_string_consume s 0 n cmp).1 = true) : n ≤ s.length := by
  unfold rv_isa_string_consume at h
  split at h
  · rename_i hall
    rw [List.all_eq_true] at hall
    have := hall (n - 1) (List.mem_range.mpr (by omega))
    simp only [Nat.zero_add, beq_iff_eq] at this
    have h2 : charAt s (n - 1) ≠ 0 := by
      intro h0
      rw [h0] at this
      exact hc (this ▸ (by simp [tolower]))
    have := lt_length_of_charAt_ne_zero _ _ h2
    omega
  · simp at h

theorem width_literal_le (s : List Nat) (w : rv_isa_xlen_t) (p : Nat)
    (h : width_literal s = some (w, p)) : p ≤ s.length := by
  unfold width_literal at h
  split at h
  · rename_i h1
    cases h
    exact consume_le s 4 _ (by decide) (by decide) h1
  · split at h
    · rename_i h1
      cases h
      exact consume_le s 4 _ (by decide) (by decide) h1
    · split at h
      · rename_i h1
        cases h
        exact consume_le s 5 _ (by decide) (by decide) h1
      · cases h

theorem scan_total (s : List Nat) (d : Int) (w : rv_isa_xlen_t) (p : Nat)
    (h : width_literal s = some (w, p)) :
    ∃ r, scan_tokens s d (s.length + 1) (scan_init p) = some r := by
  have h1 := scan_tokens_isSome s d (s.length + 1) (scan_init p)
    (width_literal_le s w p h) (by simp only [scan_init]; omega)
  exact Option.isSome_iff_exists.mp h1

theorem parse_cases (s : List Nat) (isa : rv_isa_t) (d : Int) (cap : Nat)
    (err : rv_isa_parse_error_t) :
    (width_literal s = none ∧
      rv_isa_string_parse s isa d cap err =
        some (false, { isa with num_exts := 0 },
          { reason := RV_ISA_INVALID_XLEN, location := 0 })) ∨
    (∃ w p toks fin, width_literal s = some (w, p) ∧
      scan_tokens s d (s.length + 1) (scan_init p) = some (toks, fin) ∧
      rv_isa_string_parse s isa d cap err =
        some (fin.isNone,
          { xlen := w, num_exts := toks.length, exts := write_exts cap isa.exts 0 toks },
          fin.getD err)) := by
  rw [parse_eq]
  cases hw : width_literal s with
  | none => left; exact ⟨rfl, rfl⟩
  | some wp =>
    right
    obtain ⟨w, p⟩ := wp
    obtain ⟨⟨toks, fin⟩, hr⟩ := scan_total s d w p hw
    exact ⟨w, p, toks, fin, rfl, hr, by simp [hr]⟩

/-- The fuel that `rv_isa_string_parse_exts` supplies is enough: the parser
returns on every string. -/
theorem rv_isa_string_parse_total (s : List Nat) (isa : rv_isa_t) (d : Int) (cap : Nat)
    (err : rv_isa_parse_error_t) : ∃ r, rv_isa_string_parse s isa d cap err = some r := by
  rcases parse_cases s isa d cap err with ⟨_, h⟩ | ⟨_, _, _, _, _, _, h⟩
  · exact ⟨_, h⟩
  · exact ⟨_, h⟩

theorem write_exts_take_eq (c1 c2 : Nat) (b1 b2 toks : List rv_isa_ext_t)
    (h1 : c1 ≤ b1.length) (h2 : c2 ≤ b2.length) :
    (write_exts c1 b1 0 toks).take (min (min c1 c2) toks.length) =
      (write_exts c2 b2 0 toks).take (min (min c1 c2) toks.length) := by
  apply List.ext_getElem?
  intro i
  rw [List.getElem?_take, List.getElem?_take]
  split
  · rw [write_exts_getElem?, write_exts_getElem?, if_pos (by omega), if_pos (by omega)]
  · rfl

theorem write_exts_drop_eq (c : Nat) (b toks : List rv_isa_ext_t) :
    (write_exts c b 0 toks).drop (min c toks.length) = b.drop (min c toks.length) := by
  apply List.ext_getElem?
  intro i
  rw [List.getElem?_drop, List.getElem?_drop, write_exts_getElem?, if_neg (by omega)]

/-! ## The claims -/

/-- C1 (count/fill consistency). Two calls of `rv_isa_string_parse` on the same
string and default major version, with any capacities `c1`, `c2` and any prior
contents of the `isa` and `err` structures (the buffers holding at least as many
slots as the capacity announces), both return; they return the same flag; when
they fail they leave the same error reason and offset; when they succeed they
leave the same width and the same `num_exts`, the buffers agree on their first
`min (min c1 c2) num_exts` records (so with `c2 = num_exts`, on the first
`min c1 num_exts`), and the first call has written nothing else: its buffer
keeps its length and, from index `min c1 num_exts` on, its prior contents. -/
theorem count_fill_consistency (s : List Nat) (d : Int) (c1 c2 : Nat)
    (isa1 isa2 : rv_isa_t) (err1 err2 : rv_isa_parse_error_t)
    (h1 : c1 ≤ isa1.exts.length) (h2 : c2 ≤ isa2.exts.length) :
    ∃ r1 r2,
      rv_isa_string_parse s isa1 d c1 err1 = some r1 ∧
      rv_isa_string_parse s isa2 d c2 err2 = some r2 ∧
      r1.1 = r2.1 ∧
      (r1.1 = false → r1.2.2 = r2.2.2) ∧
      (r1.1 = true →
        r1.2.1.xlen = r2.2.1.xlen ∧
        r1.2.1.num_exts = r2.2.1.num_exts ∧
        r1.2.1.exts.take (min (min c1 c2) r1.2.1.num_exts) =
          r2.2.1.exts.take (min (min c1 c2) r1.2.1.num_exts) ∧
        r1.2.1.exts.length = isa1.exts.length ∧
        r1.2.1.exts.drop (min c1 r1.2.1.num_exts) =
          isa1.exts.drop (min c1 r1.2.1.num_exts)) := by
  rcases parse_cases s isa1 d c1 err1 with ⟨hw, hp1⟩ | ⟨w, p, toks, fin, hw, hs, hp1⟩
  · rcases parse_cases s isa2 d c2 err2 with ⟨_, hp2⟩ | ⟨w2, p2, toks2, fin2, hw2, _, _⟩
    · refine ⟨_, _, hp1, hp2, rfl, fun _ => rfl, ?_⟩
      intro h; simp at h
    · rw [hw] at hw2; cases hw2
  · rcases parse_cases s isa2 d c2 err2 with ⟨hw2, _⟩ | ⟨w2, p2, toks2, fin2, hw2, hs2, hp2⟩
    · rw [hw] at hw2; cases hw2
    · rw [hw] at hw2
      cases hw2
      rw [hs] at hs2
      cases hs2
      refine ⟨_, _, hp1, hp2, rfl, ?_, ?_⟩
      · intro hf
        cases fin with
        | none => simp at hf
        | some e => rfl
      · intro _
        exact ⟨rfl, rfl, write_exts_take_eq c1 c2 _ _ toks h1 h2, write_exts_length _ _ _ _,
          write_exts_drop_eq c1 _ toks⟩

/-- C1, at "rv32imac": the call with capacity 0 and an empty buffer, and the call
with capacity 4 and a buffer of four slots. -/
theorem count_fill_consistency_witness :
    ∃ r1 r2,
      rv_isa_string_parse (cstr "rv32imac") ⟨RV32, 0, []⟩ 2 0 ⟨RV_ISA_INVALID_XLEN, 0⟩ = some r1 ∧
      rv_isa_string_parse (cstr "rv32imac") ⟨RV64, 9, List.replicate 4 ⟨0, 0, 0, 0⟩⟩ 2 4
        ⟨RV_ISA_INVALID_XLEN, 0⟩ = some r2 ∧
      r1.1 = r2.1 ∧
      (r1.1 = false → r1.2.2 = r2.2.2) ∧
      (r1.1 = true →
        r1.2.1.xlen = r2.2.1.xlen ∧
        r1.2.1.num_exts = r2.2.1.num_exts ∧
        r1.2.1.exts.take (min (min 0 4) r1.2.1.num_exts) =
          r2.2.1.exts.take (min (min 0 4) r1.2.1.num_exts) ∧
        r1.2.1.exts.length = ([] : List rv_isa_ext_t).length ∧
        r1.2.1.exts.drop (min 0 r1.2.1.num_exts) =
          ([] : List rv_isa_ext_t).drop (min 0 r1.2.1.num_exts)) :=
  count_fill_consistency (cstr "rv32imac") 2 0 4 ⟨RV32, 0, []⟩
    ⟨RV64, 9, List.replicate 4 ⟨0, 0, 0, 0⟩⟩ ⟨RV_ISA_INVALID_XLEN, 0⟩ ⟨RV_ISA_INVALID_XLEN, 0⟩
    (by decide) (by decide)

/-! ## Lemmas: reading tokens -/

theorem charAt_append_right (pre l : List Nat) (i : Nat) :
    charAt (pre ++ l) (pre.length + i) = charAt l i := by
  unfold charAt
  rw [List.getD_append_right _ _ _ _ (by omega)]
  congr 1
  omega

theorem charAt_cons_zero (c : Nat) (l : List Nat) : charAt (c :: l) 0 = c := rfl

theorem charAt_cons_succ (c : Nat) (l : List Nat) (i : Nat) :
    charAt (c :: l) (i + 1) = charAt l i := rfl

theorem charAt_nil (i : Nat) : charAt [] i = 0 := rfl

theorem takeWhile_drop_nil (p : Nat → Bool) (s : List Nat) (i : Nat)
    (h : p (charAt s i) = false) : (s.drop i).takeWhile p = [] := by
  by_cases hi : i < s.length
  · rw [List.drop_eq_getElem_cons hi]
    have : charAt s i = s[i] := List.getD_eq_getElem _ _ hi
    rw [this] at h
    rw [List.takeWhile_cons_of_neg (by simp [h])]
  · rw [List.drop_of_length_le (by omega)]
    rfl

theorem strtol_none (s : List Nat) (p : Nat) (h1 : isspace (charAt s p) = false)
    (h2 : charAt s p ≠ 45) (h3 : charAt s p ≠ 43) (h4 : isdigit (charAt s p) = false) :
    strtol s p = (0, p) := by
  have hs : strtol_skip s p = p := by
    unfold strtol_skip
    rw [takeWhile_drop_nil _ _ _ h1]
    rfl
  have hd : strtol_digits s p = p := by
    unfold strtol_digits
    rw [hs, if_neg (by omega)]
  unfold strtol
  simp only [hd, takeWhile_drop_nil _ _ _ h4, if_true]

theorem parse_version_none (s : List Nat) (v : scan_vars) (e : rv_isa_ext_t)
    (h1 : isspace (charAt s v.isa_string) = false)
    (h2 : charAt s v.isa_string ≠ 45) (h3 : charAt s v.isa_string ≠ 43)
    (h4 : isdigit (charAt s v.isa_string) = false) :
    parse_version s v e = .ext_end { v with parsed_version := false } e := by
  unfold parse_version
  simp only [strtol_none s _ h1 h2 h3 h4, if_true]

theorem single_char_facts (c : Nat) (h : canon_index c < single_char_exts.length) :
    tolower c ≠ 0 ∧ tolower c ≠ 95 ∧ isspace c = false ∧ c ≠ 45 ∧ c ≠ 43 ∧
      isdigit c = false := by
  have hm := (mem_single_char_exts _).mp (List.indexOf_lt_length.mp h)
  clear h
  unfold tolower at hm ⊢
  unfold isspace isdigit
  simp only [decide_eq_false_iff_not]
  by_cases hc : 65 ≤ c ∧ c ≤ 90
  · simp only [if_pos hc] at hm ⊢
    omega
  · simp only [if_neg hc] at hm ⊢
    omega

theorem nul_facts : isspace 0 = false ∧ (0 : Nat) ≠ 45 ∧ (0 : Nat) ≠ 43 ∧ isdigit 0 = false := by
  decide

theorem parse_ext_start_single (s : List Nat) (d : Int) (v : scan_vars)
    (hidx : canon_index (charAt s v.isa_string) < single_char_exts.length)
    (hlast : v.last_single_char_ext < (canon_index (charAt s v.isa_string) : Int))
    (hpv : v.parsed_version = false)
    (h1 : isspace (charAt s (v.isa_string + 1)) = false)
    (h2 : charAt s (v.isa_string + 1) ≠ 45) (h3 : charAt s (v.isa_string + 1) ≠ 43)
    (h4 : isdigit (charAt s (v.isa_string + 1)) = false) :
    parse_ext_start s d v =
      .ext_end
        { v with isa_string := v.isa_string + 1,
                 last_single_char_ext := canon_index (charAt s v.isa_string),
                 multi_letter := false, parsed_version := false }
        { name := v.isa_string, len := 1, major := d, minor := 0 } := by
  have hf := single_char_facts _ hidx
  unfold canon_index at hidx hlast
  unfold parse_ext_start
  simp only [if_neg hf.1, if_neg hf.2.1]
  unfold parse_ext_name
  simp only [if_pos hidx, hpv]
  rw [if_neg (by simp), if_neg (by omega)]
  rw [parse_version_none s _ _ h1 h2 h3 h4]
  rfl

theorem charAt_head_facts (L : List Nat)
    (h : ∀ c ∈ L, canon_index c < single_char_exts.length) :
    isspace (charAt L 0) = false ∧ charAt L 0 ≠ 45 ∧ charAt L 0 ≠ 43 ∧
      isdigit (charAt L 0) = false := by
  cases L with
  | nil => exact nul_facts
  | cons c L =>
    have := single_char_facts c (h c (List.mem_cons_self _ _))
    exact ⟨this.2.2.1, this.2.2.2.1, this.2.2.2.2.1, this.2.2.2.2.2⟩

theorem scan_singles (d : Int) :
    ∀ (L pre : List Nat) (v : scan_vars) (fuel : Nat),
      v.isa_string = pre.length → v.parsed_version = false →
      (∀ c ∈ L, canon_index c < single_char_exts.length ∧
        v.last_single_char_ext < (canon_index c : Int)) →
      L.Pairwise (fun a b => canon_index a < canon_index b) →
      L.length < fuel →
      scan_tokens (pre ++ L) d fuel v =
        some ((List.range' pre.length L.length).map
          (fun p => ({ name := p, len := 1, major := d, minor := 0 } : rv_isa_ext_t)), none) := by
  intro L
  induction L with
  | nil =>
    intro pre v fuel hpos _ _ _ hf
    obtain ⟨f, rfl⟩ : ∃ f, fuel = f + 1 := ⟨fuel - 1, by omega⟩
    have h0 : charAt (pre ++ []) v.isa_string = 0 := charAt_of_le _ _ (by simp [hpos])
    have ht : tolower (charAt (pre ++ []) v.isa_string) = 0 := by rw [h0]; rfl
    simp only [scan_tokens, parse_ext_start, ht, if_true]
    rfl
  | cons c L ih =>
    intro pre v fuel hpos hpv hL hpw hf
    obtain ⟨f, rfl⟩ : ∃ f, fuel = f + 1 := ⟨fuel - 1, by omega⟩
    have hc : charAt (pre ++ c :: L) v.isa_string = c := by
      rw [hpos]
      exact charAt_append_right pre (c :: L) 0
    have hn : charAt (pre ++ c :: L) (v.isa_string + 1) = charAt L 0 := by
      rw [hpos]
      exact charAt_append_right pre (c :: L) 1
    have hcL := hL c (List.mem_cons_self _ _)
    have hnf := charAt_head_facts L (fun x hx => (hL x (List.mem_cons_of_mem _ hx)).1)
    rw [← hn] at hnf
    have hstep := parse_ext_start_single (pre ++ c :: L) d v (by rw [hc]; exact hcL.1)
      (by rw [hc]; exact hcL.2) hpv hnf.1 hnf.2.1 hnf.2.2.1 hnf.2.2.2
    rw [hc] at hstep
    simp only [scan_tokens, hstep]
    have hpw2 := List.pairwise_cons.mp hpw
    have hih := ih (pre ++ [c])
      { v with isa_string := v.isa_string + 1, last_single_char_ext := canon_index c,
               multi_letter := false, parsed_version := false } f
      (by simp [hpos]) rfl
      (fun x hx => ⟨(hL x (List.mem_cons_of_mem _ hx)).1, by
        have := hpw2.1 x hx
        simp only
        omega⟩)
      hpw2.2 (by simp only [List.length_cons] at hf; omega)
    rw [List.append_assoc, List.singleton_append] at hih
    rw [hih]
    simp [hpos, List.range'_succ]

theorem cstr_rv32 : cstr "rv32" = [114, 118, 51, 50] := by decide

theorem cstr_rv64 : cstr "rv64" = [114, 118, 54, 52] := by decide

theorem cstr_rv128 : cstr "rv128" = [114, 118, 49, 50, 56] := by decide

theorem width_literal_of_name (w L : List Nat) (x : rv_isa_xlen_t)
    (h : w.map tolower = width_name x) : width_literal (w ++ L) = some (x, w.length) := by
  cases x with
  | RV32 =>
    simp only [width_name, cstr_rv32] at h
    rcases w with _ | ⟨a, _ | ⟨b, _ | ⟨c, _ | ⟨e, _ | ⟨f, _ | ⟨g, w⟩⟩⟩⟩⟩⟩ <;>
      simp only [List.map, List.cons.injEq, and_true, reduceCtorEq, and_false] at h
    obtain ⟨ha, hb, hc, he⟩ := h
    simp [width_literal, rv_isa_string_consume, cstr_rv32, List.range, List.range.loop, charAt,
      ha, hb, hc, he]
  | RV64 =>
    simp only [width_name, cstr_rv64] at h
    rcases w with _ | ⟨a, _ | ⟨b, _ | ⟨c, _ | ⟨e, _ | ⟨f, _ | ⟨g, w⟩⟩⟩⟩⟩⟩ <;>
      simp only [List.map, List.cons.injEq, and_true, reduceCtorEq, and_false] at h
    obtain ⟨ha, hb, hc, he⟩ := h
    simp [width_literal, rv_isa_string_consume, cstr_rv32, cstr_rv64, List.range,
      List.range.loop, charAt, ha, hb, hc, he]
  | RV128 =>
    simp only [width_name, cstr_rv128] at h
    rcases w with _ | ⟨a, _ | ⟨b, _ | ⟨c, _ | ⟨e, _ | ⟨f, _ | ⟨g, w⟩⟩⟩⟩⟩⟩ <;>
      simp only [List.map, List.cons.injEq, and_true, reduceCtorEq, and_false] at h
    obtain ⟨ha, hb, hc, he, hf⟩ := h
    simp [width_literal, rv_isa_string_consume, cstr_rv32, cstr_rv64, cstr_rv128, List.range,
      List.range.loop, charAt, ha, hb, hc, he, hf]

theorem parse_of_scan (s : List Nat) (isa : rv_isa_t) (d : Int) (cap : Nat)
    (err : rv_isa_parse_error_t) (w : rv_isa_xlen_t) (p fuel : Nat)
    (toks : List rv_isa_ext_t) (fin : Option rv_isa_parse_error_t)
    (hw : width_literal s = some (w, p))
    (hs : scan_tokens s d fuel (scan_init p) = some (toks, fin)) :
    rv_isa_string_parse s isa d cap err =
      some (fin.isNone,
        { xlen := w, num_exts := toks.length, exts := write_exts cap isa.exts 0 toks },
        fin.getD err) := by
  rw [parse_eq, hw]
  obtain ⟨r, hr⟩ := scan_total s d w p hw
  have h1 : scan_tokens s d (max fuel (s.length + 1)) (scan_init p) = some (toks, fin) :=
    scan_tokens_mono s d _ _ _ _ (Nat.le_max_left _ _) hs
  have h2 : scan_tokens s d (max fuel (s.length + 1)) (scan_init p) = some r :=
    scan_tokens_mono s d _ _ _ _ (Nat.le_max_right _ _) hr
  rw [h1] at h2
  cases h2
  simp only [hr, Option.map_some']

/-- C2 (runs of single-letter extensions). For a width literal `w` in any letter
case (`w`, lowercased, is the literal that names the width `x`) and a list `L` of
single-letter extension names, in any case, in strictly increasing canonical
order, `rv_isa_string_parse (w ++ L)` with a capacity of at least `|L|` (and a
buffer of at least that many slots) returns true, leaves `err` untouched, sets
the width `x` and `num_exts = |L|`, and the record of index `i` is the
one-character name at offset `|w| + i` with the default major version and
minor version 0. -/
theorem single_letter_run_parses (x : rv_isa_xlen_t) (w L : List Nat) (d : Int) (cap : Nat)
    (isa : rv_isa_t) (err : rv_isa_parse_error_t)
    (hw : w.map tolower = width_name x)
    (hL : ∀ c ∈ L, canon_index c < single_char_exts.length)
    (hord : L.Pairwise (fun a b => canon_index a < canon_index b))
    (hcap : L.length ≤ cap) (hbuf : cap ≤ isa.exts.length) :
    ∃ isa1, rv_isa_string_parse (w ++ L) isa d cap err = some (true, isa1, err) ∧
      isa1.xlen = x ∧ isa1.num_exts = L.length ∧
      ∀ i, i < L.length →
        isa1.exts[i]? = some { name := w.length + i, len := 1, major := d, minor := 0 } := by
  have hs := scan_singles d L w (scan_init w.length) (L.length + 1) rfl rfl
    (fun c hc => ⟨hL c hc, by simp only [scan_init]; omega⟩) hord (by omega)
  have hp := parse_of_scan (w ++ L) isa d cap err x w.length _ _ _
    (width_literal_of_name w L x hw) hs
  refine ⟨_, hp, rfl, by simp, ?_⟩
  intro i hi
  simp only
  rw [write_exts_getElem?, if_pos (by simp; omega)]
  simp [List.getElem?_map, List.getElem?_range', hi]

/-- C2 at the string of the specification: "rv32imac" with default major version 2
and capacity 4 gives four records i, m, a, c with versions 2.0 and width RV32. -/
theorem single_letter_run_parses_witness :
    ∃ isa1, rv_isa_string_parse (cstr "rv32" ++ cstr "imac")
        ⟨RV64, 7, List.replicate 4 ⟨0, 0, 0, 0⟩⟩ 2 4 ⟨RV_ISA_INVALID_XLEN, 0⟩ =
          some (true, isa1, ⟨RV_ISA_INVALID_XLEN, 0⟩) ∧
      isa1.xlen = RV32 ∧ isa1.num_exts = (cstr "imac").length ∧
      ∀ i, i < (cstr "imac").length →
        isa1.exts[i]? = some { name := (cstr "rv32").length + i, len := 1, major := 2, minor := 0 } :=
  single_letter_run_parses RV32 (cstr "rv32") (cstr "imac") 2 4
    ⟨RV64, 7, List.replicate 4 ⟨0, 0, 0, 0⟩⟩ ⟨RV_ISA_INVALID_XLEN, 0⟩
    (by decide) (by decide) (by decide) (by decide) (by decide)

/-! ## Lemmas: the order of the single-letter extensions -/

theorem parse_version_keeps (s : List Nat) (v v1 : scan_vars) (e e1 : rv_isa_ext_t)
    (h : parse_version s v e = .ext_end v1 e1) :
    e1.name = e.name ∧ e1.len = e.len ∧ v1.last_single_char_ext = v.last_single_char_ext ∧
      v1.multi_letter = v.multi_letter ∧ v1.have_underscore = v.have_underscore := by
  unfold parse_version at h
  simp only at h
  split at h
  · cases h; simp
  · split at h
    · cases h; simp
    · split at h
      · cases h; simp
      · cases h

theorem parse_ext_name_order (s : List Nat) (d : Int) (v v1 : scan_vars) (e1 : rv_isa_ext_t)
    (h : parse_ext_name s d v (tolower (charAt s v.isa_string)) = .ext_end v1 e1) :
    v.last_single_char_ext ≤ v1.last_single_char_ext ∧
      (is_single_letter_ext s e1 →
        v1.last_single_char_ext = (canon_index (charAt s e1.name) : Int) ∧
          v.last_single_char_ext < v1.last_single_char_ext) := by
  unfold parse_ext_name at h
  simp only at h
  split at h
  · split at h
    · cases h
    · split at h
      · cases h
      · rename_i hlast
        have hk := parse_version_keeps s _ v1 _ e1 h
        simp only at hk
        rw [hk.2.2.1, hk.1]
        unfold canon_index
        exact ⟨by omega, fun _ => ⟨rfl, by omega⟩⟩
  · rename_i hi
    split at h
    · split at h
      · cases h
      · split at h
        · cases h
          refine ⟨Int.le_refl _, fun hs => ?_⟩
          exact absurd hs.2 hi
        · have hk := parse_version_keeps s _ v1 _ e1 h
          simp only at hk
          rw [hk.2.2.1]
          refine ⟨Int.le_refl _, fun hs => ?_⟩
          have := hs.2
          rw [hk.1] at this
          exact absurd this hi
    · cases h

theorem parse_ext_start_order (s : List Nat) (d : Int) (v v1 : scan_vars) (e1 : rv_isa_ext_t)
    (h : parse_ext_start s d v = .ext_end v1 e1) :
    v.last_single_char_ext ≤ v1.last_single_char_ext ∧
      (is_single_letter_ext s e1 →
        v1.last_single_char_ext = (canon_index (charAt s e1.name) : Int) ∧
          v.last_single_char_ext < v1.last_single_char_ext) := by
  unfold parse_ext_start at h
  simp only at h
  split at h
  · cases h
  · split at h
    · have := parse_ext_name_order s d _ v1 e1 h
      exact this
    · exact parse_ext_name_order s d v v1 e1 h

theorem scan_tokens_order (s : List Nat) (d : Int) :
    ∀ (fuel : Nat) (v : scan_vars) (toks : List rv_isa_ext_t)
      (fin : Option rv_isa_parse_error_t),
      scan_tokens s d fuel v = some (toks, fin) →
      (∀ t ∈ toks, is_single_letter_ext s t →
        v.last_single_char_ext < (canon_index (charAt s t.name) : Int)) ∧
      toks.Pairwise (fun a b => is_single_letter_ext s a → is_single_letter_ext s b →
        canon_index (charAt s a.name) < canon_index (charAt s b.name)) := by
  intro fuel
  induction fuel with
  | zero => intro v toks fin h; simp [scan_tokens] at h
  | succ n ih =>
    intro v toks fin h
    simp only [scan_tokens] at h
    cases hp : parse_ext_start s d v with
    | ret_true v1 =>
      rw [hp] at h; cases h
      exact ⟨fun t ht => by simp at ht, List.Pairwise.nil⟩
    | ret_error r l =>
      rw [hp] at h; cases h
      exact ⟨fun t ht => by simp at ht, List.Pairwise.nil⟩
    | ext_end v1 ext =>
      rw [hp] at h
      simp only at h
      cases hs : scan_tokens s d n v1 with
      | none => rw [hs] at h; simp at h
      | some r =>
        rw [hs] at h
        obtain ⟨toks1, fin1⟩ := r
        simp only [Option.map_some', Option.some.injEq, Prod.mk.injEq] at h
        obtain ⟨rfl, rfl⟩ := h
        have hih := ih v1 toks1 fin1 hs
        have hord := parse_ext_start_order s d v v1 ext hp
        constructor
        · intro t ht hsl
          rcases List.mem_cons.mp ht with rfl | ht
          · have := hord.2 hsl
            omega
          · have := hih.1 t ht hsl
            omega
        · refine List.Pairwise.cons ?_ hih.2
          intro b hb ha hsb
          have h1 := hord.2 ha
          have h2 := hih.1 b hb hsb
          omega

/-- C3 (canonical-order invariant). When `rv_isa_string_parse` returns true and the
capacity was at least `num_exts` (the buffer holding at least as many slots as
the capacity), any two records that name single-letter extensions (a
one-character name that is one of i e m a f d g q l c b j t p v n, in either
case) stand in the buffer in strictly increasing canonical index, whatever lies
between them; so none of these letters is recorded twice. -/
theorem canonical_order_invariant (s : List Nat) (isa isa1 : rv_isa_t) (d : Int) (cap : Nat)
    (err err1 : rv_isa_parse_error_t)
    (h : rv_isa_string_parse s isa d cap err = some (true, isa1, err1))
    (hcap : isa1.num_exts ≤ cap) (hbuf : cap ≤ isa.exts.length)
    (i j : Nat) (ri rj : rv_isa_ext_t) (hij : i < j) (hj : j < isa1.num_exts)
    (hi : isa1.exts[i]? = some ri) (hjr : isa1.exts[j]? = some rj)
    (hsi : is_single_letter_ext s ri) (hsj : is_single_letter_ext s rj) :
    canon_index (charAt s ri.name) < canon_index (charAt s rj.name) := by
  rcases parse_cases s isa d cap err with ⟨_, hp⟩ | ⟨w, p, toks, fin, hw, hs, hp⟩
  · rw [hp] at h; simp at h
  · rw [hp] at h
    simp only [Option.some.injEq, Prod.mk.injEq] at h
    obtain ⟨_, rfl, _⟩ := h
    simp only at hj hcap hi hjr
    rw [write_exts_getElem?, if_pos (by omega)] at hi hjr
    simp only [Nat.sub_zero] at hi hjr
    have hpw := (scan_tokens_order s d _ _ toks fin hs).2
    rw [List.pairwise_iff_getElem] at hpw
    have hi2 : i < toks.length := by omega
    have hj2 : j < toks.length := hj
    have := hpw i j hi2 hj2 hij
    rw [List.getElem?_eq_getElem hi2] at hi
    rw [List.getElem?_eq_getElem hj2] at hjr
    cases hi
    cases hjr
    exact this hsi hsj

/-- C3 at "rv64i_zicsr_m_sv39_c": the records i (index 0) and m (index 2), with the
multi-letter zicsr between them, have canonical indices 0 and 2. -/
theorem canonical_order_invariant_witness :
    rv_isa_string_parse (cstr "rv64i_zicsr_m_sv39_c") ⟨RV32, 0, List.replicate 5 ⟨0, 0, 0, 0⟩⟩ 2 5
        ⟨RV_ISA_INVALID_XLEN, 0⟩ =
      some (true, ⟨RV64, 5, [⟨4, 1, 2, 0⟩, ⟨6, 5, 2, 0⟩, ⟨12, 1, 2, 0⟩, ⟨14, 4, 2, 0⟩,
        ⟨19, 1, 2, 0⟩]⟩, ⟨RV_ISA_INVALID_XLEN, 0⟩) ∧
    canon_index (charAt (cstr "rv64i_zicsr_m_sv39_c") 4) <
      canon_index (charAt (cstr "rv64i_zicsr_m_sv39_c") 12) :=
  ⟨by decide,
   canonical_order_invariant (cstr "rv64i_zicsr_m_sv39_c")
    ⟨RV32, 0, List.replicate 5 ⟨0, 0, 0, 0⟩⟩
    ⟨RV64, 5, [⟨4, 1, 2, 0⟩, ⟨6, 5, 2, 0⟩, ⟨12, 1, 2, 0⟩, ⟨14, 4, 2, 0⟩, ⟨19, 1, 2, 0⟩]⟩ 2 5
    ⟨RV_ISA_INVALID_XLEN, 0⟩ ⟨RV_ISA_INVALID_XLEN, 0⟩ (by decide) (by decide) (by decide)
    0 2 ⟨4, 1, 2, 0⟩ ⟨12, 1, 2, 0⟩ (by decide) (by decide) (by decide) (by decide)
    (by decide) (by decide)⟩

/-! ## Lemmas: multi-letter tokens -/

theorem charAt_append_left (A B : List Nat) (i : Nat) (h : i < A.length) :
    charAt (A ++ B) i = charAt A i := by
  unfold charAt
  exact List.getD_append _ _ _ _ h

theorem charAt_append_right_sub (A B : List Nat) (i : Nat) (h : A.length ≤ i) :
    charAt (A ++ B) i = charAt B (i - A.length) := by
  unfold charAt
  exact List.getD_append_right _ _ _ _ h

theorem charAt_mem (A : List Nat) (i : Nat) (h : i < A.length) : charAt A i ∈ A := by
  unfold charAt
  rw [List.getD_eq_getElem _ _ h]
  exact List.getElem_mem h

theorem takeWhile_drop_run (p : Nat → Bool) (pre A B : List Nat)
    (hA : ∀ x ∈ A, p x = true) (hB : p (charAt B 0) = false) :
    ((pre ++ (A ++ B)).drop pre.length).takeWhile p = A := by
  rw [List.drop_left]
  cases B with
  | nil =>
    rw [List.append_nil]
    exact List.takeWhile_eq_self_iff.mpr hA
  | cons b B =>
    rw [List.takeWhile_append_of_pos hA]
    rw [charAt_cons_zero] at hB
    rw [List.takeWhile_cons_of_neg (by simp [hB])]
    simp

theorem strip_digits_run (s : List Nat) (start n : Nat) :
    ∀ k, (∀ i, i < k → isdigit (charAt s (start + n + i)) = true) →
      isdigit (charAt s (start + (n - 1))) = false → 1 ≤ n →
      strip_digits s start (n + k) = n := by
  intro k
  induction k with
  | zero =>
    intro _ hn h1
    obtain ⟨m, rfl⟩ : ∃ m, n = m + 1 := ⟨n - 1, by omega⟩
    simp only [Nat.add_zero, strip_digits]
    simp only [Nat.add_sub_cancel] at hn
    rw [hn]
    rfl
  | succ k ih =>
    intro hd hn h1
    have : n + (k + 1) = (n + k) + 1 := by omega
    rw [this]
    simp only [strip_digits]
    have h2 := hd k (by omega)
    rw [show start + (n + k) = start + n + k by omega, h2]
    simp only [if_true]
    exact ih (fun i hi => hd i (by omega)) hn h1

theorem zshx_index (c : Nat) (h : c = 122 ∨ c = 115 ∨ c = 104 ∨ c = 120) :
    ¬ (single_char_exts.indexOf c < single_char_exts.length) := by
  rcases h with rfl | rfl | rfl | rfl <;> decide

theorem isalpha_facts (c : Nat) (h : isalpha c = true) :
    isalnum c = true ∧ isdigit c = false ∧ c ≠ 0 := by
  unfold isalnum
  unfold isalpha at h ⊢
  unfold isdigit
  simp only [decide_eq_true_eq] at h
  simp only [Bool.or_eq_true, decide_eq_true_eq, decide_eq_false_iff_not]
  omega

theorem isdigit_facts (c : Nat) (h : isdigit c = true) :
    isalnum c = true ∧ isspace c = false ∧ c ≠ 45 ∧ c ≠ 43 ∧ c ≠ 118 ∧ c ≠ 112 ∧ c ≠ 0 := by
  unfold isalnum isspace
  unfold isdigit at h ⊢
  simp only [decide_eq_true_eq] at h
  simp only [Bool.or_eq_true, decide_eq_true_eq, decide_eq_false_iff_not]
  omega

theorem zshx_alnum (c : Nat)
    (h : tolower c = 122 ∨ tolower c = 115 ∨ tolower c = 104 ∨ tolower c = 120) :
    isalpha c = true := by
  unfold tolower at h
  unfold isalpha
  simp only [decide_eq_true_eq]
  split at h <;> omega

theorem charAt_tok_lt (pre N post : List Nat) (i : Nat) (h : i < N.length) :
    charAt (pre ++ (N ++ post)) (pre.length + i) = charAt N i := by
  rw [charAt_append_right, charAt_append_left _ _ _ h]

theorem charAt_tok_ge (pre N post : List Nat) (i : Nat) (h : N.length ≤ i) :
    charAt (pre ++ (N ++ post)) (pre.length + i) = charAt post (i - N.length) := by
  rw [charAt_append_right, charAt_append_right_sub _ _ _ h]

theorem name_chars_alpha (c : Nat) (rest : List Nat)
    (hc : tolower c = 122 ∨ tolower c = 115 ∨ tolower c = 104 ∨ tolower c = 120)
    (hrest : ∀ x ∈ rest, isalpha x = true) (i : Nat) (h : i < (c :: rest).length) :
    isalpha (charAt (c :: rest) i) = true := by
  have := charAt_mem (c :: rest) i h
  rcases List.mem_cons.mp this with h1 | h1
  · rw [h1]; exact zshx_alnum c hc
  · exact hrest _ h1

/-- The multi-letter branch on a name made of letters only, followed by a
character that is not alphanumeric and does not start a number. -/
theorem parse_ext_name_letters (d : Int) (v : scan_vars) (pre post rest : List Nat) (c : Nat)
    (hpos : v.isa_string = pre.length)
    (hc : tolower c = 122 ∨ tolower c = 115 ∨ tolower c = 104 ∨ tolower c = 120)
    (hrest : ∀ x ∈ rest, isalpha x = true)
    (hp1 : isalnum (charAt post 0) = false) (hp2 : isspace (charAt post 0) = false)
    (hp3 : charAt post 0 ≠ 45) (hp4 : charAt post 0 ≠ 43)
    (hsep : ¬ (v.multi_letter = true ∧ v.have_underscore = false)) :
    parse_ext_name (pre ++ ((c :: rest) ++ post)) d v (tolower c) =
      .ext_end
        { v with isa_string := pre.length + (c :: rest).length, multi_letter := true,
                 parsed_version := false }
        { name := pre.length, len := (c :: rest).length, major := d, minor := 0 } := by
  have hpd : isdigit (charAt post 0) = false := by
    unfold isalnum at hp1
    simp only [Bool.or_eq_false_iff] at hp1
    exact hp1.1
  have hal := name_chars_alpha c rest hc hrest
  have hlt := fun i (h : i < (c :: rest).length) => charAt_tok_lt pre (c :: rest) post i h
  have hge := fun i (h : (c :: rest).length ≤ i) => charAt_tok_ge pre (c :: rest) post i h
  have hfirst := zshx_not_digit c hc
  have hlen : (c :: rest).length = rest.length + 1 := rfl
  -- the `svN` test fails
  have hsv : ¬ (tolower c = 115 ∧ charAt (pre ++ ((c :: rest) ++ post)) (pre.length + 1) = 118
      ∧ isdigit (charAt (pre ++ ((c :: rest) ++ post)) (pre.length + 2)) = true) := by
    rintro ⟨_, h1, h2⟩
    by_cases hr : 2 < (c :: rest).length
    · rw [hlt 2 hr] at h2
      have := (isalpha_facts _ (hal 2 hr)).2.1
      rw [this] at h2; cases h2
    · by_cases hr1 : 1 < (c :: rest).length
      · rw [hge 2 (by omega)] at h2
        have : 2 - (c :: rest).length = 0 := by omega
        rw [this, hpd] at h2; cases h2
      · rw [hge 1 (by omega)] at h1
        have : 1 - (c :: rest).length = 0 := by omega
        rw [this] at h1
        rw [h1] at hp1
        revert hp1; decide
  -- the alphanumeric run is the rest of the name
  have hrun : ((pre ++ ((c :: rest) ++ post)).drop (pre.length + 1)).takeWhile isalnum = rest := by
    have h1 : pre ++ ((c :: rest) ++ post) = (pre ++ [c]) ++ (rest ++ post) := by simp
    have h2 : pre.length + 1 = (pre ++ [c]).length := by simp
    rw [h1, h2]
    exact takeWhile_drop_run isalnum _ rest post (fun x hx => (isalpha_facts x (hrest x hx)).1) hp1
  -- nothing is stripped
  have hstrip : strip_digits (pre ++ ((c :: rest) ++ post)) pre.length (1 + rest.length)
      = 1 + rest.length := by
    have := strip_digits_run (pre ++ ((c :: rest) ++ post)) pre.length (1 + rest.length) 0
      (fun i hi => by omega)
      (by
        rw [hlt _ (by rw [hlen]; omega)]
        exact (isalpha_facts _ (hal _ (by rw [hlen]; omega))).2.1)
      (by omega)
    simpa using this
  have hnop : ¬ (charAt (pre ++ ((c :: rest) ++ post)) (pre.length + (1 + rest.length - 1)) = 112
      ∧ isdigit (charAt (pre ++ ((c :: rest) ++ post)) (pre.length + (1 + rest.length - 2)))
        = true) := by
    rintro ⟨h1, h2⟩
    rw [hlt _ (by rw [hlen]; omega)] at h1 h2
    by_cases hr : rest.length = 0
    · rw [hr] at h1
      simp only [Nat.add_zero, Nat.sub_self, charAt_cons_zero] at h1
      exact hfirst.2.1 h1
    · have := (isalpha_facts _ (hal (1 + rest.length - 2) (by rw [hlen]; omega))).2.1
      rw [this] at h2; cases h2
  have hend : charAt (pre ++ ((c :: rest) ++ post)) (pre.length + (1 + rest.length))
      = charAt post 0 := by
    rw [hge _ (by rw [hlen]; omega)]
    congr 1
    rw [hlen]; omega
  unfold parse_ext_name
  simp only [hpos]
  rw [if_neg (zshx_index _ hc), if_pos hc, if_neg hsep, if_neg hsv]
  simp only [hrun, hstrip]
  rw [if_neg hnop]
  rw [parse_version_none _ _ _ (by simp only; rw [hend]; exact hp2)
    (by simp only; rw [hend]; exact hp3) (by simp only; rw [hend]; exact hp4)
    (by simp only; rw [hend]; exact hpd)]
  simp only [hlen, Nat.add_comm 1]

theorem multi_letter_name_cases (n : List Nat) (h : multi_letter_name n = true) :
    ∃ c rest, n = c :: rest ∧
      (tolower c = 122 ∨ tolower c = 115 ∨ tolower c = 104 ∨ tolower c = 120) ∧
      ∀ x ∈ rest, isalpha x = true := by
  cases n with
  | nil => simp [multi_letter_name] at h
  | cons c rest =>
    simp only [multi_letter_name, Bool.and_eq_true, decide_eq_true_eq, List.all_eq_true] at h
    exact ⟨c, rest, rfl, h.1, h.2⟩

theorem parse_ext_start_end (s : List Nat) (d : Int) (v : scan_vars)
    (h : s.length ≤ v.isa_string) : parse_ext_start s d v = .ret_true v := by
  unfold parse_ext_start
  simp only [charAt_of_le s _ h]
  rfl

theorem parse_ext_start_letters (d : Int) (v : scan_vars) (pre post rest : List Nat) (c : Nat)
    (hpos : v.isa_string = pre.length)
    (hc : tolower c = 122 ∨ tolower c = 115 ∨ tolower c = 104 ∨ tolower c = 120)
    (hrest : ∀ x ∈ rest, isalpha x = true)
    (hp1 : isalnum (charAt post 0) = false) (hp2 : isspace (charAt post 0) = false)
    (hp3 : charAt post 0 ≠ 45) (hp4 : charAt post 0 ≠ 43)
    (hsep : ¬ (v.multi_letter = true ∧ v.have_underscore = false)) :
    parse_ext_start (pre ++ ((c :: rest) ++ post)) d v =
      .ext_end
        { v with isa_string := pre.length + (c :: rest).length, multi_letter := true,
                 parsed_version := false }
        { name := pre.length, len := (c :: rest).length, major := d, minor := 0 } := by
  have hch : charAt (pre ++ ((c :: rest) ++ post)) v.isa_string = c := by
    rw [hpos]
    exact charAt_tok_lt pre (c :: rest) post 0 (by simp)
  unfold parse_ext_start
  simp only [hch]
  rw [if_neg (by omega), if_neg (by omega)]
  exact parse_ext_name_letters d v pre post rest c hpos hc hrest hp1 hp2 hp3 hp4 hsep

theorem parse_ext_start_us_letters (d : Int) (v : scan_vars) (pre post rest : List Nat)
    (c : Nat) (hpos : v.isa_string = pre.length)
    (hc : tolower c = 122 ∨ tolower c = 115 ∨ tolower c = 104 ∨ tolower c = 120)
    (hrest : ∀ x ∈ rest, isalpha x = true)
    (hp1 : isalnum (charAt post 0) = false) (hp2 : isspace (charAt post 0) = false)
    (hp3 : charAt post 0 ≠ 45) (hp4 : charAt post 0 ≠ 43) :
    parse_ext_start (pre ++ (95 :: ((c :: rest) ++ post))) d v =
      .ext_end
        { v with isa_string := pre.length + 1 + (c :: rest).length, multi_letter := true,
                 parsed_version := false, have_underscore := true }
        { name := pre.length + 1, len := (c :: rest).length, major := d, minor := 0 } := by
  have hs : pre ++ (95 :: ((c :: rest) ++ post)) = (pre ++ [95]) ++ ((c :: rest) ++ post) := by
    simp
  have hch : charAt (pre ++ (95 :: ((c :: rest) ++ post))) v.isa_string = 95 := by
    rw [hpos]
    exact charAt_append_right pre _ 0
  have hch1 : charAt (pre ++ (95 :: ((c :: rest) ++ post))) (v.isa_string + 1) = c := by
    rw [hpos]
    exact charAt_append_right pre _ 1
  unfold parse_ext_start
  simp only [hch, hch1]
  rw [if_neg (by decide), if_pos (by decide)]
  rw [hs]
  have := parse_ext_name_letters d
    { v with isa_string := v.isa_string + 1, have_underscore := true } (pre ++ [95]) post rest c
    (by simp [hpos]) hc hrest hp1 hp2 hp3 hp4 (by simp)
  rw [this]
  simp

theorem cstr_rv64gc : cstr "rv64gc" = [114, 118, 54, 52, 103, 99] := by decide

theorem width_literal_rv64gc (post : List Nat) :
    width_literal (cstr "rv64gc" ++ post) = some (RV64, 4) := by
  have h := width_literal_of_name (cstr "rv64") (cstr "gc" ++ post) RV64 (by decide)
  have he : cstr "rv64" ++ (cstr "gc" ++ post) = cstr "rv64gc" ++ post := by
    rw [← List.append_assoc]
    congr 1
  rw [he] at h
  exact h

/-- The scan of "rv64gc" followed by anything that does not start a number:
the records g and c, then the scan of what follows. -/
theorem scan_rv64gc (d : Int) (post : List Nat) (fuel : Nat)
    (hp1 : isdigit (charAt post 0) = false) (hp2 : isspace (charAt post 0) = false)
    (hp3 : charAt post 0 ≠ 45) (hp4 : charAt post 0 ≠ 43) :
    scan_tokens (cstr "rv64gc" ++ post) d (fuel + 2) (scan_init 4) =
      (scan_tokens (cstr "rv64gc" ++ post) d fuel
        { isa_string := 6, parsed_version := false, have_underscore := false,
          last_single_char_ext := 9, multi_letter := false }).map
        (fun r => (({ name := 4, len := 1, major := d, minor := 0 } : rv_isa_ext_t) ::
          { name := 5, len := 1, major := d, minor := 0 } :: r.1, r.2)) := by
  have h4 : charAt (cstr "rv64gc" ++ post) 4 = 103 :=
    charAt_append_left (cstr "rv64gc") post 4 (by decide)
  have h5 : charAt (cstr "rv64gc" ++ post) 5 = 99 :=
    charAt_append_left (cstr "rv64gc") post 5 (by decide)
  have h6 : charAt (cstr "rv64gc" ++ post) 6 = charAt post 0 :=
    charAt_append_right (cstr "rv64gc") post 0
  have s1 := parse_ext_start_single (cstr "rv64gc" ++ post) d (scan_init 4)
    (by simp only [scan_init]; rw [h4]; decide) (by simp only [scan_init]; rw [h4]; decide) rfl
    (by simp only [scan_init]; rw [h5]; decide) (by simp only [scan_init]; rw [h5]; decide)
    (by simp only [scan_init]; rw [h5]; decide) (by simp only [scan_init]; rw [h5]; decide)
  have s2 := parse_ext_start_single (cstr "rv64gc" ++ post) d
    { isa_string := 5, parsed_version := false, have_underscore := false,
      last_single_char_ext := 6, multi_letter := false }
    (by simp only; rw [h5]; decide) (by simp only; rw [h5]; decide) rfl
    (by simp only; rw [h6]; exact hp2) (by simp only; rw [h6]; exact hp3)
    (by simp only; rw [h6]; exact hp4) (by simp only; rw [h6]; exact hp1)
  simp only [scan_init] at s1
  simp only [h4] at s1
  simp only [h5] at s2
  have c4 : canon_index 103 = 6 := by decide
  have c5 : canon_index 99 = 9 := by decide
  rw [c4] at s1
  rw [c5] at s2
  simp only [scan_tokens, scan_init, s1]
  simp only [Nat.cast_ofNat, s2, Option.map_map]
  rfl

theorem letters_head_facts (c : Nat) (rest tail : List Nat)
    (hc : tolower c = 122 ∨ tolower c = 115 ∨ tolower c = 104 ∨ tolower c = 120) :
    isdigit (charAt ((c :: rest) ++ tail) 0) = false ∧
      isspace (charAt ((c :: rest) ++ tail) 0) = false ∧
      charAt ((c :: rest) ++ tail) 0 ≠ 45 ∧ charAt ((c :: rest) ++ tail) 0 ≠ 43 := by
  have h : charAt ((c :: rest) ++ tail) 0 = c := rfl
  rw [h]
  unfold tolower at hc
  unfold isdigit isspace
  simp only [decide_eq_false_iff_not]
  split at hc <;> omega

/-- The scan of "rv64gc" followed by one run of letters that starts with z, s, h
or x: three records, the third spanning the whole run. -/
theorem scan_rv64gc_letters (d : Int) (c : Nat) (rest : List Nat)
    (hc : tolower c = 122 ∨ tolower c = 115 ∨ tolower c = 104 ∨ tolower c = 120)
    (hrest : ∀ x ∈ rest, isalpha x = true) :
    scan_tokens (cstr "rv64gc" ++ ((c :: rest) ++ [])) d 4 (scan_init 4) =
      some ([{ name := 4, len := 1, major := d, minor := 0 },
             { name := 5, len := 1, major := d, minor := 0 },
             { name := 6, len := (c :: rest).length, major := d, minor := 0 }], none) := by
  have hf := letters_head_facts c rest [] hc
  rw [scan_rv64gc d _ 2 hf.1 hf.2.1 hf.2.2.1 hf.2.2.2]
  have s3 := parse_ext_start_letters d
    { isa_string := 6, parsed_version := false, have_underscore := false,
      last_single_char_ext := 9, multi_letter := false }
    (cstr "rv64gc") [] rest c rfl hc hrest (by decide) (by decide) (by decide) (by decide)
    (by simp)
  simp only [scan_tokens, s3]
  rw [parse_ext_start_end _ _ _ (by simp)]
  rfl

/-- C4, the claim as stated fails: on "rv64gczicsrzifencei" (the names zicsr and
zifencei written one after the other) the parser returns true with three
extensions, so it does not fail with `RV_ISA_UNSEPARATED_MULTI_LETTER`. -/
theorem unseparated_names_accepted :
    rv_isa_string_parse (cstr "rv64gczicsrzifencei") ⟨RV32, 0, List.replicate 3 ⟨0, 0, 0, 0⟩⟩ 2 3
        ⟨RV_ISA_INVALID_XLEN, 0⟩ =
      some (true, ⟨RV64, 3, [⟨4, 1, 2, 0⟩, ⟨5, 1, 2, 0⟩, ⟨6, 13, 2, 0⟩]⟩,
        ⟨RV_ISA_INVALID_XLEN, 0⟩) ∧
    ¬ ∃ isa1 location,
      rv_isa_string_parse (cstr "rv64gczicsrzifencei") ⟨RV32, 0, List.replicate 3 ⟨0, 0, 0, 0⟩⟩
          2 3 ⟨RV_ISA_INVALID_XLEN, 0⟩ =
        some (false, isa1, ⟨RV_ISA_UNSEPARATED_MULTI_LETTER, location⟩) := by
  have h : rv_isa_string_parse (cstr "rv64gczicsrzifencei")
      ⟨RV32, 0, List.replicate 3 ⟨0, 0, 0, 0⟩⟩ 2 3 ⟨RV_ISA_INVALID_XLEN, 0⟩ =
      some (true, ⟨RV64, 3, [⟨4, 1, 2, 0⟩, ⟨5, 1, 2, 0⟩, ⟨6, 13, 2, 0⟩]⟩,
        ⟨RV_ISA_INVALID_XLEN, 0⟩) := by decide
  refine ⟨h, ?_⟩
  rintro ⟨isa1, location, h2⟩
  rw [h] at h2
  cases h2

/-- C4, amended. Two multi-letter names written one directly after the other form
a single run of letters, which the parser reads as one extension: for names `n1`
and `n2` (each one of z, s, h, x in either case followed by one or more
letters), every default major version and every capacity,
`rv_isa_string_parse ("rv64gc" ++ n1 ++ n2)` returns true, leaves `err`
untouched, with width RV64 and `num_exts = 3`; with room for three records, the
third one has the name span `n1 ++ n2` (offset 6, length `|n1| + |n2|`), the
default major version and minor version 0. -/
theorem adjacent_names_merge (n1 n2 : List Nat) (d : Int) (cap : Nat) (isa : rv_isa_t)
    (err : rv_isa_parse_error_t)
    (h1 : multi_letter_name n1 = true) (h2 : multi_letter_name n2 = true)
    (hl1 : 2 ≤ n1.length) (hl2 : 2 ≤ n2.length) :
    ∃ isa1, rv_isa_string_parse (cstr "rv64gc" ++ n1 ++ n2) isa d cap err =
        some (true, isa1, err) ∧
      isa1.xlen = RV64 ∧ isa1.num_exts = 3 ∧
      (3 ≤ cap → cap ≤ isa.exts.length →
        isa1.exts[0]? = some { name := 4, len := 1, major := d, minor := 0 } ∧
        isa1.exts[1]? = some { name := 5, len := 1, major := d, minor := 0 } ∧
        isa1.exts[2]? =
          some { name := 6, len := n1.length + n2.length, major := d, minor := 0 }) := by
  obtain ⟨c1, r1, rfl, hc1, hr1⟩ := multi_letter_name_cases n1 h1
  obtain ⟨c2, r2, rfl, hc2, hr2⟩ := multi_letter_name_cases n2 h2
  have hrest : ∀ x ∈ r1 ++ c2 :: r2, isalpha x = true := by
    intro x hx
    rcases List.mem_append.mp hx with hx | hx
    · exact hr1 x hx
    · rcases List.mem_cons.mp hx with rfl | hx
      · exact zshx_alnum _ hc2
      · exact hr2 x hx
  have hs := scan_rv64gc_letters d c1 (r1 ++ c2 :: r2) hc1 hrest
  have he : cstr "rv64gc" ++ ((c1 :: (r1 ++ c2 :: r2)) ++ []) =
      cstr "rv64gc" ++ (c1 :: r1) ++ (c2 :: r2) := by simp
  rw [he] at hs
  have hp := parse_of_scan _ isa d cap err RV64 4 4 _ _ (by
    have := width_literal_rv64gc ((c1 :: r1) ++ (c2 :: r2))
    rw [← List.append_assoc] at this
    exact this) hs
  refine ⟨_, hp, rfl, rfl, ?_⟩
  intro hcap hbuf
  simp only
  refine ⟨?_, ?_, ?_⟩
  · rw [write_exts_getElem?, if_pos (by simp; omega)]; rfl
  · rw [write_exts_getElem?, if_pos (by simp; omega)]; rfl
  · rw [write_exts_getElem?, if_pos (by simp; omega)]
    simp only [Nat.sub_zero, List.getElem?_cons_succ, List.getElem?_cons_zero, List.length_cons,
      List.length_append]
    rw [show r1.length + (r2.length + 1) + 1 = r1.length + 1 + (r2.length + 1) by omega]

/-- C4 amended, at the names zicsr and zifencei. -/
theorem adjacent_names_merge_witness :
    ∃ isa1, rv_isa_string_parse (cstr "rv64gc" ++ cstr "zicsr" ++ cstr "zifencei")
        ⟨RV32, 0, List.replicate 3 ⟨0, 0, 0, 0⟩⟩ 2 3 ⟨RV_ISA_INVALID_XLEN, 0⟩ =
        some (true, isa1, ⟨RV_ISA_INVALID_XLEN, 0⟩) ∧
      isa1.xlen = RV64 ∧ isa1.num_exts = 3 ∧
      (3 ≤ 3 → 3 ≤ (List.replicate 3 (⟨0, 0, 0, 0⟩ : rv_isa_ext_t)).length →
        isa1.exts[0]? = some { name := 4, len := 1, major := 2, minor := 0 } ∧
        isa1.exts[1]? = some { name := 5, len := 1, major := 2, minor := 0 } ∧
        isa1.exts[2]? =
          some { name := 6, len := (cstr "zicsr").length + (cstr "zifencei").length,
                 major := 2, minor := 0 }) :=
  adjacent_names_merge (cstr "zicsr") (cstr "zifencei") 2 3
    ⟨RV32, 0, List.replicate 3 ⟨0, 0, 0, 0⟩⟩ ⟨RV_ISA_INVALID_XLEN, 0⟩
    (by decide) (by decide) (by decide) (by decide)

theorem cstr_rv64gc_us : cstr "rv64gc_" = cstr "rv64gc" ++ [95] := by decide

theorem cstr_us : cstr "_" = [95] := by decide

theorem us_head_facts (l : List Nat) :
    isalnum (charAt (95 :: l) 0) = false ∧ isdigit (charAt (95 :: l) 0) = false ∧
      isspace (charAt (95 :: l) 0) = false ∧ charAt (95 :: l) 0 ≠ 45 ∧
      charAt (95 :: l) 0 ≠ 43 := by
  rw [charAt_cons_zero]
  decide

/-- The scan of "rv64gc_" ++ n1 ++ "_" ++ n2 for two names made of letters. -/
theorem scan_rv64gc_two_names (d : Int) (c1 c2 : Nat) (r1 r2 : List Nat)
    (hc1 : tolower c1 = 122 ∨ tolower c1 = 115 ∨ tolower c1 = 104 ∨ tolower c1 = 120)
    (hr1 : ∀ x ∈ r1, isalpha x = true)
    (hc2 : tolower c2 = 122 ∨ tolower c2 = 115 ∨ tolower c2 = 104 ∨ tolower c2 = 120)
    (hr2 : ∀ x ∈ r2, isalpha x = true) :
    scan_tokens (cstr "rv64gc_" ++ (c1 :: r1) ++ cstr "_" ++ (c2 :: r2)) d 5 (scan_init 4) =
      some ([{ name := 4, len := 1, major := d, minor := 0 },
             { name := 5, len := 1, major := d, minor := 0 },
             { name := 7, len := (c1 :: r1).length, major := d, minor := 0 },
             { name := 8 + (c1 :: r1).length, len := (c2 :: r2).length, major := d,
               minor := 0 }], none) := by
  have e1 : cstr "rv64gc_" ++ (c1 :: r1) ++ cstr "_" ++ (c2 :: r2) =
      cstr "rv64gc" ++ (95 :: ((c1 :: r1) ++ (95 :: ((c2 :: r2) ++ [])))) := by
    rw [cstr_rv64gc_us, cstr_us]
    simp
  have e2 : cstr "rv64gc" ++ (95 :: ((c1 :: r1) ++ (95 :: ((c2 :: r2) ++ [])))) =
      (cstr "rv64gc" ++ 95 :: (c1 :: r1)) ++ (95 :: ((c2 :: r2) ++ [])) := by
    simp
  rw [e1]
  have u1 := us_head_facts ((c1 :: r1) ++ (95 :: ((c2 :: r2) ++ [])))
  have u2 := us_head_facts ((c2 :: r2) ++ [])
  rw [scan_rv64gc d _ 3 u1.2.1 u1.2.2.1 u1.2.2.2.1 u1.2.2.2.2]
  have s3 := parse_ext_start_us_letters d
    { isa_string := 6, parsed_version := false, have_underscore := false,
      last_single_char_ext := 9, multi_letter := false }
    (cstr "rv64gc") (95 :: ((c2 :: r2) ++ [])) r1 c1 rfl hc1 hr1
    u2.1 u2.2.2.1 u2.2.2.2.1 u2.2.2.2.2
  have s4 := parse_ext_start_us_letters d
    { isa_string := (cstr "rv64gc").length + 1 + (c1 :: r1).length, parsed_version := false,
      have_underscore := true, last_single_char_ext := 9, multi_letter := true }
    (cstr "rv64gc" ++ 95 :: (c1 :: r1)) [] r2 c2 (by simp; omega) hc2 hr2
    (by decide) (by decide) (by decide) (by decide)
  rw [← e2] at s4
  have hlen : (cstr "rv64gc").length = 6 := by decide
  simp only [scan_tokens, s3, s4]
  rw [parse_ext_start_end _ _ _ (by simp [hlen]; omega)]
  simp only [Option.map_some', List.length_append, List.length_cons, hlen]
  have a1 : 6 + (r1.length + 1 + 1) + 1 = 8 + (r1.length + 1) := by omega
  rw [a1]

/-- C5 (underscore-separated multi-letter extensions). For names `n1`, `n2`, each
one of z, s, h, x in either case followed by letters (possibly none), every
default major version and every capacity of at least 4 (with as many slots in
the buffer), `rv_isa_string_parse ("rv64gc_" ++ n1 ++ "_" ++ n2)` returns true,
leaves `err` untouched, sets width RV64 and `num_exts = 4`; the records are g,
c, the name span of `n1` (offset 7) and the name span of `n2` (offset
`8 + |n1|`), each with the default major version and minor version 0. -/
theorem separated_names_parse (n1 n2 : List Nat) (d : Int) (cap : Nat) (isa : rv_isa_t)
    (err : rv_isa_parse_error_t)
    (h1 : multi_letter_name n1 = true) (h2 : multi_letter_name n2 = true)
    (hcap : 4 ≤ cap) (hbuf : cap ≤ isa.exts.length) :
    ∃ isa1, rv_isa_string_parse (cstr "rv64gc_" ++ n1 ++ cstr "_" ++ n2) isa d cap err =
        some (true, isa1, err) ∧
      isa1.xlen = RV64 ∧ isa1.num_exts = 4 ∧
      isa1.exts[0]? = some { name := 4, len := 1, major := d, minor := 0 } ∧
      isa1.exts[1]? = some { name := 5, len := 1, major := d, minor := 0 } ∧
      isa1.exts[2]? = some { name := 7, len := n1.length, major := d, minor := 0 } ∧
      isa1.exts[3]? =
        some { name := 8 + n1.length, len := n2.length, major := d, minor := 0 } := by
  obtain ⟨c1, r1, rfl, hc1, hr1⟩ := multi_letter_name_cases n1 h1
  obtain ⟨c2, r2, rfl, hc2, hr2⟩ := multi_letter_name_cases n2 h2
  have hs := scan_rv64gc_two_names d c1 c2 r1 r2 hc1 hr1 hc2 hr2
  have hw : width_literal (cstr "rv64gc_" ++ (c1 :: r1) ++ cstr "_" ++ (c2 :: r2)) =
      some (RV64, 4) := by
    have := width_literal_rv64gc ([95] ++ (c1 :: r1) ++ cstr "_" ++ (c2 :: r2))
    rw [cstr_rv64gc_us]
    simpa using this
  have hp := parse_of_scan _ isa d cap err RV64 4 5 _ _ hw hs
  refine ⟨_, hp, rfl, rfl, ?_, ?_, ?_, ?_⟩ <;>
    · simp only
      rw [write_exts_getElem?, if_pos (by simp; omega)]
      rfl

/-- C5 at the string of the specification, "rv64gc_zicsr_zifencei". -/
theorem separated_names_parse_witness :
    ∃ isa1, rv_isa_string_parse (cstr "rv64gc_" ++ cstr "zicsr" ++ cstr "_" ++ cstr "zifencei")
        ⟨RV32, 0, List.replicate 4 ⟨0, 0, 0, 0⟩⟩ 2 4 ⟨RV_ISA_INVALID_XLEN, 0⟩ =
        some (true, isa1, ⟨RV_ISA_INVALID_XLEN, 0⟩) ∧
      isa1.xlen = RV64 ∧ isa1.num_exts = 4 ∧
      isa1.exts[0]? = some { name := 4, len := 1, major := 2, minor := 0 } ∧
      isa1.exts[1]? = some { name := 5, len := 1, major := 2, minor := 0 } ∧
      isa1.exts[2]? = some { name := 7, len := (cstr "zicsr").length, major := 2, minor := 0 } ∧
      isa1.exts[3]? =
        some { name := 8 + (cstr "zicsr").length, len := (cstr "zifencei").length, major := 2,
               minor := 0 } :=
  separated_names_parse (cstr "zicsr") (cstr "zifencei") 2 4
    ⟨RV32, 0, List.replicate 4 ⟨0, 0, 0, 0⟩⟩ ⟨RV_ISA_INVALID_XLEN, 0⟩
    (by decide) (by decide) (by decide) (by decide)

/-! ## Lemmas: version numbers -/

theorem long_clamp (n : Nat) (h : (n : Int) < 2 ^ 63) :
    max LONG_MIN (min LONG_MAX (n : Int)) = n := by
  unfold LONG_MIN LONG_MAX
  have h0 : (0 : Int) ≤ n := Int.ofNat_nonneg n
  rw [min_eq_right (by omega), max_eq_right (by omega)]

theorem strtol_digit_run (pre A B : List Nat) (hA : ∀ x ∈ A, isdigit x = true) (hne : A ≠ [])
    (hB : isdigit (charAt B 0) = false) :
    strtol (pre ++ (A ++ B)) pre.length =
      (max LONG_MIN (min LONG_MAX ((digits_value A : Nat) : Int)), pre.length + A.length) := by
  obtain ⟨a, A1, rfl⟩ := List.exists_cons_of_ne_nil hne
  have hh : charAt (pre ++ ((a :: A1) ++ B)) pre.length = a :=
    charAt_append_right pre _ 0
  have ha := isdigit_facts a (hA a (List.mem_cons_self _ _))
  have hs : strtol_skip (pre ++ ((a :: A1) ++ B)) pre.length = pre.length := by
    unfold strtol_skip
    rw [takeWhile_drop_nil _ _ _ (by rw [hh]; exact ha.2.1)]
    rfl
  have hd : strtol_digits (pre ++ ((a :: A1) ++ B)) pre.length = pre.length := by
    unfold strtol_digits
    rw [hs, hh, if_neg (by omega)]
  unfold strtol
  simp only [hd, hs, hh, takeWhile_drop_run isdigit pre (a :: A1) B hA hB]
  rw [if_neg (by simp), if_neg ha.2.2.1]

/-- State `parse_version` on `<digits> p <digits>` followed by a character that is
not a digit. -/
theorem parse_version_major_minor (v : scan_vars) (e : rv_isa_ext_t) (pre DM Dm post : List Nat)
    (hpos : v.isa_string = pre.length)
    (hDM : ∀ x ∈ DM, isdigit x = true) (hDMne : DM ≠ [])
    (hDm : ∀ x ∈ Dm, isdigit x = true) (hDmne : Dm ≠ [])
    (hpost : isdigit (charAt post 0) = false) :
    parse_version (pre ++ (DM ++ (112 :: (Dm ++ post)))) v e =
      .ext_end
        { v with isa_string := pre.length + DM.length + 1 + Dm.length, parsed_version := true }
        { e with major := max LONG_MIN (min LONG_MAX ((digits_value DM : Nat) : Int)),
                 minor := max LONG_MIN (min LONG_MAX ((digits_value Dm : Nat) : Int)) } := by
  have h1 := strtol_digit_run pre DM (112 :: (Dm ++ post)) hDM hDMne (by
    rw [charAt_cons_zero]; decide)
  have e2 : pre ++ (DM ++ (112 :: (Dm ++ post))) = (pre ++ (DM ++ [112])) ++ (Dm ++ post) := by
    simp
  have h2 := strtol_digit_run (pre ++ (DM ++ [112])) Dm post hDm hDmne hpost
  rw [← e2] at h2
  have hl : (pre ++ (DM ++ [112])).length = pre.length + DM.length + 1 := by
    simp only [List.length_append, List.length_cons, List.length_nil]
    omega
  rw [hl] at h2
  have hp : charAt (pre ++ (DM ++ (112 :: (Dm ++ post)))) (pre.length + DM.length) = 112 := by
    rw [charAt_tok_ge pre DM _ _ (Nat.le_refl _), Nat.sub_self]
    rfl
  have hm1 := List.length_pos.mpr hDMne
  have hm2 := List.length_pos.mpr hDmne
  unfold parse_version
  simp only [hpos, h1, h2, hp]
  rw [if_neg (by omega)]
  simp only [ne_eq, not_true_eq_false, if_false]
  rw [if_pos (by omega)]

theorem version_chars (DM Dm post : List Nat)
    (hDM : ∀ x ∈ DM, isdigit x = true) (hDm : ∀ x ∈ Dm, isdigit x = true) :
    (∀ i, i < DM.length → isdigit (charAt (DM ++ (112 :: (Dm ++ post))) i) = true) ∧
    charAt (DM ++ (112 :: (Dm ++ post))) DM.length = 112 ∧
    (∀ j, j < Dm.length →
      isdigit (charAt (DM ++ (112 :: (Dm ++ post))) (DM.length + 1 + j)) = true) := by
  refine ⟨?_, ?_, ?_⟩
  · intro i hi
    rw [charAt_append_left _ _ _ hi]
    exact hDM _ (charAt_mem DM i hi)
  · rw [charAt_append_right_sub _ _ _ (Nat.le_refl _), Nat.sub_self]
    rfl
  · intro j hj
    rw [charAt_append_right_sub _ _ _ (by omega)]
    have : DM.length + 1 + j - DM.length = j + 1 := by omega
    rw [this, charAt_cons_succ, charAt_append_left _ _ _ hj]
    exact hDm _ (charAt_mem Dm j hj)

/-- The multi-letter branch on a name made of letters, other than `sv`, followed
by `<digits> p <digits>` and then by a character that is not alphanumeric. -/
theorem parse_ext_name_versioned (d : Int) (v : scan_vars) (pre post rest DM Dm : List Nat)
    (c : Nat) (hpos : v.isa_string = pre.length)
    (hc : tolower c = 122 ∨ tolower c = 115 ∨ tolower c = 104 ∨ tolower c = 120)
    (hrest : ∀ x ∈ rest, isalpha x = true)
    (hnosv : ¬ (tolower c = 115 ∧ rest = [118]))
    (hDM : ∀ x ∈ DM, isdigit x = true) (hDMne : DM ≠ [])
    (hDm : ∀ x ∈ Dm, isdigit x = true) (hDmne : Dm ≠ [])
    (hpost : isalnum (charAt post 0) = false)
    (hsep : ¬ (v.multi_letter = true ∧ v.have_underscore = false)) :
    parse_ext_name (pre ++ ((c :: rest) ++ (DM ++ (112 :: (Dm ++ post))))) d v (tolower c) =
      .ext_end
        { v with isa_string := pre.length + (c :: rest).length + DM.length + 1 + Dm.length,
                 multi_letter := true, parsed_version := true }
        { name := pre.length, len := (c :: rest).length,
          major := max LONG_MIN (min LONG_MAX ((digits_value DM : Nat) : Int)),
          minor := max LONG_MIN (min LONG_MAX ((digits_value Dm : Nat) : Int)) } := by
  have hpd : isdigit (charAt post 0) = false := by
    unfold isalnum at hpost
    simp only [Bool.or_eq_false_iff] at hpost
    exact hpost.1
  have hal := name_chars_alpha c rest hc hrest
  have hlen : (c :: rest).length = rest.length + 1 := rfl
  have hm1 := List.length_pos.mpr hDMne
  have hm2 := List.length_pos.mpr hDmne
  have hfirst := zshx_not_digit c hc
  obtain ⟨hT1, hT2, hT3⟩ := version_chars DM Dm post hDM hDm
  generalize hs : pre ++ ((c :: rest) ++ (DM ++ (112 :: (Dm ++ post)))) = s
  have hN : ∀ i, i < rest.length + 1 → charAt s (pre.length + i) = charAt (c :: rest) i := by
    intro i hi
    rw [← hs]
    exact charAt_tok_lt pre (c :: rest) _ i hi
  have hT : ∀ i, charAt s (pre.length + (rest.length + 1 + i)) =
      charAt (DM ++ (112 :: (Dm ++ post))) i := by
    intro i
    rw [← hs, charAt_tok_ge pre (c :: rest) _ _ (by rw [hlen]; omega)]
    congr 1
    rw [hlen]; omega
  -- the `svN` test fails
  have hsv : ¬ (tolower c = 115 ∧ charAt s (pre.length + 1) = 118
      ∧ isdigit (charAt s (pre.length + 2)) = true) := by
    rintro ⟨h0, h1, h2⟩
    rcases rest with _ | ⟨x, _ | ⟨y, rest2⟩⟩
    · have := hT 0
      simp only [List.length_nil, Nat.zero_add, Nat.add_zero] at this
      rw [this] at h1
      have := (isdigit_facts _ (hT1 0 hm1)).2.2.2.2.1
      exact this h1
    · have := hN 1 (by simp)
      rw [this, charAt_cons_succ, charAt_cons_zero] at h1
      exact hnosv ⟨h0, by rw [h1]⟩
    · have := hN 2 (by simp)
      rw [this] at h2
      have h3 := (isalpha_facts _ (hal 2 (by simp))).2.1
      rw [h3] at h2; cases h2
  -- the alphanumeric run extends to the end of the minor version
  have hrun : ((s.drop (pre.length + 1)).takeWhile isalnum).length =
      rest.length + DM.length + 1 + Dm.length := by
    have h1 : s = (pre ++ [c]) ++ ((rest ++ (DM ++ (112 :: Dm))) ++ post) := by
      rw [← hs]; simp
    have h2 : pre.length + 1 = (pre ++ [c]).length := by simp
    rw [h1, h2, takeWhile_drop_run isalnum _ _ post _ hpost]
    · simp only [List.length_append, List.length_cons]
      omega
    · intro x hx
      rcases List.mem_append.mp hx with hx | hx
      · exact (isalpha_facts x (hrest x hx)).1
      · rcases List.mem_append.mp hx with hx | hx
        · exact (isdigit_facts x (hDM x hx)).1
        · rcases List.mem_cons.mp hx with rfl | hx
          · decide
          · exact (isdigit_facts x (hDm x hx)).1
  -- the minor version is stripped, up to the `p`
  have hstrip1 : strip_digits s pre.length (1 + (rest.length + DM.length + 1 + Dm.length)) =
      rest.length + 1 + DM.length + 1 := by
    have := strip_digits_run s pre.length (rest.length + 1 + DM.length + 1) Dm.length
      (fun i hi => by
        have h1 := hT (DM.length + 1 + i)
        rw [show pre.length + (rest.length + 1 + (DM.length + 1 + i)) =
          pre.length + (rest.length + 1 + DM.length + 1) + i by omega] at h1
        rw [h1]
        exact hT3 i hi)
      (by
        have h1 := hT DM.length
        rw [show pre.length + (rest.length + 1 + DM.length) =
          pre.length + (rest.length + 1 + DM.length + 1 - 1) by omega] at h1
        rw [h1, hT2]
        decide)
      (by omega)
    rw [show 1 + (rest.length + DM.length + 1 + Dm.length) =
      rest.length + 1 + DM.length + 1 + Dm.length by omega]
    exact this
  -- the `p` follows a digit, so it and the major version are stripped as well
  have hpchk : charAt s (pre.length + (rest.length + 1 + DM.length + 1 - 1)) = 112
      ∧ isdigit (charAt s (pre.length + (rest.length + 1 + DM.length + 1 - 2))) = true := by
    constructor
    · have h1 := hT DM.length
      rw [show pre.length + (rest.length + 1 + DM.length) =
        pre.length + (rest.length + 1 + DM.length + 1 - 1) by omega] at h1
      rw [h1, hT2]
    · have h1 := hT (DM.length - 1)
      rw [show pre.length + (rest.length + 1 + (DM.length - 1)) =
        pre.length + (rest.length + 1 + DM.length + 1 - 2) by omega] at h1
      rw [h1]
      exact hT1 _ (by omega)
  have hstrip2 : strip_digits s pre.length (rest.length + 1 + DM.length + 1 - 1) =
      rest.length + 1 := by
    have := strip_digits_run s pre.length (rest.length + 1) DM.length
      (fun i hi => by
        have h1 := hT i
        rw [show pre.length + (rest.length + 1 + i) = pre.length + (rest.length + 1) + i
          by omega] at h1
        rw [h1]
        exact hT1 i hi)
      (by
        rw [hN _ (by omega)]
        exact (isalpha_facts _ (hal _ (by rw [hlen]; omega))).2.1)
      (by omega)
    rw [show rest.length + 1 + DM.length + 1 - 1 = rest.length + 1 + DM.length by omega]
    exact this
  have hpv := parse_version_major_minor
    { v with isa_string := pre.length + (rest.length + 1), multi_letter := true }
    { name := pre.length, len := rest.length + 1, major := d, minor := 0 }
    (pre ++ (c :: rest)) DM Dm post (by simp) hDM hDMne hDm hDmne hpd
  rw [show (pre ++ (c :: rest)) ++ (DM ++ (112 :: (Dm ++ post))) = s by rw [← hs]; simp] at hpv
  unfold parse_ext_name
  simp only [hpos]
  rw [if_neg (zshx_index _ hc), if_pos hc, if_neg hsep, if_neg hsv]
  simp only [hrun, hstrip1]
  rw [if_pos hpchk, hstrip2, hpv]
  simp only [List.length_append, List.length_cons]

theorem decimal_digits_cases (D : List Nat) (h : decimal_digits D = true) :
    D ≠ [] ∧ ∀ x ∈ D, isdigit x = true := by
  unfold decimal_digits at h
  simp only [Bool.and_eq_true, Bool.not_eq_true', List.all_eq_true] at h
  refine ⟨?_, h.2⟩
  intro h0
  rw [h0] at h
  simp at h

theorem parse_ext_start_us_versioned (d : Int) (v : scan_vars)
    (pre post rest DM Dm : List Nat) (c : Nat) (hpos : v.isa_string = pre.length)
    (hc : tolower c = 122 ∨ tolower c = 115 ∨ tolower c = 104 ∨ tolower c = 120)
    (hrest : ∀ x ∈ rest, isalpha x = true)
    (hnosv : ¬ (tolower c = 115 ∧ rest = [118]))
    (hDM : ∀ x ∈ DM, isdigit x = true) (hDMne : DM ≠ [])
    (hDm : ∀ x ∈ Dm, isdigit x = true) (hDmne : Dm ≠ [])
    (hpost : isalnum (charAt post 0) = false) :
    parse_ext_start (pre ++ (95 :: ((c :: rest) ++ (DM ++ (112 :: (Dm ++ post)))))) d v =
      .ext_end
        { v with isa_string := pre.length + 1 + (c :: rest).length + DM.length + 1 + Dm.length,
                 multi_letter := true, parsed_version := true, have_underscore := true }
        { name := pre.length + 1, len := (c :: rest).length,
          major := max LONG_MIN (min LONG_MAX ((digits_value DM : Nat) : Int)),
          minor := max LONG_MIN (min LONG_MAX ((digits_value Dm : Nat) : Int)) } := by
  generalize hs : pre ++ (95 :: ((c :: rest) ++ (DM ++ (112 :: (Dm ++ post))))) = s
  have hs2 : (pre ++ [95]) ++ ((c :: rest) ++ (DM ++ (112 :: (Dm ++ post)))) = s := by
    rw [← hs]; simp
  have hch : charAt s v.isa_string = 95 := by
    rw [hpos, ← hs]
    exact charAt_append_right pre _ 0
  have hch1 : charAt s (v.isa_string + 1) = c := by
    rw [hpos, ← hs]
    exact charAt_append_right pre _ 1
  have := parse_ext_name_versioned d
    { v with isa_string := v.isa_string + 1, have_underscore := true } (pre ++ [95]) post rest
    DM Dm c (by simp [hpos]) hc hrest hnosv hDM hDMne hDm hDmne hpost (by simp)
  rw [hs2] at this
  unfold parse_ext_start
  simp only [hch, hch1]
  rw [if_neg (by decide), if_pos (by decide), this]
  simp

theorem cstr_p : cstr "p" = [112] := by decide

/-- The versioned multi-letter extension, for any two non-empty digit strings
whose values fit a `long`. -/
theorem versioned_name_digits (N DM Dm : List Nat) (d : Int) (cap : Nat) (isa : rv_isa_t)
    (err : rv_isa_parse_error_t)
    (hN : multi_letter_name N = true) (hsv1 : N ≠ cstr "sv") (hsv2 : N ≠ cstr "Sv")
    (hDM : decimal_digits DM = true) (hDm : decimal_digits Dm = true)
    (hM : digits_value DM < 2 ^ 63) (hm : digits_value Dm < 2 ^ 63)
    (hcap : 3 ≤ cap) (hbuf : cap ≤ isa.exts.length) :
    ∃ isa1, rv_isa_string_parse (cstr "rv64gc_" ++ N ++ DM ++ cstr "p" ++ Dm) isa d cap err =
        some (true, isa1, err) ∧
      isa1.xlen = RV64 ∧ isa1.num_exts = 3 ∧
      isa1.exts[2]? =
        some { name := 7, len := N.length, major := (digits_value DM : Nat),
               minor := (digits_value Dm : Nat) } := by
  obtain ⟨c, rest, rfl, hc, hrest⟩ := multi_letter_name_cases N hN
  obtain ⟨hDMne, hDMd⟩ := decimal_digits_cases DM hDM
  obtain ⟨hDmne, hDmd⟩ := decimal_digits_cases Dm hDm
  have hnosv : ¬ (tolower c = 115 ∧ rest = [118]) := by
    rintro ⟨h1, rfl⟩
    have : c = 115 ∨ c = 83 := by
      unfold tolower at h1
      split at h1 <;> omega
    rcases this with rfl | rfl
    · exact hsv1 (by decide)
    · exact hsv2 (by decide)
  have e1 : cstr "rv64gc_" ++ (c :: rest) ++ DM ++ cstr "p" ++ Dm =
      cstr "rv64gc" ++ (95 :: ((c :: rest) ++ (DM ++ (112 :: (Dm ++ []))))) := by
    rw [cstr_rv64gc_us, cstr_p]
    simp
  have u1 := us_head_facts ((c :: rest) ++ (DM ++ (112 :: (Dm ++ []))))
  have s3 := parse_ext_start_us_versioned d
    { isa_string := 6, parsed_version := false, have_underscore := false,
      last_single_char_ext := 9, multi_letter := false }
    (cstr "rv64gc") [] rest DM Dm c rfl hc hrest hnosv hDMd hDMne hDmd hDmne (by decide)
  have hlen : (cstr "rv64gc").length = 6 := by decide
  have hs : scan_tokens (cstr "rv64gc" ++ (95 :: ((c :: rest) ++ (DM ++ (112 :: (Dm ++ []))))))
      d 4 (scan_init 4) =
      some ([{ name := 4, len := 1, major := d, minor := 0 },
             { name := 5, len := 1, major := d, minor := 0 },
             { name := 7, len := (c :: rest).length, major := (digits_value DM : Nat),
               minor := (digits_value Dm : Nat) }], none) := by
    rw [scan_rv64gc d _ 2 u1.2.1 u1.2.2.1 u1.2.2.2.1 u1.2.2.2.2]
    simp only [scan_tokens, s3]
    rw [parse_ext_start_end _ _ _ (by simp [hlen]; omega)]
    rw [long_clamp _ (by exact_mod_cast hM), long_clamp _ (by exact_mod_cast hm)]
    simp [hlen]
  rw [← e1] at hs
  have hw : width_literal (cstr "rv64gc_" ++ (c :: rest) ++ DM ++ cstr "p" ++ Dm) =
      some (RV64, 4) := by
    rw [e1]
    exact width_literal_rv64gc _
  have hp := parse_of_scan _ isa d cap err RV64 4 4 _ _ hw hs
  refine ⟨_, hp, rfl, rfl, ?_⟩
  simp only
  rw [write_exts_getElem?, if_pos (by simp; omega)]
  rfl

theorem digits_value_append (A : List Nat) (x : Nat) :
    digits_value (A ++ [x]) = digits_value A * 10 + (x - 48) := by
  unfold digits_value
  rw [List.foldl_append]
  rfl

theorem decimal_aux_spec :
    ∀ (fuel n : Nat) (acc : List Nat), n < fuel →
      ∃ pre, decimal_aux fuel n acc = pre ++ acc ∧ pre ≠ [] ∧
        (∀ x ∈ pre, isdigit x = true) ∧ digits_value pre = n := by
  intro fuel
  induction fuel with
  | zero => intro n acc h; omega
  | succ f ih =>
    intro n acc h
    simp only [decimal_aux]
    split
    · rename_i h10
      refine ⟨[n + 48], rfl, by simp, ?_, ?_⟩
      · intro x hx
        rw [List.mem_singleton.mp hx]
        unfold isdigit
        simp only [decide_eq_true_eq]
        omega
      · simp [digits_value]
    · rename_i h10
      obtain ⟨pre, h1, h2, h3, h4⟩ := ih (n / 10) ((n % 10 + 48) :: acc) (by omega)
      refine ⟨pre ++ [n % 10 + 48], by rw [h1]; simp, by simp, ?_, ?_⟩
      · intro x hx
        rcases List.mem_append.mp hx with hx | hx
        · exact h3 x hx
        · rw [List.mem_singleton.mp hx]
          unfold isdigit
          simp only [decide_eq_true_eq]
          omega
      · rw [digits_value_append, h4]
        omega

theorem decimal_spec (n : Nat) :
    decimal_digits (decimal n) = true ∧ digits_value (decimal n) = n := by
  obtain ⟨pre, h1, h2, h3, h4⟩ := decimal_aux_spec (n + 1) n [] (by omega)
  rw [List.append_nil] at h1
  unfold decimal
  rw [h1]
  refine ⟨?_, h4⟩
  unfold decimal_digits
  simp only [Bool.and_eq_true, Bool.not_eq_true', List.all_eq_true]
  refine ⟨?_, h3⟩
  cases pre with
  | nil => exact absurd rfl h2
  | cons a b => rfl

/-- C9 (versioned multi-letter extension). For a name `N` made of one of z, s, h, x
in either case followed by letters (possibly none), other than "sv" and "Sv",
and natural numbers `M` and `m` below 2^63 written in decimal,
`rv_isa_string_parse ("rv64gc_" ++ N ++ M ++ "p" ++ m)` with a capacity of at
least 3 (and as many slots in the buffer) returns true, leaves `err` untouched,
sets `num_exts = 3`, and its third record has exactly the name span of `N`
(offset 7, length `|N|`), major version `M` and minor version `m`, whatever the
default major version. -/
theorem versioned_name_parses (N : List Nat) (M m : Nat) (d : Int) (cap : Nat) (isa : rv_isa_t)
    (err : rv_isa_parse_error_t)
    (hN : multi_letter_name N = true) (hsv1 : N ≠ cstr "sv") (hsv2 : N ≠ cstr "Sv")
    (hM : M < 2 ^ 63) (hm : m < 2 ^ 63)
    (hcap : 3 ≤ cap) (hbuf : cap ≤ isa.exts.length) :
    ∃ isa1, rv_isa_string_parse (cstr "rv64gc_" ++ N ++ decimal M ++ cstr "p" ++ decimal m)
        isa d cap err = some (true, isa1, err) ∧
      isa1.xlen = RV64 ∧ isa1.num_exts = 3 ∧
      isa1.exts[2]? = some { name := 7, len := N.length, major := M, minor := m } := by
  have h := versioned_name_digits N (decimal M) (decimal m) d cap isa err hN hsv1 hsv2
    (decimal_spec M).1 (decimal_spec m).1 (by rw [(decimal_spec M).2]; exact hM)
    (by rw [(decimal_spec m).2]; exact hm) hcap hbuf
  rw [(decimal_spec M).2, (decimal_spec m).2] at h
  exact h

/-- C9 at the string of the specification, "rv64gc_zicsr2p1", with default major version 7. -/
theorem versioned_name_parses_witness :
    ∃ isa1, rv_isa_string_parse (cstr "rv64gc_" ++ cstr "zicsr" ++ decimal 2 ++ cstr "p" ++ decimal 1)
        ⟨RV32, 0, List.replicate 3 ⟨0, 0, 0, 0⟩⟩ 7 3 ⟨RV_ISA_INVALID_XLEN, 0⟩ =
        some (true, isa1, ⟨RV_ISA_INVALID_XLEN, 0⟩) ∧
      isa1.xlen = RV64 ∧ isa1.num_exts = 3 ∧
      isa1.exts[2]? = some { name := 7, len := (cstr "zicsr").length, major := (2 : Nat),
                             minor := (1 : Nat) } :=
  versioned_name_parses (cstr "zicsr") 2 1 7 3
    ⟨RV32, 0, List.replicate 3 ⟨0, 0, 0, 0⟩⟩ ⟨RV_ISA_INVALID_XLEN, 0⟩
    (by decide) (by decide) (by decide) (by decide) (by decide) (by decide) (by decide)

/-- The `svN` branch: `s` or `S`, then `v`, then a non-empty run of digits that
ends before a character that is not a digit. The version state is not touched. -/
theorem parse_ext_name_sv (d : Int) (v : scan_vars) (pre post D : List Nat) (c : Nat)
    (hpos : v.isa_string = pre.length) (hc : tolower c = 115)
    (hD : ∀ x ∈ D, isdigit x = true) (hDne : D ≠ [])
    (hpost : isdigit (charAt post 0) = false)
    (hsep : ¬ (v.multi_letter = true ∧ v.have_underscore = false)) :
    parse_ext_name (pre ++ (c :: 118 :: (D ++ post))) d v (tolower c) =
      .ext_end
        { v with isa_string := pre.length + (2 + D.length), multi_letter := true }
        { name := pre.length, len := 2 + D.length, major := d, minor := 0 } := by
  obtain ⟨x, D1, rfl⟩ := List.exists_cons_of_ne_nil hDne
  have h1 : charAt (pre ++ (c :: 118 :: ((x :: D1) ++ post))) (pre.length + 1) = 118 :=
    charAt_append_right pre _ 1
  have h2 : charAt (pre ++ (c :: 118 :: ((x :: D1) ++ post))) (pre.length + 2) = x :=
    charAt_append_right pre _ 2
  have hrun : ((pre ++ (c :: 118 :: ((x :: D1) ++ post))).drop (pre.length + 2)).takeWhile isdigit
      = x :: D1 := by
    have e1 : pre ++ (c :: 118 :: ((x :: D1) ++ post)) = (pre ++ [c, 118]) ++ ((x :: D1) ++ post) := by
      simp
    have e2 : pre.length + 2 = (pre ++ [c, 118]).length := by simp
    rw [e1, e2]
    exact takeWhile_drop_run isdigit _ _ post hD hpost
  unfold parse_ext_name
  simp only [hpos]
  rw [if_neg (zshx_index _ (Or.inr (Or.inl hc))), if_pos (Or.inr (Or.inl hc)), if_neg hsep,
    if_pos ⟨hc, h1, by rw [h2]; exact hD x (List.mem_cons_self _ _)⟩]
  simp only [hrun]

theorem cstr_rv64gc_sv : cstr "rv64gc_sv" = cstr "rv64gc" ++ [95, 115, 118] := by decide

/-- C10 (address-translation special case). For every non-empty string `D` of
decimal digits, every default major version and every capacity of at least 3
(with as many slots in the buffer), `rv_isa_string_parse ("rv64gc_sv" ++ D)`
returns true, leaves `err` untouched, sets `num_exts = 3`, and its third record
has the name span of the whole of `sv ++ D` (offset 7, length `2 + |D|`), the
default major version and minor version 0. -/
theorem sv_name_parses (D : List Nat) (d : Int) (cap : Nat) (isa : rv_isa_t)
    (err : rv_isa_parse_error_t) (hD : decimal_digits D = true)
    (hcap : 3 ≤ cap) (hbuf : cap ≤ isa.exts.length) :
    ∃ isa1, rv_isa_string_parse (cstr "rv64gc_sv" ++ D) isa d cap err = some (true, isa1, err) ∧
      isa1.xlen = RV64 ∧ isa1.num_exts = 3 ∧
      isa1.exts[2]? = some { name := 7, len := 2 + D.length, major := d, minor := 0 } := by
  obtain ⟨hDne, hDd⟩ := decimal_digits_cases D hD
  have e1 : cstr "rv64gc_sv" ++ D = cstr "rv64gc" ++ (95 :: (115 :: 118 :: (D ++ []))) := by
    rw [cstr_rv64gc_sv]
    simp
  have e2 : cstr "rv64gc" ++ (95 :: (115 :: 118 :: (D ++ []))) =
      (cstr "rv64gc" ++ [95]) ++ (115 :: 118 :: (D ++ [])) := by simp
  have u1 := us_head_facts (115 :: 118 :: (D ++ []))
  have hn := parse_ext_name_sv d
    { isa_string := 7, parsed_version := false, have_underscore := true,
      last_single_char_ext := 9, multi_letter := false }
    (cstr "rv64gc" ++ [95]) [] D 115 (by decide) (by decide) hDd hDne (by decide) (by simp)
  rw [← e2] at hn
  have h6 : charAt (cstr "rv64gc" ++ (95 :: (115 :: 118 :: (D ++ [])))) 6 = 95 :=
    charAt_append_right (cstr "rv64gc") _ 0
  have h7 : charAt (cstr "rv64gc" ++ (95 :: (115 :: 118 :: (D ++ [])))) 7 = 115 :=
    charAt_append_right (cstr "rv64gc") _ 1
  have s3 : parse_ext_start (cstr "rv64gc" ++ (95 :: (115 :: 118 :: (D ++ [])))) d
      { isa_string := 6, parsed_version := false, have_underscore := false,
        last_single_char_ext := 9, multi_letter := false } =
      .ext_end
        { isa_string := 9 + D.length, parsed_version := false, have_underscore := true,
          last_single_char_ext := 9, multi_letter := true }
        { name := 7, len := 2 + D.length, major := d, minor := 0 } := by
    unfold parse_ext_start
    simp only [h6, h7]
    rw [if_neg (by decide), if_pos (by decide), hn]
    simp only [List.length_append, List.length_cons, List.length_nil]
    have hlen : (cstr "rv64gc").length = 6 := by decide
    rw [hlen]
    simp only [scan_exit.ext_end.injEq, scan_vars.mk.injEq, rv_isa_ext_t.mk.injEq, and_true,
      true_and]
    omega
  have hlen : (cstr "rv64gc").length = 6 := by decide
  have hs : scan_tokens (cstr "rv64gc" ++ (95 :: (115 :: 118 :: (D ++ [])))) d 4 (scan_init 4) =
      some ([{ name := 4, len := 1, major := d, minor := 0 },
             { name := 5, len := 1, major := d, minor := 0 },
             { name := 7, len := 2 + D.length, major := d, minor := 0 }], none) := by
    rw [scan_rv64gc d _ 2 u1.2.1 u1.2.2.1 u1.2.2.2.1 u1.2.2.2.2]
    simp only [scan_tokens, s3]
    rw [parse_ext_start_end _ _ _ (by simp [hlen]; omega)]
    rfl
  rw [← e1] at hs
  have hw : width_literal (cstr "rv64gc_sv" ++ D) = some (RV64, 4) := by
    rw [e1]
    exact width_literal_rv64gc _
  have hp := parse_of_scan _ isa d cap err RV64 4 4 _ _ hw hs
  refine ⟨_, hp, rfl, rfl, ?_⟩
  simp only
  rw [write_exts_getElem?, if_pos (by simp; omega)]
  rfl

/-- C10 at the string of the specification, "rv64gc_sv39", with default major version 2. -/
theorem sv_name_parses_witness :
    ∃ isa1, rv_isa_string_parse (cstr "rv64gc_sv" ++ cstr "39")
        ⟨RV32, 0, List.replicate 3 ⟨0, 0, 0, 0⟩⟩ 2 3 ⟨RV_ISA_INVALID_XLEN, 0⟩ =
        some (true, isa1, ⟨RV_ISA_INVALID_XLEN, 0⟩) ∧
      isa1.xlen = RV64 ∧ isa1.num_exts = 3 ∧
      isa1.exts[2]? = some { name := 7, len := 2 + (cstr "39").length, major := 2, minor := 0 } :=
  sv_name_parses (cstr "39") 2 3 ⟨RV32, 0, List.replicate 3 ⟨0, 0, 0, 0⟩⟩
    ⟨RV_ISA_INVALID_XLEN, 0⟩ (by decide) (by decide) (by decide)

/-- C6, evaluated: the parse depends on letter case. On "rv64gc_SV39" the third
record is the name `SV` (length 2) with major version 39, on the lowercased copy
"rv64gc_sv39" it is the name `sv39` (length 4) with the default major version:
the `v` of the `svN` test is compared without `tolower`. On "rv32i2P1" the parse
fails with `RV_ISA_AMBIGUOUS_P` at offset 6, on the lowercased copy "rv32i2p1" it
succeeds with minor version 1: the `p` that separates the minor version is
compared without `tolower`. -/
theorem case_changes_parse :
    rv_isa_string_parse (cstr "rv64gc_SV39") ⟨RV32, 0, List.replicate 3 ⟨0, 0, 0, 0⟩⟩ 2 3
        ⟨RV_ISA_INVALID_XLEN, 0⟩ =
      some (true, ⟨RV64, 3, [⟨4, 1, 2, 0⟩, ⟨5, 1, 2, 0⟩, ⟨7, 2, 39, 0⟩]⟩,
        ⟨RV_ISA_INVALID_XLEN, 0⟩) ∧
    rv_isa_string_parse ((cstr "rv64gc_SV39").map tolower)
        ⟨RV32, 0, List.replicate 3 ⟨0, 0, 0, 0⟩⟩ 2 3 ⟨RV_ISA_INVALID_XLEN, 0⟩ =
      some (true, ⟨RV64, 3, [⟨4, 1, 2, 0⟩, ⟨5, 1, 2, 0⟩, ⟨7, 4, 2, 0⟩]⟩,
        ⟨RV_ISA_INVALID_XLEN, 0⟩) ∧
    rv_isa_string_parse (cstr "rv32i2P1") ⟨RV32, 0, List.replicate 1 ⟨0, 0, 0, 0⟩⟩ 2 1
        ⟨RV_ISA_INVALID_XLEN, 0⟩ =
      some (false, ⟨RV32, 1, [⟨4, 1, 2, 0⟩]⟩, ⟨RV_ISA_AMBIGUOUS_P, 6⟩) ∧
    rv_isa_string_parse ((cstr "rv32i2P1").map tolower)
        ⟨RV32, 0, List.replicate 1 ⟨0, 0, 0, 0⟩⟩ 2 1 ⟨RV_ISA_INVALID_XLEN, 0⟩ =
      some (true, ⟨RV32, 1, [⟨4, 1, 2, 1⟩]⟩, ⟨RV_ISA_INVALID_XLEN, 0⟩) := by
  decide

/-- C7, evaluated: `have_underscore` is set at the first underscore and never
cleared. On "rv32i_m2p1p" the token `m2p1` has a parsed version and the next
character is `p` with no underscore in front of it, yet the parse returns true
with `p` as a third extension, because of the underscore before `m`. Without
that earlier underscore, on "rv32im2p1p", the parse fails with
`RV_ISA_AMBIGUOUS_P` at the offset of the `p`. -/
theorem stale_underscore_hides_ambiguous_p :
    rv_isa_string_parse (cstr "rv32i_m2p1p") ⟨RV32, 0, List.replicate 3 ⟨0, 0, 0, 0⟩⟩ 2 3
        ⟨RV_ISA_INVALID_XLEN, 0⟩ =
      some (true, ⟨RV32, 3, [⟨4, 1, 2, 0⟩, ⟨6, 1, 2, 1⟩, ⟨10, 1, 2, 0⟩]⟩,
        ⟨RV_ISA_INVALID_XLEN, 0⟩) ∧
    rv_isa_string_parse (cstr "rv32im2p1p") ⟨RV32, 0, List.replicate 3 ⟨0, 0, 0, 0⟩⟩ 2 3
        ⟨RV_ISA_INVALID_XLEN, 0⟩ =
      some (false, ⟨RV32, 2, [⟨4, 1, 2, 0⟩, ⟨5, 1, 2, 1⟩, ⟨0, 0, 0, 0⟩]⟩,
        ⟨RV_ISA_AMBIGUOUS_P, 9⟩) := by
  decide

/-- C8, evaluated: on "rv64i_sv39zicsr" the token `zicsr` starts right after the
multi-letter token `sv39`, with no underscore in front of it, yet the parse
returns true with three extensions, because of the underscore before `sv39`.
Without that earlier underscore, on "rv64isv39zicsr", the parse fails with
`RV_ISA_UNSEPARATED_MULTI_LETTER` at the offset of the `z`. -/
theorem stale_underscore_hides_unseparated :
    rv_isa_string_parse (cstr "rv64i_sv39zicsr") ⟨RV32, 0, List.replicate 3 ⟨0, 0, 0, 0⟩⟩ 2 3
        ⟨RV_ISA_INVALID_XLEN, 0⟩ =
      some (true, ⟨RV64, 3, [⟨4, 1, 2, 0⟩, ⟨6, 4, 2, 0⟩, ⟨10, 5, 2, 0⟩]⟩,
        ⟨RV_ISA_INVALID_XLEN, 0⟩) ∧
    rv_isa_string_parse (cstr "rv64isv39zicsr") ⟨RV32, 0, List.replicate 3 ⟨0, 0, 0, 0⟩⟩ 2 3
        ⟨RV_ISA_INVALID_XLEN, 0⟩ =
      some (false, ⟨RV64, 2, [⟨4, 1, 2, 0⟩, ⟨5, 4, 2, 0⟩, ⟨0, 0, 0, 0⟩]⟩,
        ⟨RV_ISA_UNSEPARATED_MULTI_LETTER, 9⟩) := by
  decide

/-! ## Lemmas: the width literal -/

theorem consume_iff (s : List Nat) (n : Nat) (cmp : List Nat) :
    (rv_isa_string_consume s 0 n cmp).1 = true ↔
      ∀ i, i < n → tolower (charAt s i) = charAt cmp i := by
  unfold rv_isa_string_consume
  by_cases hc : ((List.range n).all fun i => tolower (charAt s (0 + i)) == charAt cmp i) = true
  · rw [if_pos hc]
    simp only [true_iff]
    intro i hi
    rw [List.all_eq_true] at hc
    have := hc i (List.mem_range.mpr hi)
    simpa using this
  · rw [if_neg hc]
    simp only [Bool.false_eq_true, false_iff]
    intro h
    apply hc
    rw [List.all_eq_true]
    intro i hi
    simpa using h i (List.mem_range.mp hi)

theorem starts_with_iff (lit s : List Nat) (hlit : ∀ x ∈ lit, x ≠ 0) :
    starts_with lit s ↔ ∀ i, i < lit.length → tolower (charAt s i) = charAt lit i := by
  unfold starts_with
  constructor
  · intro h i hi
    have h1 : ((s.map tolower).take lit.length)[i]? = lit[i]? := by rw [h]
    rw [List.getElem?_take_of_lt hi, List.getElem?_map] at h1
    rw [List.getElem?_eq_getElem hi] at h1
    unfold charAt
    rw [List.getD_eq_getElem _ _ hi]
    cases hs : s[i]? with
    | none => rw [hs] at h1; simp at h1
    | some y =>
      rw [hs] at h1
      simp only [Option.map_some', Option.some.injEq] at h1
      rw [List.getD_eq_getElem?_getD, hs]
      exact h1
  · intro h
    apply List.ext_getElem?
    intro i
    by_cases hi : i < lit.length
    · rw [List.getElem?_take_of_lt hi, List.getElem?_map, List.getElem?_eq_getElem hi]
      have h1 := h i hi
      have hne : charAt lit i ≠ 0 := hlit _ (by
        unfold charAt
        rw [List.getD_eq_getElem _ _ hi]
        exact List.getElem_mem hi)
      have hlt : i < s.length := by
        apply lt_length_of_charAt_ne_zero
        intro h0
        rw [h0] at h1
        exact hne (h1 ▸ rfl)
      rw [List.getElem?_eq_getElem hlt]
      simp only [Option.map_some', Option.some.injEq]
      unfold charAt at h1
      rw [List.getD_eq_getElem _ _ hlt, List.getD_eq_getElem _ _ hi] at h1
      exact h1
    · rw [List.getElem?_take_eq_none (by omega), List.getElem?_eq_none (by omega)]

theorem consume_iff_starts_with (lit s : List Nat) (hlit : ∀ x ∈ lit, x ≠ 0) :
    (rv_isa_string_consume s 0 lit.length lit).1 = true ↔ starts_with lit s := by
  rw [consume_iff, starts_with_iff lit s hlit]
theorem consume_rv32 (s : List Nat) :
    (rv_isa_string_consume s 0 4 (cstr "rv32")).1 = true ↔ starts_with (cstr "rv32") s :=
  consume_iff_starts_with (cstr "rv32") s (by decide)

theorem consume_rv64 (s : List Nat) :
    (rv_isa_string_consume s 0 4 (cstr "rv64")).1 = true ↔ starts_with (cstr "rv64") s :=
  consume_iff_starts_with (cstr "rv64") s (by decide)

theorem consume_rv128 (s : List Nat) :
    (rv_isa_string_consume s 0 5 (cstr "rv128")).1 = true ↔ starts_with (cstr "rv128") s :=
  consume_iff_starts_with (cstr "rv128") s (by decide)

theorem starts_with_third (s : List Nat) :
    (starts_with (cstr "rv32") s → tolower (charAt s 2) = 51) ∧
    (starts_with (cstr "rv64") s → tolower (charAt s 2) = 54) ∧
    (starts_with (cstr "rv128") s → tolower (charAt s 2) = 49) := by
  refine ⟨?_, ?_, ?_⟩
  · intro h
    exact (starts_with_iff _ s (by decide)).mp h 2 (by decide)
  · intro h
    exact (starts_with_iff _ s (by decide)).mp h 2 (by decide)
  · intro h
    exact (starts_with_iff _ s (by decide)).mp h 2 (by decide)

theorem width_literal_eq_some (s : List Nat) (x : rv_isa_xlen_t) (p : Nat) :
    width_literal s = some (x, p) ↔ starts_with (width_name x) s ∧ p = (width_name x).length := by
  have t := starts_with_third s
  unfold width_literal
  by_cases h1 : (rv_isa_string_consume s 0 4 (cstr "rv32")).1 = true
  · rw [if_pos h1]
    have s1 := (consume_rv32 s).mp h1
    have a := t.1 s1
    constructor
    · intro h
      cases h
      exact ⟨s1, by decide⟩
    · rintro ⟨h, hp⟩
      cases x with
      | RV32 => rw [hp]; rfl
      | RV64 => have := t.2.1 h; omega
      | RV128 => have := t.2.2 h; omega
  · rw [if_neg h1]
    by_cases h2 : (rv_isa_string_consume s 0 4 (cstr "rv64")).1 = true
    · rw [if_pos h2]
      have s2 := (consume_rv64 s).mp h2
      have a := t.2.1 s2
      constructor
      · intro h
        cases h
        exact ⟨s2, by decide⟩
      · rintro ⟨h, hp⟩
        cases x with
        | RV32 => have := t.1 h; omega
        | RV64 => rw [hp]; rfl
        | RV128 => have := t.2.2 h; omega
    · rw [if_neg h2]
      by_cases h3 : (rv_isa_string_consume s 0 5 (cstr "rv128")).1 = true
      · rw [if_pos h3]
        have s3 := (consume_rv128 s).mp h3
        have a := t.2.2 s3
        constructor
        · intro h
          cases h
          exact ⟨s3, by decide⟩
        · rintro ⟨h, hp⟩
          cases x with
          | RV32 => have := t.1 h; omega
          | RV64 => have := t.2.1 h; omega
          | RV128 => rw [hp]; rfl
      · rw [if_neg h3]
        constructor
        · intro h; cases h
        · rintro ⟨h, _⟩
          cases x with
          | RV32 => exact absurd ((consume_rv32 s).mpr h) h1
          | RV64 => exact absurd ((consume_rv64 s).mpr h) h2
          | RV128 => exact absurd ((consume_rv128 s).mpr h) h3

theorem width_literal_eq_none (s : List Nat) :
    width_literal s = none ↔
      ¬ (starts_with (cstr "rv32") s ∨ starts_with (cstr "rv64") s ∨
        starts_with (cstr "rv128") s) := by
  constructor
  · intro h hs
    rcases hs with hs | hs | hs
    · have := (width_literal_eq_some s RV32 4).mpr ⟨hs, by decide⟩
      rw [h] at this; cases this
    · have := (width_literal_eq_some s RV64 4).mpr ⟨hs, by decide⟩
      rw [h] at this; cases this
    · have := (width_literal_eq_some s RV128 5).mpr ⟨hs, by decide⟩
      rw [h] at this; cases this
  · intro h
    cases hw : width_literal s with
    | none => rfl
    | some xp =>
      obtain ⟨x, p⟩ := xp
      have := ((width_literal_eq_some s x p).mp hw).1
      exfalso
      apply h
      cases x with
      | RV32 => exact Or.inl this
      | RV64 => exact Or.inr (Or.inl this)
      | RV128 => exact Or.inr (Or.inr this)

/-! ## Lemmas: the reasons of the scan -/

theorem parse_version_reason (s : List Nat) (v : scan_vars) (e : rv_isa_ext_t)
    (r : rv_isa_parse_error_reason_t) (l : Nat) (h : parse_version s v e = .ret_error r l) :
    r = RV_ISA_NO_MINOR_VERSION := by
  unfold parse_version at h
  simp only at h
  split at h
  · cases h
  · split at h
    · cases h
    · split at h
      · cases h
      · cases h; rfl

theorem parse_ext_start_reason (s : List Nat) (d : Int) (v : scan_vars)
    (r : rv_isa_parse_error_reason_t) (l : Nat) (h : parse_ext_start s d v = .ret_error r l) :
    r ≠ RV_ISA_INVALID_XLEN := by
  have key : ∀ (v : scan_vars) (c : Nat), parse_ext_name s d v c = .ret_error r l →
      r ≠ RV_ISA_INVALID_XLEN := by
    intro v c h
    unfold parse_ext_name at h
    simp only at h
    split at h
    · split at h
      · cases h; decide
      · split at h
        · cases h; decide
        · rw [parse_version_reason s _ _ r l h]; decide
    · split at h
      · split at h
        · cases h; decide
        · split at h
          · cases h
          · rw [parse_version_reason s _ _ r l h]; decide
      · cases h; decide
  unfold parse_ext_start at h
  simp only at h
  split at h
  · cases h
  · split at h
    · exact key _ _ h
    · exact key _ _ h

theorem scan_tokens_reason (s : List Nat) (d : Int) :
    ∀ (fuel : Nat) (v : scan_vars) (toks : List rv_isa_ext_t) (e : rv_isa_parse_error_t),
      scan_tokens s d fuel v = some (toks, some e) → e.reason ≠ RV_ISA_INVALID_XLEN := by
  intro fuel
  induction fuel with
  | zero => intro v toks e h; simp [scan_tokens] at h
  | succ n ih =>
    intro v toks e h
    simp only [scan_tokens] at h
    cases hp : parse_ext_start s d v with
    | ret_true v1 => rw [hp] at h; cases h
    | ret_error r l =>
      rw [hp] at h
      cases h
      exact parse_ext_start_reason s d v r l hp
    | ext_end v1 ext =>
      rw [hp] at h
      simp only at h
      cases hs : scan_tokens s d n v1 with
      | none => rw [hs] at h; simp at h
      | some r1 =>
        rw [hs] at h
        obtain ⟨t1, f1⟩ := r1
        simp only [Option.map_some', Option.some.injEq, Prod.mk.injEq] at h
        obtain ⟨_, rfl⟩ := h
        exact ih v1 t1 e hs

theorem parse_eq_parse_exts (s : List Nat) (isa : rv_isa_t) (d : Int) (cap : Nat)
    (err : rv_isa_parse_error_t) (x : rv_isa_xlen_t) (h : starts_with (width_name x) s) :
    rv_isa_string_parse s isa d cap err =
      rv_isa_string_parse_exts s (width_name x).length { isa with num_exts := 0, xlen := x }
        d cap err := by
  have hw := (width_literal_eq_some s x _).mpr ⟨h, rfl⟩
  rw [parse_eq, hw]
  unfold rv_isa_string_parse_exts
  rw [parse_exts_eq_scan]
  simp only [Nat.zero_add]

/-- C11 (width-literal matcher). For every string `s`, also one shorter than four
characters: `rv_isa_string_parse` fails with reason `RV_ISA_INVALID_XLEN` exactly
when `s`, lowercased, begins with none of "rv32", "rv64", "rv128"; the error
offset is then 0; and when `s`, lowercased, begins with the literal of the
width `x`, the parse is the extension scan started right after that literal
(offset 4, 4 or 5) with the width set to `x`, so that a successful parse
reports the width `x`. -/
theorem width_literal_matcher (s : List Nat) (isa : rv_isa_t) (d : Int) (cap : Nat)
    (err : rv_isa_parse_error_t) :
    ((∃ isa1 location, rv_isa_string_parse s isa d cap err =
        some (false, isa1, { reason := RV_ISA_INVALID_XLEN, location := location })) ↔
      ¬ (starts_with (cstr "rv32") s ∨ starts_with (cstr "rv64") s ∨
        starts_with (cstr "rv128") s)) ∧
    (∀ isa1 location, rv_isa_string_parse s isa d cap err =
        some (false, isa1, { reason := RV_ISA_INVALID_XLEN, location := location }) →
      location = 0) ∧
    (∀ x, starts_with (width_name x) s →
      rv_isa_string_parse s isa d cap err =
        rv_isa_string_parse_exts s (width_name x).length
          { isa with num_exts := 0, xlen := x } d cap err ∧
      ((width_name x).length = 4 ∨ (width_name x).length = 5) ∧
      ∀ isa1 err1, rv_isa_string_parse s isa d cap err = some (true, isa1, err1) →
        isa1.xlen = x) := by
  rcases parse_cases s isa d cap err with ⟨hw, hp⟩ | ⟨w, p, toks, fin, hw, hs, hp⟩
  · refine ⟨?_, ?_, ?_⟩
    · rw [← width_literal_eq_none]
      exact ⟨fun _ => hw, fun _ => ⟨_, 0, hp⟩⟩
    · intro isa1 location h
      rw [hp] at h
      cases h
      rfl
    · intro x hx
      have := (width_literal_eq_some s x _).mpr ⟨hx, rfl⟩
      rw [hw] at this
      cases this
  · have hnot : ¬ ∃ isa1 location, rv_isa_string_parse s isa d cap err =
        some (false, isa1, { reason := RV_ISA_INVALID_XLEN, location := location }) := by
      rintro ⟨isa1, location, h⟩
      rw [hp] at h
      cases fin with
      | none => simp at h
      | some e =>
        have hr := scan_tokens_reason s d _ _ toks e hs
        simp only [Option.getD_some, Option.some.injEq, Prod.mk.injEq] at h
        rw [h.2.2] at hr
        exact hr rfl
    refine ⟨?_, ?_, ?_⟩
    · constructor
      · intro h; exact absurd h hnot
      · intro h
        rw [← width_literal_eq_none, hw] at h
        cases h
    · intro isa1 location h
      exact absurd ⟨isa1, location, h⟩ hnot
    · intro x hx
      have hx2 := (width_literal_eq_some s x _).mpr ⟨hx, rfl⟩
      rw [hw] at hx2
      cases hx2
      refine ⟨parse_eq_parse_exts s isa d cap err w hx, ?_, ?_⟩
      · cases w <;> decide
      · intro isa1 err1 h
        rw [hp] at h
        simp only [Option.some.injEq, Prod.mk.injEq] at h
        rw [← h.2.1]

/-! ## Lemmas: runs of single-letter extensions inside a string -/

theorem after_singles_nil (v : scan_vars) : after_singles v [] = v := rfl

theorem after_singles_cons (v : scan_vars) (c : Nat) (L : List Nat) :
    after_singles v (c :: L) =
      after_singles
        { v with isa_string := v.isa_string + 1, last_single_char_ext := canon_index c,
                 multi_letter := false, parsed_version := false } L := rfl

theorem after_singles_append (v : scan_vars) (L : List Nat) (b : Nat) :
    after_singles v (L ++ [b]) =
      { after_singles v L with
        isa_string := (after_singles v L).isa_string + 1,
        last_single_char_ext := canon_index b, multi_letter := false,
        parsed_version := false } := by
  unfold after_singles
  rw [List.foldl_append]
  rfl

theorem after_singles_fields (L : List Nat) :
    ∀ (v : scan_vars), v.parsed_version = false →
      (after_singles v L).isa_string = v.isa_string + L.length ∧
      (after_singles v L).parsed_version = false ∧
      (after_singles v L).have_underscore = v.have_underscore ∧
      ((after_singles v L).last_single_char_ext = v.last_single_char_ext ∨
        ∃ x ∈ L, (after_singles v L).last_single_char_ext = (canon_index x : Int)) := by
  induction L with
  | nil => intro v h; exact ⟨rfl, h, rfl, Or.inl rfl⟩
  | cons c L ih =>
    intro v h
    rw [after_singles_cons]
    have := ih { v with isa_string := v.isa_string + 1, last_single_char_ext := canon_index c,
                        multi_letter := false, parsed_version := false } rfl
    simp only at this
    refine ⟨by rw [this.1, List.length_cons]; omega, this.2.1, this.2.2.1, ?_⟩
    rcases this.2.2.2 with h1 | ⟨x, hx, h1⟩
    · exact Or.inr ⟨c, List.mem_cons_self _ _, h1⟩
    · exact Or.inr ⟨x, List.mem_cons_of_mem _ hx, h1⟩

theorem tok_head_facts (L post : List Nat)
    (h : ∀ c ∈ L, canon_index c < single_char_exts.length)
    (hp : isspace (charAt post 0) = false ∧ charAt post 0 ≠ 45 ∧ charAt post 0 ≠ 43 ∧
      isdigit (charAt post 0) = false) :
    isspace (charAt (L ++ post) 0) = false ∧ charAt (L ++ post) 0 ≠ 45 ∧
      charAt (L ++ post) 0 ≠ 43 ∧ isdigit (charAt (L ++ post) 0) = false := by
  cases L with
  | nil => exact hp
  | cons c L =>
    have := single_char_facts c (h c (List.mem_cons_self _ _))
    exact ⟨this.2.2.1, this.2.2.2.1, this.2.2.2.2.1, this.2.2.2.2.2⟩

/-- A run `L` of single-letter extensions in canonical order, followed by a
character that does not start a number: one record per letter, then the scan
goes on from the state `after_singles v L`. -/
theorem scan_singles_then (d : Int) :
    ∀ (L pre post : List Nat) (v : scan_vars) (fuel : Nat),
      v.isa_string = pre.length → v.parsed_version = false →
      (∀ c ∈ L, canon_index c < single_char_exts.length ∧
        v.last_single_char_ext < (canon_index c : Int)) →
      L.Pairwise (fun a b => canon_index a < canon_index b) →
      (isspace (charAt post 0) = false ∧ charAt post 0 ≠ 45 ∧ charAt post 0 ≠ 43 ∧
        isdigit (charAt post 0) = false) →
      scan_tokens (pre ++ (L ++ post)) d (fuel + L.length) v =
        (scan_tokens (pre ++ (L ++ post)) d fuel (after_singles v L)).map (fun r =>
          ((List.range' pre.length L.length).map
            (fun p => ({ name := p, len := 1, major := d, minor := 0 } : rv_isa_ext_t)) ++ r.1,
           r.2)) := by
  intro L
  induction L with
  | nil =>
    intro pre post v fuel _ _ _ _ _
    simp [after_singles_nil]
  | cons c L ih =>
    intro pre post v fuel hpos hpv hL hpw hpost
    have hc : charAt (pre ++ ((c :: L) ++ post)) v.isa_string = c := by
      rw [hpos]
      exact charAt_append_right pre _ 0
    have hn : charAt (pre ++ ((c :: L) ++ post)) (v.isa_string + 1) = charAt (L ++ post) 0 := by
      rw [hpos]
      exact charAt_append_right pre _ 1
    have hcL := hL c (List.mem_cons_self _ _)
    have hnf := tok_head_facts L post (fun x hx => (hL x (List.mem_cons_of_mem _ hx)).1) hpost
    rw [← hn] at hnf
    have hstep := parse_ext_start_single (pre ++ ((c :: L) ++ post)) d v (by rw [hc]; exact hcL.1)
      (by rw [hc]; exact hcL.2) hpv hnf.1 hnf.2.1 hnf.2.2.1 hnf.2.2.2
    rw [hc] at hstep
    have hf : fuel + (c :: L).length = (fuel + L.length) + 1 := by
      simp only [List.length_cons]; omega
    rw [hf]
    simp only [scan_tokens, hstep]
    have hpw2 := List.pairwise_cons.mp hpw
    have hih := ih (pre ++ [c]) post
      { v with isa_string := v.isa_string + 1, last_single_char_ext := canon_index c,
               multi_letter := false, parsed_version := false } fuel
      (by simp [hpos]) rfl
      (fun x hx => ⟨(hL x (List.mem_cons_of_mem _ hx)).1, by
        have := hpw2.1 x hx
        simp only
        omega⟩)
      hpw2.2 hpost
    have he : pre ++ [c] ++ (L ++ post) = pre ++ ((c :: L) ++ post) := by simp
    rw [he] at hih
    rw [hih, after_singles_cons]
    simp only [Option.map_map]
    congr 1
    funext r
    simp [hpos, List.range'_succ]

theorem parse_ext_start_order_error (s : List Nat) (d : Int) (v : scan_vars)
    (hidx : canon_index (charAt s v.isa_string) < single_char_exts.length)
    (hle : (canon_index (charAt s v.isa_string) : Int) ≤ v.last_single_char_ext)
    (hpv : v.parsed_version = false) :
    parse_ext_start s d v = .ret_error RV_ISA_INCORRECT_EXT_ORDER v.isa_string := by
  have hf := single_char_facts _ hidx
  unfold canon_index at hidx hle
  unfold parse_ext_start
  simp only [if_neg hf.1, if_neg hf.2.1]
  unfold parse_ext_name
  simp only [if_pos hidx, hpv]
  rw [if_neg (by simp), if_pos hle]

theorem after_singles_last (v : scan_vars) (L : List Nat) (hne : L ≠ []) :
    (after_singles v L).last_single_char_ext = (canon_index (L.getLast hne) : Int) := by
  have h := List.dropLast_append_getLast hne
  have h2 : after_singles v L = after_singles v (L.dropLast ++ [L.getLast hne]) := by rw [h]
  rw [h2, after_singles_append]

theorem cstr_rv32_length : (cstr "rv32").length = 4 := by decide

theorem width_literal_rv32 (post : List Nat) :
    width_literal (cstr "rv32" ++ post) = some (RV32, 4) :=
  width_literal_of_name (cstr "rv32") post RV32 (by decide)

/-- C12 (canonical order enforced as an error). For a non-empty list `L` of
single-letter extension names in strictly increasing canonical order and a
single-letter extension name `b` whose canonical index is at most that of the
last letter of `L` (letters in either case), `rv_isa_string_parse` on
`"rv32" ++ L ++ b` fails with reason `RV_ISA_INCORRECT_EXT_ORDER` and error
offset `4 + |L|`, the position of `b`, for every default major version, every
capacity and every buffer. -/
theorem order_violation_rejected (L : List Nat) (b : Nat) (d : Int) (cap : Nat) (isa : rv_isa_t)
    (err : rv_isa_parse_error_t) (hne : L ≠ [])
    (hL : ∀ c ∈ L, canon_index c < single_char_exts.length)
    (hord : L.Pairwise (fun a b => canon_index a < canon_index b))
    (hb : canon_index b < single_char_exts.length)
    (hle : canon_index b ≤ canon_index (L.getLast hne)) :
    ∃ isa1, rv_isa_string_parse (cstr "rv32" ++ L ++ [b]) isa d cap err =
      some (false, isa1, { reason := RV_ISA_INCORRECT_EXT_ORDER, location := 4 + L.length }) := by
  have hbf := single_char_facts b hb
  have h1 := scan_singles_then d L (cstr "rv32") [b] (scan_init 4) 1 rfl rfl
    (fun c hc => ⟨hL c hc, by simp only [scan_init]; omega⟩) hord
    ⟨hbf.2.2.1, hbf.2.2.2.1, hbf.2.2.2.2.1, hbf.2.2.2.2.2⟩
  have hf := after_singles_fields L (scan_init 4) rfl
  have hlast := after_singles_last (scan_init 4) L hne
  have hloc : (after_singles (scan_init 4) L).isa_string = 4 + L.length := hf.1
  have hch : charAt (cstr "rv32" ++ (L ++ [b])) (after_singles (scan_init 4) L).isa_string = b := by
    rw [hloc]
    rw [← cstr_rv32_length, charAt_tok_ge _ L [b] _ (Nat.le_refl _), Nat.sub_self]
    rfl
  have h2 := parse_ext_start_order_error (cstr "rv32" ++ (L ++ [b])) d
    (after_singles (scan_init 4) L) (by rw [hch]; exact hb)
    (by rw [hch, hlast]; exact_mod_cast hle) hf.2.1
  rw [hloc] at h2
  have h3 : scan_tokens (cstr "rv32" ++ (L ++ [b])) d 1 (after_singles (scan_init 4) L) =
      some ([], some { reason := RV_ISA_INCORRECT_EXT_ORDER, location := 4 + L.length }) := by
    simp only [scan_tokens, h2]
  rw [h3] at h1
  simp only [Option.map_some'] at h1
  have hp := parse_of_scan (cstr "rv32" ++ (L ++ [b])) isa d cap err RV32 4 _ _ _
    (width_literal_rv32 _) h1
  rw [← List.append_assoc] at hp
  exact ⟨_, hp⟩

/-- C12 at the string of the specification: "rv32icm" fails with
`RV_ISA_INCORRECT_EXT_ORDER` at offset 6. -/
theorem order_violation_rejected_witness :
    ∃ isa1, rv_isa_string_parse (cstr "rv32" ++ cstr "ic" ++ [109])
        ⟨RV32, 0, []⟩ 2 0 ⟨RV_ISA_INVALID_XLEN, 0⟩ =
      some (false, isa1,
        { reason := RV_ISA_INCORRECT_EXT_ORDER, location := 4 + (cstr "ic").length }) :=
  order_violation_rejected (cstr "ic") 109 2 0 ⟨RV32, 0, []⟩ ⟨RV_ISA_INVALID_XLEN, 0⟩
    (by decide) (by decide) (by decide) (by decide) (by decide)

theorem parse_ext_start_single_version (s : List Nat) (d : Int) (v : scan_vars)
    (hidx : canon_index (charAt s v.isa_string) < single_char_exts.length)
    (hlast : v.last_single_char_ext < (canon_index (charAt s v.isa_string) : Int))
    (hpv : v.parsed_version = false) :
    parse_ext_start s d v =
      parse_version s
        { v with isa_string := v.isa_string + 1,
                 last_single_char_ext := canon_index (charAt s v.isa_string),
                 multi_letter := false }
        { name := v.isa_string, len := 1, major := d, minor := 0 } := by
  have hf := single_char_facts _ hidx
  unfold canon_index at hidx hlast
  unfold parse_ext_start
  simp only [if_neg hf.1, if_neg hf.2.1]
  unfold parse_ext_name
  simp only [if_pos hidx, hpv]
  rw [if_neg (by simp), if_neg (by omega)]
  rfl

/-- State `parse_version` on `<digits> p` followed by a character that does not
start a number: the minor version is missing. -/
theorem parse_version_no_minor (v : scan_vars) (e : rv_isa_ext_t) (pre D R : List Nat)
    (hpos : v.isa_string = pre.length)
    (hD : ∀ x ∈ D, isdigit x = true) (hDne : D ≠ [])
    (hR : isspace (charAt R 0) = false ∧ charAt R 0 ≠ 45 ∧ charAt R 0 ≠ 43 ∧
      isdigit (charAt R 0) = false) :
    parse_version (pre ++ (D ++ (112 :: R))) v e =
      .ret_error RV_ISA_NO_MINOR_VERSION (pre.length + D.length + 1) := by
  have h1 := strtol_digit_run pre D (112 :: R) hD hDne (by rw [charAt_cons_zero]; decide)
  have hp : charAt (pre ++ (D ++ (112 :: R))) (pre.length + D.length) = 112 := by
    rw [charAt_tok_ge pre D _ _ (Nat.le_refl _), Nat.sub_self]
    rfl
  have hn : charAt (pre ++ (D ++ (112 :: R))) (pre.length + D.length + 1) = charAt R 0 := by
    rw [show pre.length + D.length + 1 = pre.length + (D.length + 1) by omega,
      charAt_tok_ge pre D _ _ (by omega)]
    rw [show D.length + 1 - D.length = 0 + 1 by omega, charAt_cons_succ]
  have h2 := strtol_none (pre ++ (D ++ (112 :: R))) (pre.length + D.length + 1)
    (by rw [hn]; exact hR.1) (by rw [hn]; exact hR.2.1) (by rw [hn]; exact hR.2.2.1)
    (by rw [hn]; exact hR.2.2.2)
  have hm1 := List.length_pos.mpr hDne
  unfold parse_version
  simp only [hpos, h1, h2, hp]
  rw [if_neg (by omega)]
  simp

theorem remainder_facts (R : List Nat)
    (hR : R = [] ∨ isalpha (charAt R 0) = true ∨ charAt R 0 = 95) :
    isspace (charAt R 0) = false ∧ charAt R 0 ≠ 45 ∧ charAt R 0 ≠ 43 ∧
      isdigit (charAt R 0) = false := by
  rcases hR with rfl | h | h
  · exact nul_facts
  · unfold isalpha at h
    unfold isspace isdigit
    simp only [decide_eq_true_eq] at h
    simp only [decide_eq_false_iff_not]
    omega
  · rw [h]; decide

/-- C13 (missing minor version). For a non-empty list `L` of single-letter
extension names in strictly increasing canonical order, a non-empty string `D` of
decimal digits and a remainder `R` that is empty or begins with a letter or an
underscore, `rv_isa_string_parse` on `"rv32" ++ L ++ D ++ "p" ++ R` fails with
reason `RV_ISA_NO_MINOR_VERSION` and error offset `4 + |L| + |D| + 1`, just past
the `p`, for every default major version, every capacity and every buffer. -/
theorem missing_minor_rejected (L D R : List Nat) (d : Int) (cap : Nat) (isa : rv_isa_t)
    (err : rv_isa_parse_error_t) (hne : L ≠ [])
    (hL : ∀ c ∈ L, canon_index c < single_char_exts.length)
    (hord : L.Pairwise (fun a b => canon_index a < canon_index b))
    (hD : decimal_digits D = true)
    (hR : R = [] ∨ isalpha (charAt R 0) = true ∨ charAt R 0 = 95) :
    ∃ isa1, rv_isa_string_parse (cstr "rv32" ++ L ++ D ++ cstr "p" ++ R) isa d cap err =
      some (false, isa1,
        { reason := RV_ISA_NO_MINOR_VERSION, location := 4 + L.length + D.length + 1 }) := by
  obtain ⟨hDne, hDd⟩ := decimal_digits_cases D hD
  have hRf := remainder_facts R hR
  obtain ⟨L1, a, rfl⟩ : ∃ L1 a, L = L1 ++ [a] :=
    ⟨L.dropLast, L.getLast hne, (List.dropLast_append_getLast hne).symm⟩
  have hpw := List.pairwise_append.mp hord
  have ha := hL a (by simp)
  have haf := single_char_facts a ha
  have h1 := scan_singles_then d L1 (cstr "rv32") (a :: (D ++ (112 :: R))) (scan_init 4) 1
    rfl rfl
    (fun c hc => ⟨hL c (by simp [hc]), by simp only [scan_init]; omega⟩) hpw.1
    (by rw [charAt_cons_zero]; exact ⟨haf.2.2.1, haf.2.2.2.1, haf.2.2.2.2.1, haf.2.2.2.2.2⟩)
  have hf := after_singles_fields L1 (scan_init 4) rfl
  have hloc : (after_singles (scan_init 4) L1).isa_string = 4 + L1.length := hf.1
  generalize hs : cstr "rv32" ++ (L1 ++ (a :: (D ++ (112 :: R)))) = s at h1
  have hs2 : (cstr "rv32" ++ L1 ++ [a]) ++ (D ++ (112 :: R)) = s := by
    rw [← hs]; simp
  have hch : charAt s (after_singles (scan_init 4) L1).isa_string = a := by
    rw [hloc, ← hs, ← cstr_rv32_length, charAt_tok_ge _ L1 _ _ (Nat.le_refl _), Nat.sub_self]
    rfl
  have hlast : (after_singles (scan_init 4) L1).last_single_char_ext < (canon_index a : Int) := by
    rcases hf.2.2.2 with h | ⟨x, hx, h⟩
    · rw [h]; simp only [scan_init]; omega
    · rw [h]
      have := hpw.2.2 x hx a (by simp)
      exact_mod_cast this
  have h2 := parse_ext_start_single_version s d (after_singles (scan_init 4) L1)
    (by rw [hch]; exact ha) (by rw [hch]; exact hlast) hf.2.1
  have h3 := parse_version_no_minor
    { after_singles (scan_init 4) L1 with
      isa_string := (after_singles (scan_init 4) L1).isa_string + 1,
      last_single_char_ext := canon_index (charAt s (after_singles (scan_init 4) L1).isa_string),
      multi_letter := false }
    { name := (after_singles (scan_init 4) L1).isa_string, len := 1, major := d, minor := 0 }
    (cstr "rv32" ++ L1 ++ [a]) D R
    (by simp only [hloc, List.length_append, cstr_rv32_length, List.length_cons,
      List.length_nil])
    hDd hDne hRf
  rw [hs2] at h3
  rw [h3] at h2
  have h4 : scan_tokens s d 1 (after_singles (scan_init 4) L1) =
      some ([], some { reason := RV_ISA_NO_MINOR_VERSION,
                       location := (cstr "rv32" ++ L1 ++ [a]).length + D.length + 1 }) := by
    simp only [scan_tokens, h2]
  rw [h4] at h1
  simp only [Option.map_some'] at h1
  have he : cstr "rv32" ++ (L1 ++ [a]) ++ D ++ cstr "p" ++ R = s := by
    rw [← hs, cstr_p]; simp
  have hw : width_literal s = some (RV32, 4) := by
    rw [← hs]
    exact width_literal_rv32 _
  have hp := parse_of_scan s isa d cap err RV32 4 _ _ _ hw h1
  have hl : (cstr "rv32" ++ L1 ++ [a]).length + D.length + 1 =
      4 + (L1 ++ [a]).length + D.length + 1 := by
    simp only [List.length_append, cstr_rv32_length, List.length_cons, List.length_nil]
    omega
  rw [hl] at hp
  rw [he]
  exact ⟨_, hp⟩

/-- C13 at "rv32im2pc": the `p` after `m2` is read as the minor-version separator
and no digit follows it. -/
theorem missing_minor_rejected_witness :
    ∃ isa1, rv_isa_string_parse (cstr "rv32" ++ cstr "im" ++ cstr "2" ++ cstr "p" ++ cstr "c")
        ⟨RV32, 0, []⟩ 2 0 ⟨RV_ISA_INVALID_XLEN, 0⟩ =
      some (false, isa1,
        { reason := RV_ISA_NO_MINOR_VERSION,
          location := 4 + (cstr "im").length + (cstr "2").length + 1 }) :=
  missing_minor_rejected (cstr "im") (cstr "2") (cstr "c") 2 0 ⟨RV32, 0, []⟩
    ⟨RV_ISA_INVALID_XLEN, 0⟩ (by decide) (by decide) (by decide) (by decide) (by decide)

/-! ## Lemmas: name spans -/

theorem parse_ext_name_span (s : List Nat) (d : Int) (v v1 : scan_vars) (e1 : rv_isa_ext_t)
    (h : parse_ext_name s d v (tolower (charAt s v.isa_string)) = .ext_end v1 e1) :
    e1.name = v.isa_string ∧ 1 ≤ e1.len ∧ v.isa_string + e1.len ≤ v1.isa_string ∧
      v1.isa_string ≤ s.length := by
  unfold parse_ext_name at h
  simp only at h
  split at h
  · rename_i hi
    have hmem := (mem_single_char_exts _).mp (List.indexOf_lt_length.mp hi)
    have hne : charAt s v.isa_string ≠ 0 := by
      intro h0; rw [h0] at hmem; simp [tolower] at hmem
    have hlt := lt_length_of_charAt_ne_zero _ _ hne
    split at h
    · cases h
    · split at h
      · cases h
      · have hadv := parse_version_advance s _ v1 _ e1 h (by simp only; omega)
        have hk := parse_version_keeps s _ v1 _ e1 h
        simp only at hadv hk
        rw [hk.1, hk.2.1]
        exact ⟨rfl, Nat.le_refl _, hadv.1, hadv.2⟩
  · split at h
    · rename_i hz
      have hfirst := zshx_not_digit _ hz
      have hlt := lt_length_of_charAt_ne_zero _ _ hfirst.2.2
      split at h
      · cases h
      · split at h
        · rename_i hsv
          cases h
          have hd : charAt s (v.isa_string + 2) ≠ 0 := by
            intro h0; rw [h0] at hsv; simp [isdigit] at hsv
          have h2 := lt_length_of_charAt_ne_zero _ _ hd
          have h3 := takeWhile_drop_length_le isdigit s (v.isa_string + 2)
          refine ⟨rfl, ?_, ?_, ?_⟩ <;> simp only <;> omega
        · have h3 := takeWhile_drop_length_le isalnum s (v.isa_string + 1)
          have h4 := strip_digits_le s v.isa_string
            (1 + ((s.drop (v.isa_string + 1)).takeWhile isalnum).length)
          have h5 := strip_digits_pos s v.isa_string hfirst.1
            (1 + ((s.drop (v.isa_string + 1)).takeWhile isalnum).length) (by omega)
          have h6 := strip_digits_le s v.isa_string
            (strip_digits s v.isa_string
              (1 + ((s.drop (v.isa_string + 1)).takeWhile isalnum).length) - 1)
          have hadv := parse_version_advance s _ v1 _ e1 h
          have hk := parse_version_keeps s _ v1 _ e1 h
          simp only at hadv hk
          rw [hk.1, hk.2.1]
          split at hadv
          · rename_i hp
            have h7 : 2 ≤ strip_digits s v.isa_string
                (1 + ((s.drop (v.isa_string + 1)).takeWhile isalnum).length) := by
              by_contra hc
              have h8 : strip_digits s v.isa_string
                (1 + ((s.drop (v.isa_string + 1)).takeWhile isalnum).length) = 1 := by omega
              rw [h8] at hp
              simp only [Nat.sub_self, Nat.add_zero] at hp
              exact hfirst.2.1 hp.1
            have h9 := strip_digits_pos s v.isa_string hfirst.1
              (strip_digits s v.isa_string
                (1 + ((s.drop (v.isa_string + 1)).takeWhile isalnum).length) - 1) (by omega)
            have := hadv (by omega)
            rw [if_pos hp]
            exact ⟨rfl, h9, this.1, this.2⟩
          · rename_i hp
            have := hadv (by omega)
            rw [if_neg hp]
            exact ⟨rfl, h5, this.1, this.2⟩
    · cases h

theorem parse_ext_start_span (s : List Nat) (d : Int) (v v1 : scan_vars) (e1 : rv_isa_ext_t)
    (h : parse_ext_start s d v = .ext_end v1 e1) :
    v.isa_string ≤ e1.name ∧ 1 ≤ e1.len ∧ e1.name + e1.len ≤ v1.isa_string ∧
      v1.isa_string ≤ s.length := by
  unfold parse_ext_start at h
  simp only at h
  split at h
  · cases h
  · split at h
    · have := parse_ext_name_span s d _ v1 e1 h
      simp only at this
      rw [this.1]
      exact ⟨by omega, this.2.1, this.2.2.1, this.2.2.2⟩
    · have := parse_ext_name_span s d v v1 e1 h
      rw [this.1]
      exact ⟨Nat.le_refl _, this.2.1, this.2.2.1, this.2.2.2⟩

theorem scan_tokens_spans (s : List Nat) (d : Int) :
    ∀ (fuel : Nat) (v : scan_vars) (toks : List rv_isa_ext_t)
      (fin : Option rv_isa_parse_error_t),
      scan_tokens s d fuel v = some (toks, fin) →
      (∀ t ∈ toks, v.isa_string ≤ t.name ∧ 1 ≤ t.len ∧ t.name + t.len ≤ s.length) ∧
      toks.Pairwise (fun a b => a.name + a.len ≤ b.name) ∧
      toks.length + v.isa_string ≤ max s.length v.isa_string := by
  intro fuel
  induction fuel with
  | zero => intro v toks fin h; simp [scan_tokens] at h
  | succ n ih =>
    intro v toks fin h
    simp only [scan_tokens] at h
    cases hp : parse_ext_start s d v with
    | ret_true v1 =>
      rw [hp] at h; cases h
      exact ⟨fun t ht => by simp at ht, List.Pairwise.nil, by simp⟩
    | ret_error r l =>
      rw [hp] at h; cases h
      exact ⟨fun t ht => by simp at ht, List.Pairwise.nil, by simp⟩
    | ext_end v1 ext =>
      rw [hp] at h
      simp only at h
      cases hs : scan_tokens s d n v1 with
      | none => rw [hs] at h; simp at h
      | some r =>
        rw [hs] at h
        obtain ⟨toks1, fin1⟩ := r
        simp only [Option.map_some', Option.some.injEq, Prod.mk.injEq] at h
        obtain ⟨rfl, rfl⟩ := h
        have hih := ih v1 toks1 fin1 hs
        have hsp := parse_ext_start_span s d v v1 ext hp
        refine ⟨?_, ?_, ?_⟩
        · intro t ht
          rcases List.mem_cons.mp ht with rfl | ht
          · exact ⟨hsp.1, hsp.2.1, by omega⟩
          · have := hih.1 t ht
            exact ⟨by omega, this.2.1, this.2.2⟩
        · refine List.Pairwise.cons ?_ hih.2.1
          intro b hb
          have := hih.1 b hb
          omega
        · have := hih.2.2
          simp only [List.length_cons]
          omega

theorem parse_success_tokens (s : List Nat) (isa isa1 : rv_isa_t) (d : Int) (cap : Nat)
    (err err1 : rv_isa_parse_error_t)
    (h : rv_isa_string_parse s isa d cap err = some (true, isa1, err1)) :
    ∃ w p toks, width_literal s = some (w, p) ∧
      scan_tokens s d (s.length + 1) (scan_init p) = some (toks, none) ∧
      isa1 = { xlen := w, num_exts := toks.length, exts := write_exts cap isa.exts 0 toks } ∧
      err1 = err := by
  rcases parse_cases s isa d cap err with ⟨_, hp⟩ | ⟨w, p, toks, fin, hw, hs, hp⟩
  · rw [hp] at h; simp at h
  · rw [hp] at h
    simp only [Option.some.injEq, Prod.mk.injEq] at h
    cases fin with
    | some e => simp at h
    | none => exact ⟨w, p, toks, hw, hs, h.2.1.symm, h.2.2.symm⟩

theorem parse_success_record (s : List Nat) (isa isa1 : rv_isa_t) (d : Int) (cap : Nat)
    (err err1 : rv_isa_parse_error_t)
    (h : rv_isa_string_parse s isa d cap err = some (true, isa1, err1))
    (hcap : isa1.num_exts ≤ cap) (hbuf : cap ≤ isa.exts.length) :
    ∃ w p toks, width_literal s = some (w, p) ∧
      scan_tokens s d (s.length + 1) (scan_init p) = some (toks, none) ∧
      isa1.num_exts = toks.length ∧ isa1.xlen = w ∧
      ∀ i, i < toks.length → isa1.exts[i]? = toks[i]? := by
  obtain ⟨w, p, toks, hw, hs, rfl, _⟩ := parse_success_tokens s isa isa1 d cap err err1 h
  refine ⟨w, p, toks, hw, hs, rfl, rfl, ?_⟩
  intro i hi
  simp only at hcap ⊢
  rw [write_exts_getElem?, if_pos (by omega), Nat.sub_zero]

/-- C14 (well-formed name spans in scan order). When `rv_isa_string_parse` returns
true on a string `s` and the capacity was at least `num_exts` (the buffer holding
at least as many slots as the capacity), `s` begins with the literal of some
width `x` and every record's name span starts at or after the end of that
literal, has length at least 1 (the backward stripping of a version suffix
never reaches the start of the name) and ends within `s`; and any record ends
before any later record starts, so consecutive spans follow textual order
without overlap. -/
theorem name_spans_well_formed (s : List Nat) (isa isa1 : rv_isa_t) (d : Int) (cap : Nat)
    (err err1 : rv_isa_parse_error_t)
    (h : rv_isa_string_parse s isa d cap err = some (true, isa1, err1))
    (hcap : isa1.num_exts ≤ cap) (hbuf : cap ≤ isa.exts.length) :
    ∃ x, starts_with (width_name x) s ∧
      (∀ i r, i < isa1.num_exts → isa1.exts[i]? = some r →
        (width_name x).length ≤ r.name ∧ 1 ≤ r.len ∧ r.name + r.len ≤ s.length) ∧
      (∀ i j ri rj, i < j → j < isa1.num_exts → isa1.exts[i]? = some ri →
        isa1.exts[j]? = some rj → ri.name + ri.len ≤ rj.name) := by
  obtain ⟨w, p, toks, hw, hs, hn, _, hrec⟩ :=
    parse_success_record s isa isa1 d cap err err1 h hcap hbuf
  have hwl := (width_literal_eq_some s w p).mp hw
  have hsp := scan_tokens_spans s d _ _ toks none hs
  refine ⟨w, hwl.1, ?_, ?_⟩
  · intro i r hi hr
    rw [hn] at hi
    rw [hrec i hi, List.getElem?_eq_getElem hi] at hr
    cases hr
    have := hsp.1 _ (List.getElem_mem hi)
    simp only [scan_init] at this
    rw [← hwl.2]
    exact this
  · intro i j ri rj hij hj hri hrj
    rw [hn] at hj
    have hi : i < toks.length := by omega
    rw [hrec i hi, List.getElem?_eq_getElem hi] at hri
    rw [hrec j hj, List.getElem?_eq_getElem hj] at hrj
    cases hri
    cases hrj
    exact (List.pairwise_iff_getElem.mp hsp.2.1) i j hi hj hij

/-- C14 at "rv64gc_zicsr2p1_sv48_xfoo12": five records, the spans (4,1), (5,1),
(7,5), (16,4), (21,4) in a string of 27 characters. -/
theorem name_spans_well_formed_witness :
    ∃ x, starts_with (width_name x) (cstr "rv64gc_zicsr2p1_sv48_xfoo12") ∧
      (∀ i r, i < 5 →
        ([⟨4, 1, 2, 0⟩, ⟨5, 1, 2, 0⟩, ⟨7, 5, 2, 1⟩, ⟨16, 4, 2, 0⟩, ⟨21, 4, 12, 0⟩] :
          List rv_isa_ext_t)[i]? = some r →
        (width_name x).length ≤ r.name ∧ 1 ≤ r.len ∧
          r.name + r.len ≤ (cstr "rv64gc_zicsr2p1_sv48_xfoo12").length) ∧
      (∀ i j ri rj, i < j → j < 5 →
        ([⟨4, 1, 2, 0⟩, ⟨5, 1, 2, 0⟩, ⟨7, 5, 2, 1⟩, ⟨16, 4, 2, 0⟩, ⟨21, 4, 12, 0⟩] :
          List rv_isa_ext_t)[i]? = some ri →
        ([⟨4, 1, 2, 0⟩, ⟨5, 1, 2, 0⟩, ⟨7, 5, 2, 1⟩, ⟨16, 4, 2, 0⟩, ⟨21, 4, 12, 0⟩] :
          List rv_isa_ext_t)[j]? = some rj →
        ri.name + ri.len ≤ rj.name) :=
  name_spans_well_formed (cstr "rv64gc_zicsr2p1_sv48_xfoo12")
    ⟨RV32, 0, List.replicate 5 ⟨0, 0, 0, 0⟩⟩
    ⟨RV64, 5, [⟨4, 1, 2, 0⟩, ⟨5, 1, 2, 0⟩, ⟨7, 5, 2, 1⟩, ⟨16, 4, 2, 0⟩, ⟨21, 4, 12, 0⟩]⟩ 2 5
    ⟨RV_ISA_INVALID_XLEN, 0⟩ ⟨RV_ISA_INVALID_XLEN, 0⟩ (by decide) (by decide) (by decide)

/-- C15 (termination). On every string `rv_isa_string_parse` returns (the fuel of
the token loop, one unit per character plus one, never runs out); every pass of
the state machine that emits a token, from `parse_ext_start` to `parse_ext_end`,
leaves the cursor strictly further right than it found it, and within the
string, also after the backward stripping of the multi-letter branch; and the
number of tokens counted in `num_exts` is at most the number of characters
after the width literal (and 0 when no width literal is recognised), whether
the parse succeeds or fails. -/
theorem parse_terminates (s : List Nat) (isa : rv_isa_t) (d : Int) (cap : Nat)
    (err : rv_isa_parse_error_t) :
    (∃ r, rv_isa_string_parse s isa d cap err = some r ∧
      (∀ x, starts_with (width_name x) s →
        r.2.1.num_exts + (width_name x).length ≤ s.length) ∧
      ((¬ ∃ x, starts_with (width_name x) s) → r.2.1.num_exts = 0)) ∧
    (∀ v v1 e, parse_ext_start s d v = .ext_end v1 e →
      v.isa_string < v1.isa_string ∧ v1.isa_string ≤ s.length) := by
  refine ⟨?_, fun v v1 e h => parse_ext_start_advance s d v v1 e h⟩
  rcases parse_cases s isa d cap err with ⟨hw, hp⟩ | ⟨w, p, toks, fin, hw, hs, hp⟩
  · refine ⟨_, hp, ?_, fun _ => rfl⟩
    intro x hx
    have := (width_literal_eq_some s x _).mpr ⟨hx, rfl⟩
    rw [hw] at this
    cases this
  · refine ⟨_, hp, ?_, ?_⟩
    · intro x hx
      have hx2 := (width_literal_eq_some s x _).mpr ⟨hx, rfl⟩
      rw [hw] at hx2
      cases hx2
      have hsp := (scan_tokens_spans s d _ _ toks fin hs).2.2
      have hle := width_literal_le s w _ hw
      simp only [scan_init] at hsp
      simp only
      omega
    · intro hno
      exfalso
      exact hno ⟨w, ((width_literal_eq_some s w p).mp hw).1⟩

/-! ## Lemmas: strings without digits after the width literal -/

theorem charAt_no_digit (s : List Nat) (p : Nat)
    (hnd : ∀ c ∈ s.drop p, isdigit c = false) (q : Nat) (hq : p ≤ q) :
    isdigit (charAt s q) = false := by
  by_cases h : q < s.length
  · have h1 : charAt s q = s[q] := List.getD_eq_getElem _ _ h
    rw [h1]
    apply hnd
    have h2 : (s.drop p)[q - p]? = some s[q] := by
      rw [List.getElem?_drop, show p + (q - p) = q by omega, List.getElem?_eq_getElem h]
    exact List.getElem?_mem h2
  · rw [charAt_of_le s q (by omega)]
    rfl

theorem strtol_no_digit (s : List Nat) (p : Nat)
    (hnd : ∀ c ∈ s.drop p, isdigit c = false) (q : Nat) (hq : p ≤ q) :
    strtol s q = (0, q) := by
  have h1 := strtol_digits_ge s q
  have h2 := charAt_no_digit s p hnd (strtol_digits s q) (by omega)
  unfold strtol
  simp only [takeWhile_drop_nil _ _ _ h2, if_true]

theorem parse_version_no_digit (s : List Nat) (p : Nat)
    (hnd : ∀ c ∈ s.drop p, isdigit c = false) (v : scan_vars) (e : rv_isa_ext_t)
    (hv : p ≤ v.isa_string) :
    parse_version s v e = .ext_end { v with parsed_version := false } e := by
  unfold parse_version
  simp only [strtol_no_digit s p hnd _ hv, if_true]

theorem parse_ext_name_no_digit (s : List Nat) (p : Nat)
    (hnd : ∀ c ∈ s.drop p, isdigit c = false) (d : Int) (v v1 : scan_vars) (c : Nat)
    (e1 : rv_isa_ext_t) (hv : p ≤ v.isa_string)
    (h : parse_ext_name s d v c = .ext_end v1 e1) :
    e1.major = d ∧ e1.minor = 0 := by
  unfold parse_ext_name at h
  simp only at h
  split at h
  · split at h
    · cases h
    · split at h
      · cases h
      · rw [parse_version_no_digit s p hnd _ _ (by simp only; omega)] at h
        cases h
        exact ⟨rfl, rfl⟩
  · split at h
    · split at h
      · cases h
      · split at h
        · cases h
          exact ⟨rfl, rfl⟩
        · rw [parse_version_no_digit s p hnd _ _ (by simp only; omega)] at h
          cases h
          exact ⟨rfl, rfl⟩
    · cases h

theorem parse_ext_start_no_digit (s : List Nat) (p : Nat)
    (hnd : ∀ c ∈ s.drop p, isdigit c = false) (d : Int) (v v1 : scan_vars)
    (e1 : rv_isa_ext_t) (hv : p ≤ v.isa_string)
    (h : parse_ext_start s d v = .ext_end v1 e1) :
    e1.major = d ∧ e1.minor = 0 := by
  unfold parse_ext_start at h
  simp only at h
  split at h
  · cases h
  · split at h
    · exact parse_ext_name_no_digit s p hnd d _ v1 _ e1 (by simp only; omega) h
    · exact parse_ext_name_no_digit s p hnd d v v1 _ e1 hv h

theorem scan_tokens_no_digit (s : List Nat) (p : Nat)
    (hnd : ∀ c ∈ s.drop p, isdigit c = false) (d : Int) :
    ∀ (fuel : Nat) (v : scan_vars) (toks : List rv_isa_ext_t)
      (fin : Option rv_isa_parse_error_t), p ≤ v.isa_string →
      scan_tokens s d fuel v = some (toks, fin) →
      ∀ t ∈ toks, t.major = d ∧ t.minor = 0 := by
  intro fuel
  induction fuel with
  | zero => intro v toks fin _ h; simp [scan_tokens] at h
  | succ n ih =>
    intro v toks fin hv h
    simp only [scan_tokens] at h
    cases hp : parse_ext_start s d v with
    | ret_true v1 =>
      rw [hp] at h; cases h
      intro t ht; simp at ht
    | ret_error r l =>
      rw [hp] at h; cases h
      intro t ht; simp at ht
    | ext_end v1 ext =>
      rw [hp] at h
      simp only at h
      cases hs : scan_tokens s d n v1 with
      | none => rw [hs] at h; simp at h
      | some r =>
        rw [hs] at h
        obtain ⟨toks1, fin1⟩ := r
        simp only [Option.map_some', Option.some.injEq, Prod.mk.injEq] at h
        obtain ⟨rfl, rfl⟩ := h
        have hadv := parse_ext_start_advance s d v v1 ext hp
        intro t ht
        rcases List.mem_cons.mp ht with rfl | ht
        · exact parse_ext_start_no_digit s p hnd d v v1 _ hv hp
        · exact ih v1 toks1 fin1 (by omega) hs t ht

/-- C16, the claim as stated fails: "rv32i" has no decimal digit after its width
literal, the parse with default major version 2 returns true, and the record of
`i` has major version 2, not -1. -/
theorem absent_major_is_default_not_minus_one :
    (∀ c ∈ (cstr "rv32i").drop 4, isdigit c = false) ∧
    rv_isa_string_parse (cstr "rv32i") ⟨RV32, 0, List.replicate 1 ⟨0, 0, 0, 0⟩⟩ 2 1
        ⟨RV_ISA_INVALID_XLEN, 0⟩ =
      some (true, ⟨RV32, 1, [⟨4, 1, 2, 0⟩]⟩, ⟨RV_ISA_INVALID_XLEN, 0⟩) ∧
    ¬ ∀ r ∈ ([⟨4, 1, 2, 0⟩] : List rv_isa_ext_t), r.major = -1 := by
  decide

/-- C16, amended. An absent version is reported as the caller's default: when the
string `s` begins with the literal of the width `x`, contains no decimal digit
after that literal, and `rv_isa_string_parse` returns true with a capacity of at
least `num_exts` (the buffer holding at least as many slots as the capacity),
every record has major version `default_major_version` and minor version 0. -/
theorem absent_version_is_default (s : List Nat) (isa isa1 : rv_isa_t) (d : Int) (cap : Nat)
    (err err1 : rv_isa_parse_error_t) (x : rv_isa_xlen_t)
    (hx : starts_with (width_name x) s)
    (hnd : ∀ c ∈ s.drop (width_name x).length, isdigit c = false)
    (h : rv_isa_string_parse s isa d cap err = some (true, isa1, err1))
    (hcap : isa1.num_exts ≤ cap) (hbuf : cap ≤ isa.exts.length)
    (i : Nat) (r : rv_isa_ext_t) (hi : i < isa1.num_exts) (hr : isa1.exts[i]? = some r) :
    r.major = d ∧ r.minor = 0 := by
  obtain ⟨w, p, toks, hw, hs, hn, _, hrec⟩ :=
    parse_success_record s isa isa1 d cap err err1 h hcap hbuf
  have hx2 := (width_literal_eq_some s x _).mpr ⟨hx, rfl⟩
  rw [hw] at hx2
  cases hx2
  rw [hn] at hi
  rw [hrec i hi, List.getElem?_eq_getElem hi] at hr
  cases hr
  exact scan_tokens_no_digit s _ hnd d _ _ toks none (by simp [scan_init]) hs _
    (List.getElem_mem hi)

/-- C16 amended, at "rv64gc_zicsr" with default major version -1: the parse returns
true and the third record, `zicsr`, has major version -1 and minor version 0. -/
theorem absent_version_is_default_witness :
    rv_isa_string_parse (cstr "rv64gc_zicsr") ⟨RV32, 0, List.replicate 3 ⟨0, 0, 0, 0⟩⟩ (-1) 3
        ⟨RV_ISA_INVALID_XLEN, 0⟩ =
      some (true, ⟨RV64, 3, [⟨4, 1, -1, 0⟩, ⟨5, 1, -1, 0⟩, ⟨7, 5, -1, 0⟩]⟩,
        ⟨RV_ISA_INVALID_XLEN, 0⟩) ∧
    (({ name := 7, len := 5, major := -1, minor := 0 } : rv_isa_ext_t).major = -1 ∧
      ({ name := 7, len := 5, major := -1, minor := 0 } : rv_isa_ext_t).minor = 0) :=
  ⟨by decide,
   absent_version_is_default (cstr "rv64gc_zicsr") ⟨RV32, 0, List.replicate 3 ⟨0, 0, 0, 0⟩⟩
    ⟨RV64, 3, [⟨4, 1, -1, 0⟩, ⟨5, 1, -1, 0⟩, ⟨7, 5, -1, 0⟩]⟩ (-1) 3
    ⟨RV_ISA_INVALID_XLEN, 0⟩ ⟨RV_ISA_INVALID_XLEN, 0⟩ RV64 (by decide) (by decide) (by decide)
    (by decide) (by decide) 2 ⟨7, 5, -1, 0⟩ (by decide) (by decide)⟩

/-! ## Lemmas: an underscore appended to the string -/

theorem charAt_snoc (s : List Nat) (i : Nat) :
    charAt (s ++ [95]) i = if i = s.length then 95 else charAt s i := by
  by_cases h1 : i < s.length
  · rw [charAt_append_left _ _ _ h1, if_neg (by omega)]
  · by_cases h2 : i = s.length
    · rw [if_pos h2, h2, charAt_append_right_sub _ _ _ (Nat.le_refl _), Nat.sub_self]
      rfl
    · rw [if_neg h2, charAt_of_le s i (by omega), charAt_of_le _ i (by simp; omega)]

theorem charAt_snoc_cases (s : List Nat) (i : Nat) :
    charAt (s ++ [95]) i = charAt s i ∨ (charAt (s ++ [95]) i = 95 ∧ charAt s i = 0) := by
  rw [charAt_snoc]
  by_cases h : i = s.length
  · rw [if_pos h]
    exact Or.inr ⟨rfl, charAt_of_le s i (by omega)⟩
  · rw [if_neg h]
    exact Or.inl rfl

theorem isdigit_charAt_snoc (s : List Nat) (i : Nat) :
    isdigit (charAt (s ++ [95]) i) = isdigit (charAt s i) := by
  rcases charAt_snoc_cases s i with h | ⟨h1, h2⟩
  · rw [h]
  · rw [h1, h2]; rfl

theorem charAt_snoc_eq_iff (s : List Nat) (i c : Nat) (h0 : c ≠ 0) (h95 : c ≠ 95) :
    charAt (s ++ [95]) i = c ↔ charAt s i = c := by
  rcases charAt_snoc_cases s i with h | ⟨h1, h2⟩
  · rw [h]
  · rw [h1, h2]
    constructor
    · intro h; exact absurd h.symm h95
    · intro h; exact absurd h.symm h0

theorem takeWhile_snoc (p : Nat → Bool) (hp : p 95 = false) (l : List Nat) :
    (l ++ [95]).takeWhile p = l.takeWhile p := by
  induction l with
  | nil => simp [List.takeWhile, hp]
  | cons a l ih =>
    rw [List.cons_append, List.takeWhile_cons, List.takeWhile_cons, ih]

theorem takeWhile_drop_snoc (p : Nat → Bool) (hp : p 95 = false) (s : List Nat) (i : Nat) :
    ((s ++ [95]).drop i).takeWhile p = (s.drop i).takeWhile p := by
  by_cases h : i ≤ s.length
  · rw [List.drop_append_of_le_length h, takeWhile_snoc p hp]
  · rw [List.drop_of_length_le (by simp; omega), List.drop_of_length_le (by omega)]

theorem strtol_skip_snoc (s : List Nat) (i : Nat) :
    strtol_skip (s ++ [95]) i = strtol_skip s i := by
  unfold strtol_skip
  rw [takeWhile_drop_snoc isspace (by decide)]

theorem strtol_digits_snoc (s : List Nat) (i : Nat) :
    strtol_digits (s ++ [95]) i = strtol_digits s i := by
  unfold strtol_digits
  simp only [strtol_skip_snoc, charAt_snoc_eq_iff s _ 45 (by decide) (by decide),
    charAt_snoc_eq_iff s _ 43 (by decide) (by decide)]

theorem strtol_snoc (s : List Nat) (i : Nat) : strtol (s ++ [95]) i = strtol s i := by
  unfold strtol
  simp only [strtol_skip_snoc, strtol_digits_snoc, takeWhile_drop_snoc isdigit (by decide),
    charAt_snoc_eq_iff s _ 45 (by decide) (by decide)]

theorem strip_digits_snoc (s : List Nat) (start : Nat) :
    ∀ n, strip_digits (s ++ [95]) start n = strip_digits s start n := by
  intro n
  induction n with
  | zero => rfl
  | succ k ih => simp only [strip_digits, isdigit_charAt_snoc, ih]

theorem parse_version_snoc (s : List Nat) (v : scan_vars) (e : rv_isa_ext_t) :
    parse_version (s ++ [95]) v e = parse_version s v e := by
  unfold parse_version
  simp only [strtol_snoc, ne_eq, charAt_snoc_eq_iff s _ 112 (by decide) (by decide)]

theorem parse_ext_name_snoc (s : List Nat) (d : Int) (v : scan_vars) (c : Nat) :
    parse_ext_name (s ++ [95]) d v c = parse_ext_name s d v c := by
  unfold parse_ext_name
  simp only [parse_version_snoc, strip_digits_snoc, isdigit_charAt_snoc,
    takeWhile_drop_snoc isdigit (by decide), takeWhile_drop_snoc isalnum (by decide),
    charAt_snoc_eq_iff s _ 112 (by decide) (by decide),
    charAt_snoc_eq_iff s _ 118 (by decide) (by decide)]

theorem parse_ext_name_invalid (s : List Nat) (d : Int) (v : scan_vars) (c : Nat)
    (hc : c = 0 ∨ c = 95) :
    parse_ext_name s d v c = .ret_error RV_ISA_INVALID_EXT_NAME v.isa_string := by
  unfold parse_ext_name
  rcases hc with rfl | rfl
  · rw [if_neg (by decide), if_neg (by decide)]
  · rw [if_neg (by decide), if_neg (by decide)]

theorem parse_ext_start_snoc (s : List Nat) (d : Int) (v : scan_vars)
    (hv : v.isa_string ≠ s.length) :
    parse_ext_start (s ++ [95]) d v = parse_ext_start s d v := by
  have h0 : charAt (s ++ [95]) v.isa_string = charAt s v.isa_string := by
    rw [charAt_snoc, if_neg hv]
  unfold parse_ext_start
  simp only [h0, parse_ext_name_snoc]
  rcases charAt_snoc_cases s (v.isa_string + 1) with h | ⟨h1, h2⟩
  · rw [h]
  · rw [h1, h2]
    rw [parse_ext_name_invalid s d _ (tolower 95) (Or.inr rfl),
      parse_ext_name_invalid s d _ (tolower 0) (Or.inl rfl)]

theorem parse_ext_start_at_underscore (s : List Nat) (d : Int) (v : scan_vars)
    (hv : v.isa_string = s.length) :
    parse_ext_start (s ++ [95]) d v = .ret_error RV_ISA_INVALID_EXT_NAME (s.length + 1) := by
  have h0 : charAt (s ++ [95]) v.isa_string = 95 := by
    rw [charAt_snoc, if_pos hv]
  have h1 : charAt (s ++ [95]) (v.isa_string + 1) = 0 :=
    charAt_of_le _ _ (by simp [hv])
  unfold parse_ext_start
  simp only [h0, h1]
  rw [if_neg (by decide), if_pos (by decide),
    parse_ext_name_invalid _ d _ (tolower 0) (Or.inl rfl), hv]

theorem charAt_ne_zero_of_lt (s : List Nat) (hnul : ∀ c ∈ s, c ≠ 0) (i : Nat)
    (h : i < s.length) : charAt s i ≠ 0 :=
  hnul _ (charAt_mem s i h)

theorem parse_version_not_true (s : List Nat) (v v1 : scan_vars) (e : rv_isa_ext_t) :
    parse_version s v e ≠ .ret_true v1 := by
  intro h
  unfold parse_version at h
  simp only at h
  split at h
  · cases h
  · split at h
    · cases h
    · split at h <;> cases h

theorem parse_ext_name_not_true (s : List Nat) (d : Int) (v v1 : scan_vars) (c : Nat) :
    parse_ext_name s d v c ≠ .ret_true v1 := by
  intro h
  unfold parse_ext_name at h
  simp only at h
  split at h
  · split at h
    · cases h
    · split at h
      · cases h
      · exact parse_version_not_true s _ v1 _ h
  · split at h
    · split at h
      · cases h
      · split at h
        · cases h
        · exact parse_version_not_true s _ v1 _ h
    · cases h

theorem parse_ext_start_true (s : List Nat) (d : Int) (v v1 : scan_vars)
    (h : parse_ext_start s d v = .ret_true v1) : charAt s v.isa_string = 0 := by
  unfold parse_ext_start at h
  simp only at h
  split at h
  · rename_i h0
    exact (tolower_eq_zero _).mp h0
  · split at h
    · exact absurd h (parse_ext_name_not_true s d _ v1 _)
    · exact absurd h (parse_ext_name_not_true s d _ v1 _)

theorem scan_tokens_snoc (s : List Nat) (hnul : ∀ c ∈ s, c ≠ 0) (d : Int) :
    ∀ (fuel : Nat) (v : scan_vars) (toks : List rv_isa_ext_t), v.isa_string ≤ s.length →
      scan_tokens s d fuel v = some (toks, none) →
      scan_tokens (s ++ [95]) d fuel v =
        some (toks, some { reason := RV_ISA_INVALID_EXT_NAME, location := s.length + 1 }) := by
  intro fuel
  induction fuel with
  | zero => intro v toks _ h; simp [scan_tokens] at h
  | succ n ih =>
    intro v toks hv h
    simp only [scan_tokens] at h ⊢
    cases hp : parse_ext_start s d v with
    | ret_true v1 =>
      rw [hp] at h
      cases h
      have hpos : v.isa_string = s.length := by
        by_contra hne
        exact charAt_ne_zero_of_lt s hnul _ (by omega) (parse_ext_start_true s d v v1 hp)
      rw [parse_ext_start_at_underscore s d v hpos]
    | ret_error r l => rw [hp] at h; cases h
    | ext_end v1 ext =>
      rw [hp] at h
      have hadv := parse_ext_start_advance s d v v1 ext hp
      rw [parse_ext_start_snoc s d v (by omega), hp]
      simp only at h ⊢
      cases hs : scan_tokens s d n v1 with
      | none => rw [hs] at h; simp at h
      | some r =>
        rw [hs] at h
        obtain ⟨toks1, fin1⟩ := r
        simp only [Option.map_some', Option.some.injEq, Prod.mk.injEq] at h
        obtain ⟨rfl, rfl⟩ := h
        rw [ih v1 toks1 hadv.2 hs]
        rfl

theorem width_literal_append (s t : List Nat) (w : rv_isa_xlen_t) (p : Nat)
    (h : width_literal s = some (w, p)) : width_literal (s ++ t) = some (w, p) := by
  have hle := width_literal_le s w p h
  have hw := (width_literal_eq_some s w p).mp h
  rw [width_literal_eq_some]
  refine ⟨?_, hw.2⟩
  have hnz : ∀ x ∈ width_name w, x ≠ 0 := by cases w <;> decide
  rw [starts_with_iff _ _ hnz]
  intro i hi
  rw [charAt_append_left s t i (by rw [hw.2] at hle; omega)]
  exact (starts_with_iff _ s hnz).mp hw.1 i hi

/-- C19 (trailing underscore). When `rv_isa_string_parse` returns true on a NUL-free
string `s`, the parse of `s` followed by an underscore, with the same arguments,
fails with reason `RV_ISA_INVALID_EXT_NAME` and error offset `|s| + 1` (the
cursor after the underscore, the end of the string), and it leaves the same
`isa` structure as the parse of `s`: the same width, the same `num_exts` and
the same records, so the first `|s|` characters are tokenised as before. -/
theorem trailing_underscore_rejected (s : List Nat) (isa isa1 : rv_isa_t) (d : Int) (cap : Nat)
    (err err1 : rv_isa_parse_error_t) (hnul : ∀ c ∈ s, c ≠ 0)
    (h : rv_isa_string_parse s isa d cap err = some (true, isa1, err1)) :
    rv_isa_string_parse (s ++ cstr "_") isa d cap err =
      some (false, isa1, { reason := RV_ISA_INVALID_EXT_NAME, location := s.length + 1 }) := by
  obtain ⟨w, p, toks, hw, hs, rfl, _⟩ := parse_success_tokens s isa isa1 d cap err err1 h
  have hle := width_literal_le s w p hw
  have h2 := scan_tokens_snoc s hnul d (s.length + 1) (scan_init p) toks hle hs
  rw [cstr_us]
  exact parse_of_scan (s ++ [95]) isa d cap err w p _ _ _ (width_literal_append s [95] w p hw) h2

/-- C19 at "rv32imac": the parse of "rv32imac_" fails with `RV_ISA_INVALID_EXT_NAME`
at offset 9 and leaves the four records of "rv32imac". -/
theorem trailing_underscore_rejected_witness :
    rv_isa_string_parse (cstr "rv32imac" ++ cstr "_") ⟨RV64, 0, List.replicate 4 ⟨0, 0, 0, 0⟩⟩
        2 4 ⟨RV_ISA_INVALID_XLEN, 0⟩ =
      some (false, ⟨RV32, 4, [⟨4, 1, 2, 0⟩, ⟨5, 1, 2, 0⟩, ⟨6, 1, 2, 0⟩, ⟨7, 1, 2, 0⟩]⟩,
        { reason := RV_ISA_INVALID_EXT_NAME, location := (cstr "rv32imac").length + 1 }) :=
  trailing_underscore_rejected (cstr "rv32imac") ⟨RV64, 0, List.replicate 4 ⟨0, 0, 0, 0⟩⟩
    ⟨RV32, 4, [⟨4, 1, 2, 0⟩, ⟨5, 1, 2, 0⟩, ⟨6, 1, 2, 0⟩, ⟨7, 1, 2, 0⟩]⟩ 2 4
    ⟨RV_ISA_INVALID_XLEN, 0⟩ ⟨RV_ISA_INVALID_XLEN, 0⟩ (by decide) (by decide)

/-! ## Lemmas: names that end in a digit -/

theorem takeWhile_getD (p : Nat → Bool) :
    ∀ (l : List Nat) (k : Nat), k < (l.takeWhile p).length → p (l.getD k 0) = true := by
  intro l
  induction l with
  | nil => intro k h; simp at h
  | cons a l ih =>
    intro k h
    by_cases ha : p a = true
    · rw [List.takeWhile_cons_of_pos ha] at h
      cases k with
      | zero => simpa using ha
      | succ k =>
        simp only [List.length_cons, Nat.add_lt_add_iff_right] at h
        simpa using ih k h
    · rw [List.takeWhile_cons_of_neg ha] at h
      simp at h

theorem takeWhile_drop_charAt (p : Nat → Bool) (s : List Nat) (i k : Nat)
    (h : k < ((s.drop i).takeWhile p).length) : p (charAt s (i + k)) = true := by
  have := takeWhile_getD p (s.drop i) k h
  unfold charAt
  rw [List.getD_eq_getElem?_getD] at this ⊢
  rw [List.getElem?_drop] at this
  exact this

theorem takeWhile_drop_pos (p : Nat → Bool) (s : List Nat) (i : Nat)
    (h : p (charAt s i) = true) (h0 : p 0 = false) :
    1 ≤ ((s.drop i).takeWhile p).length := by
  by_cases hi : i < s.length
  · rw [List.drop_eq_getElem_cons hi]
    have : charAt s i = s[i] := List.getD_eq_getElem _ _ hi
    rw [this] at h
    rw [List.takeWhile_cons_of_pos h]
    simp
  · rw [charAt_of_le s i (by omega), h0] at h
    cases h

theorem strip_digits_last (s : List Nat) (start : Nat) :
    ∀ n, 1 ≤ strip_digits s start n →
      isdigit (charAt s (start + (strip_digits s start n - 1))) = false := by
  intro n
  induction n with
  | zero => intro h; simp [strip_digits] at h
  | succ k ih =>
    intro h
    simp only [strip_digits] at h ⊢
    split
    · rename_i hd
      rw [if_pos hd] at h
      exact ih h
    · rename_i hd
      simp only [Nat.add_sub_cancel]
      simpa using hd

theorem parse_ext_name_digit_end (s : List Nat) (d : Int) (v v1 : scan_vars)
    (e1 : rv_isa_ext_t)
    (h : parse_ext_name s d v (tolower (charAt s v.isa_string)) = .ext_end v1 e1)
    (hd : name_ends_in_digit s e1) : is_sv_name s e1 := by
  have hspan := parse_ext_name_span s d v v1 e1 h
  unfold name_ends_in_digit at hd
  unfold parse_ext_name at h
  simp only at h
  split at h
  · rename_i hi
    have hf := single_char_facts (charAt s v.isa_string) hi
    split at h
    · cases h
    · split at h
      · cases h
      · have hk := parse_version_keeps s _ v1 _ e1 h
        simp only at hk
        rw [hk.1, hk.2.1, Nat.sub_self, Nat.add_zero, hf.2.2.2.2.2] at hd
        cases hd
  · split at h
    · rename_i hz
      split at h
      · cases h
      · split at h
        · rename_i hsv
          cases h
          have hrun := takeWhile_drop_pos isdigit s (v.isa_string + 2) hsv.2.2 (by decide)
          refine ⟨by simp only; omega, ?_, hsv.2.1, ?_⟩
          · have := hsv.1
            unfold tolower at this
            simp only
            split at this <;> omega
          · intro j hj h2
            simp only at hj ⊢
            have := takeWhile_drop_charAt isdigit s (v.isa_string + 2) (j - 2) (by omega)
            rw [show v.isa_string + 2 + (j - 2) = v.isa_string + j by omega] at this
            exact this
        · have hk := parse_version_keeps s _ v1 _ e1 h
          simp only at hk
          exfalso
          have hlen := hspan.2.1
          rw [hk.1, hk.2.1] at hd
          rw [hk.2.1] at hlen
          split at hd
          · rename_i hp
            rw [if_pos hp] at hlen
            rw [strip_digits_last s v.isa_string _ hlen] at hd
            cases hd
          · rename_i hp
            rw [if_neg hp] at hlen
            rw [strip_digits_last s v.isa_string _ hlen] at hd
            cases hd
    · cases h

theorem parse_ext_start_digit_end (s : List Nat) (d : Int) (v v1 : scan_vars)
    (e1 : rv_isa_ext_t) (h : parse_ext_start s d v = .ext_end v1 e1)
    (hd : name_ends_in_digit s e1) : is_sv_name s e1 := by
  unfold parse_ext_start at h
  simp only at h
  split at h
  · cases h
  · split at h
    · exact parse_ext_name_digit_end s d _ v1 e1 h hd
    · exact parse_ext_name_digit_end s d v v1 e1 h hd

theorem scan_tokens_digit_end (s : List Nat) (d : Int) :
    ∀ (fuel : Nat) (v : scan_vars) (toks : List rv_isa_ext_t)
      (fin : Option rv_isa_parse_error_t),
      scan_tokens s d fuel v = some (toks, fin) →
      ∀ t ∈ toks, name_ends_in_digit s t → is_sv_name s t := by
  intro fuel
  induction fuel with
  | zero => intro v toks fin h; simp [scan_tokens] at h
  | succ n ih =>
    intro v toks fin h
    simp only [scan_tokens] at h
    cases hp : parse_ext_start s d v with
    | ret_true v1 =>
      rw [hp] at h; cases h
      intro t ht; simp at ht
    | ret_error r l =>
      rw [hp] at h; cases h
      intro t ht; simp at ht
    | ext_end v1 ext =>
      rw [hp] at h
      simp only at h
      cases hs : scan_tokens s d n v1 with
      | none => rw [hs] at h; simp at h
      | some r =>
        rw [hs] at h
        obtain ⟨toks1, fin1⟩ := r
        simp only [Option.map_some', Option.some.injEq, Prod.mk.injEq] at h
        obtain ⟨rfl, rfl⟩ := h
        intro t ht
        rcases List.mem_cons.mp ht with rfl | ht
        · exact parse_ext_start_digit_end s d v v1 _ hp
        · exact ih v1 toks1 fin1 hs t ht

theorem sv_name_ends_in_digit (s : List Nat) (r : rv_isa_ext_t) (h : is_sv_name s r) :
    name_ends_in_digit s r := by
  unfold name_ends_in_digit
  exact h.2.2.2 (r.len - 1) (by have := h.1; omega) (by have := h.1; omega)

/-- C20 (only address-translation names end in a digit). When
`rv_isa_string_parse` returns true and the capacity was at least `num_exts` (the
buffer holding at least as many slots as the capacity), the name span of a
record ends in a decimal digit if and only if the name is `s` or `S`, then a
lowercase `v`, then one or more decimal digits and nothing else; the name of
every other record ends in a character that is not a digit. -/
theorem digit_end_iff_sv_name (s : List Nat) (isa isa1 : rv_isa_t) (d : Int) (cap : Nat)
    (err err1 : rv_isa_parse_error_t)
    (h : rv_isa_string_parse s isa d cap err = some (true, isa1, err1))
    (hcap : isa1.num_exts ≤ cap) (hbuf : cap ≤ isa.exts.length)
    (i : Nat) (r : rv_isa_ext_t) (hi : i < isa1.num_exts) (hr : isa1.exts[i]? = some r) :
    name_ends_in_digit s r ↔ is_sv_name s r := by
  obtain ⟨w, p, toks, hw, hs, hn, _, hrec⟩ :=
    parse_success_record s isa isa1 d cap err err1 h hcap hbuf
  rw [hn] at hi
  rw [hrec i hi, List.getElem?_eq_getElem hi] at hr
  cases hr
  exact ⟨scan_tokens_digit_end s d _ _ toks none hs _ (List.getElem_mem hi),
    sv_name_ends_in_digit s _⟩

/-- C20 at "rv64gc_zicsr2p1_sv48_xfoo12": the parse returns true with five records;
the fourth, `sv48` (offset 16, length 4), ends in a digit and is an
address-translation name. -/
theorem digit_end_iff_sv_name_witness :
    rv_isa_string_parse (cstr "rv64gc_zicsr2p1_sv48_xfoo12")
        ⟨RV32, 0, List.replicate 5 ⟨0, 0, 0, 0⟩⟩ 2 5 ⟨RV_ISA_INVALID_XLEN, 0⟩ =
      some (true,
        ⟨RV64, 5, [⟨4, 1, 2, 0⟩, ⟨5, 1, 2, 0⟩, ⟨7, 5, 2, 1⟩, ⟨16, 4, 2, 0⟩, ⟨21, 4, 12, 0⟩]⟩,
        ⟨RV_ISA_INVALID_XLEN, 0⟩) ∧
    (name_ends_in_digit (cstr "rv64gc_zicsr2p1_sv48_xfoo12") ⟨16, 4, 2, 0⟩ ↔
      is_sv_name (cstr "rv64gc_zicsr2p1_sv48_xfoo12") ⟨16, 4, 2, 0⟩) :=
  ⟨by decide,
   digit_end_iff_sv_name (cstr "rv64gc_zicsr2p1_sv48_xfoo12")
    ⟨RV32, 0, List.replicate 5 ⟨0, 0, 0, 0⟩⟩
    ⟨RV64, 5, [⟨4, 1, 2, 0⟩, ⟨5, 1, 2, 0⟩, ⟨7, 5, 2, 1⟩, ⟨16, 4, 2, 0⟩, ⟨21, 4, 12, 0⟩]⟩ 2 5
    ⟨RV_ISA_INVALID_XLEN, 0⟩ ⟨RV_ISA_INVALID_XLEN, 0⟩ (by decide) (by decide) (by decide)
    3 ⟨16, 4, 2, 0⟩ (by decide) (by decide)⟩

/-- C17, evaluated: `strtol` skips white space and takes a sign, so a version is
parsed where the cursor is not at a digit. In "rv32i -5" the state
`parse_version` is entered for `i` with the cursor at the space (offset 5), and
it leaves with major version -5 and the cursor at offset 8; the parse returns
true with that record. In "rv32i2p-5" the character after the `p` is `-` and
the parse returns true with minor version -5. In "rv32i" followed by a tab and
"+7" the parse returns true with major version 7. -/
theorem version_parsed_at_non_digit :
    charAt (cstr "rv32i -5") 5 = 32 ∧
    parse_version (cstr "rv32i -5")
        { isa_string := 5, parsed_version := false, have_underscore := false,
          last_single_char_ext := 0, multi_letter := false }
        { name := 4, len := 1, major := 2, minor := 0 } =
      .ext_end
        { isa_string := 8, parsed_version := true, have_underscore := false,
          last_single_char_ext := 0, multi_letter := false }
        { name := 4, len := 1, major := -5, minor := 0 } ∧
    rv_isa_string_parse (cstr "rv32i -5") ⟨RV32, 0, List.replicate 1 ⟨0, 0, 0, 0⟩⟩ 2 1
        ⟨RV_ISA_INVALID_XLEN, 0⟩ =
      some (true, ⟨RV32, 1, [⟨4, 1, -5, 0⟩]⟩, ⟨RV_ISA_INVALID_XLEN, 0⟩) ∧
    rv_isa_string_parse (cstr "rv32i2p-5") ⟨RV32, 0, List.replicate 1 ⟨0, 0, 0, 0⟩⟩ 2 1
        ⟨RV_ISA_INVALID_XLEN, 0⟩ =
      some (true, ⟨RV32, 1, [⟨4, 1, 2, -5⟩]⟩, ⟨RV_ISA_INVALID_XLEN, 0⟩) ∧
    rv_isa_string_parse (cstr "rv32i" ++ [9] ++ cstr "+7")
        ⟨RV32, 0, List.replicate 1 ⟨0, 0, 0, 0⟩⟩ 2 1 ⟨RV_ISA_INVALID_XLEN, 0⟩ =
      some (true, ⟨RV32, 1, [⟨4, 1, 7, 0⟩]⟩, ⟨RV_ISA_INVALID_XLEN, 0⟩) := by
  decide

/-- C18, evaluated: `parsed_version` is not updated by the `svN` branch, which
jumps over `parse_version`. On "rv32i2sv39p" the token before the `p` is `sv39`,
for which no version is parsed (with default major version 7 its record has
major version 7 and minor version 0, while `i2` has major version 2), yet the
parse fails with `RV_ISA_AMBIGUOUS_P` at offset 10: the flag is still the one of
`i2`. Without the version on `i`, on "rv32isv39p", the parse returns true with
the three extensions i, sv39 and p. -/
theorem stale_version_flag_after_sv :
    rv_isa_string_parse (cstr "rv32i2sv39p") ⟨RV32, 0, List.replicate 3 ⟨0, 0, 0, 0⟩⟩ 7 3
        ⟨RV_ISA_INVALID_XLEN, 0⟩ =
      some (false, ⟨RV32, 2, [⟨4, 1, 2, 0⟩, ⟨6, 4, 7, 0⟩, ⟨0, 0, 0, 0⟩]⟩,
        ⟨RV_ISA_AMBIGUOUS_P, 10⟩) ∧
    rv_isa_string_parse (cstr "rv32isv39p") ⟨RV32, 0, List.replicate 3 ⟨0, 0, 0, 0⟩⟩ 7 3
        ⟨RV_ISA_INVALID_XLEN, 0⟩ =
      some (true, ⟨RV32, 3, [⟨4, 1, 7, 0⟩, ⟨5, 4, 7, 0⟩, ⟨9, 1, 7, 0⟩]⟩,
        ⟨RV_ISA_INVALID_XLEN, 0⟩) := by
  decide

end RvIsa
